import Mathlib

/-!
# The Harmony (HMY) chain manager of external-initiator

A shallow embedding of `blockchain/hmy.go` and of the parts of
`blockchain/common/common.go` it uses, with the properties of the manager's
four operations (`GetTriggerJson`, `GetTestJson`, `ParseTestResponse`,
`ParseResponse`).

Conventions of the embedding.

* A Go `[]byte` is a `List Nat` whose elements are byte values; a `nil` slice
  returned by an operation is `none`.
* A Go `string` that holds text is a Lean `String`.  The two strings of
  `JsonrpcMessage`, which `json.Marshal` reads byte by byte, are held as their
  bytes.
* `hmyManager` has value receivers but its field `fq` is a pointer, so the
  assignment `h.fq.FromBlock = res` is visible to the caller.  The embedding
  threads the manager state explicitly: the two parse operations return the
  manager after the call next to their Go results.  The two request builders
  assign to nothing and return only their bytes.  The pointer is never nil:
  `createHmyManager`, the only constructor, fills it.
* The calls to the logger and to the Prometheus gauge in `ParseResponse` do not
  touch the manager and are left out.
* `encoding/json` is embedded as far as `JsonrpcMessage` and `string` targets
  need it: the scanner of `scanner.go` (state by state), `checkValid`, `compact`,
  string quoting and unquoting, the decoding of one object into the struct,
  and the encoding and decoding of the value behind an `interface{}`, with
  `float64` numbers as `strconv` reads and writes them.
-/

namespace Hmy

/-! ## Bytes -/

/-- A Go byte slice. -/
abbrev Bytes := List Nat

/-- The UTF-8 encoding of one character (`utf8.EncodeRune`). -/
def utf8EncodeChar (c : Char) : Bytes :=
  let n := c.toNat
  if n < 0x80 then [n]
  else if n < 0x800 then [0xC0 + n / 0x40, 0x80 + n % 0x40]
  else if n < 0x10000 then [0xE0 + n / 0x1000, 0x80 + (n / 0x40) % 0x40, 0x80 + n % 0x40]
  else [0xF0 + n / 0x40000, 0x80 + (n / 0x1000) % 0x40, 0x80 + (n / 0x40) % 0x40,
        0x80 + n % 0x40]

/-- The bytes of a Go string: `[]byte(s)`. -/
def bytesOf (s : String) : Bytes :=
  s.data.flatMap utf8EncodeChar

/-! ## The scanner of `encoding/json` (`scanner.go`) -/

/-- The values a scanner step returns (`scanContinue` ... `scanError`), in the
order of the Go constants. -/
inductive ScanCode where
  | scanContinue
  | scanBeginLiteral
  | scanBeginObject
  | scanObjectKey
  | scanObjectValue
  | scanEndObject
  | scanBeginArray
  | scanArrayValue
  | scanEndArray
  | scanSkipSpace
  | scanEnd
  | scanError
  deriving DecidableEq, Repr

/-- The entries of the scanner's `parseState` stack. -/
inductive ParseState where
  | parseObjectKey
  | parseObjectValue
  | parseArrayValue
  deriving DecidableEq, Repr

/-- The scanner's `step` field: which state function handles the next byte. -/
inductive StepFn where
  | beginValueOrEmpty
  | beginValue
  | beginStringOrEmpty
  | beginString
  | endValue
  | endTop
  | inString
  | inStringEsc
  | inStringEscU
  | inStringEscU1
  | inStringEscU12
  | inStringEscU123
  | neg
  | one
  | zero
  | dot
  | dot0
  | expE
  | expSign
  | exp0
  | litT
  | litTr
  | litTru
  | litF
  | litFa
  | litFal
  | litFals
  | litN
  | litNu
  | litNul
  | failed
  deriving DecidableEq, Repr

/-- The scanner: `step`, `endTop`, the `parseState` stack (top first) and
whether `err` is set. -/
structure Scanner where
  step : StepFn
  endTop : Bool
  parseState : List ParseState
  err : Bool
  deriving DecidableEq, Repr

/-- The limit of `pushParseState`. -/
def maxNestingDepth : Nat := 10000

/-- Go `scanner.reset`. -/
def Scanner.reset : Scanner :=
  { step := .beginValue, endTop := false, parseState := [], err := false }

/-- Go `scanner.error`: records the error and makes every later step fail. -/
def Scanner.error (s : Scanner) : Scanner × ScanCode :=
  ({ s with step := .failed, err := true }, .scanError)

/-- Go `scanner.pushParseState`. -/
def Scanner.pushParseState (s : Scanner) (newParseState : ParseState)
    (successState : ScanCode) : Scanner × ScanCode :=
  let s1 := { s with parseState := newParseState :: s.parseState }
  if s1.parseState.length ≤ maxNestingDepth then (s1, successState) else s1.error

/-- Go `scanner.popParseState`. -/
def Scanner.popParseState (s : Scanner) : Scanner :=
  let rest := s.parseState.tail
  if rest.length = 0 then { s with parseState := rest, step := .endTop, endTop := true }
  else { s with parseState := rest, step := .endValue }

/-- Go `isSpace`. -/
def isSpace (c : Nat) : Bool :=
  c = 0x20 || c = 0x09 || c = 0x0D || c = 0x0A

/-- The decimal digits. -/
def isDigit (c : Nat) : Bool := 0x30 ≤ c && c ≤ 0x39

/-- The hexadecimal digits. -/
def isHexDigit (c : Nat) : Bool :=
  isDigit c || (0x61 ≤ c && c ≤ 0x66) || (0x41 ≤ c && c ≤ 0x46)

/-- Go `stateEndTop`: a non-space byte after the top-level value sets the error,
which the next step or `eof` reports. -/
def stateEndTop (s : Scanner) (c : Nat) : Scanner × ScanCode :=
  if isSpace c then (s, .scanEnd) else ((s.error).1, .scanEnd)

/-- Go `stateEndValue`. -/
def stateEndValue (s : Scanner) (c : Nat) : Scanner × ScanCode :=
  match s.parseState with
  | [] => stateEndTop { s with step := .endTop, endTop := true } c
  | ps :: rest =>
    if isSpace c then ({ s with step := .endValue }, .scanSkipSpace)
    else
      match ps with
      | .parseObjectKey =>
        if c = 0x3A then
          ({ s with parseState := .parseObjectValue :: rest, step := .beginValue }, .scanObjectKey)
        else s.error
      | .parseObjectValue =>
        if c = 0x2C then
          ({ s with parseState := .parseObjectKey :: rest, step := .beginString },
            .scanObjectValue)
        else if c = 0x7D then (s.popParseState, .scanEndObject)
        else s.error
      | .parseArrayValue =>
        if c = 0x2C then ({ s with step := .beginValue }, .scanArrayValue)
        else if c = 0x5D then (s.popParseState, .scanEndArray)
        else s.error

/-- Go `stateBeginValue`. -/
def stateBeginValue (s : Scanner) (c : Nat) : Scanner × ScanCode :=
  if isSpace c then (s, .scanSkipSpace)
  else if c = 0x7B then
    Scanner.pushParseState { s with step := .beginStringOrEmpty } .parseObjectKey .scanBeginObject
  else if c = 0x5B then
    Scanner.pushParseState { s with step := .beginValueOrEmpty } .parseArrayValue .scanBeginArray
  else if c = 0x22 then ({ s with step := .inString }, .scanBeginLiteral)
  else if c = 0x2D then ({ s with step := .neg }, .scanBeginLiteral)
  else if c = 0x30 then ({ s with step := .zero }, .scanBeginLiteral)
  else if c = 0x74 then ({ s with step := .litT }, .scanBeginLiteral)
  else if c = 0x66 then ({ s with step := .litF }, .scanBeginLiteral)
  else if c = 0x6E then ({ s with step := .litN }, .scanBeginLiteral)
  else if 0x31 ≤ c ∧ c ≤ 0x39 then ({ s with step := .one }, .scanBeginLiteral)
  else s.error

/-- Go `stateBeginValueOrEmpty`. -/
def stateBeginValueOrEmpty (s : Scanner) (c : Nat) : Scanner × ScanCode :=
  if isSpace c then (s, .scanSkipSpace)
  else if c = 0x5D then stateEndValue s c
  else stateBeginValue s c

/-- Go `stateBeginString`. -/
def stateBeginString (s : Scanner) (c : Nat) : Scanner × ScanCode :=
  if isSpace c then (s, .scanSkipSpace)
  else if c = 0x22 then ({ s with step := .inString }, .scanBeginLiteral)
  else s.error

/-- Go `stateBeginStringOrEmpty`. -/
def stateBeginStringOrEmpty (s : Scanner) (c : Nat) : Scanner × ScanCode :=
  if isSpace c then (s, .scanSkipSpace)
  else if c = 0x7D then
    stateEndValue { s with parseState := .parseObjectValue :: s.parseState.tail } c
  else stateBeginString s c

/-- Go `stateInString`. -/
def stateInString (s : Scanner) (c : Nat) : Scanner × ScanCode :=
  if c = 0x22 then ({ s with step := .endValue }, .scanContinue)
  else if c = 0x5C then ({ s with step := .inStringEsc }, .scanContinue)
  else if c < 0x20 then s.error
  else (s, .scanContinue)

/-- Go `stateInStringEsc`. -/
def stateInStringEsc (s : Scanner) (c : Nat) : Scanner × ScanCode :=
  if c = 0x62 ∨ c = 0x66 ∨ c = 0x6E ∨ c = 0x72 ∨ c = 0x74 ∨ c = 0x5C ∨ c = 0x2F ∨ c = 0x22 then
    ({ s with step := .inString }, .scanContinue)
  else if c = 0x75 then ({ s with step := .inStringEscU }, .scanContinue)
  else s.error

/-- Go `stateInStringEscU`, `stateInStringEscU1`, `stateInStringEscU12` and
`stateInStringEscU123`: one hexadecimal digit, then on to `next`. -/
def stateHexDigit (next : StepFn) (s : Scanner) (c : Nat) : Scanner × ScanCode :=
  if isHexDigit c then ({ s with step := next }, .scanContinue) else s.error

/-- Go `state0`. -/
def state0 (s : Scanner) (c : Nat) : Scanner × ScanCode :=
  if c = 0x2E then ({ s with step := .dot }, .scanContinue)
  else if c = 0x65 ∨ c = 0x45 then ({ s with step := .expE }, .scanContinue)
  else stateEndValue s c

/-- Go `state1`. -/
def state1 (s : Scanner) (c : Nat) : Scanner × ScanCode :=
  if isDigit c then ({ s with step := .one }, .scanContinue) else state0 s c

/-- Go `stateNeg`. -/
def stateNeg (s : Scanner) (c : Nat) : Scanner × ScanCode :=
  if c = 0x30 then ({ s with step := .zero }, .scanContinue)
  else if 0x31 ≤ c ∧ c ≤ 0x39 then ({ s with step := .one }, .scanContinue)
  else s.error

/-- Go `stateDot`. -/
def stateDot (s : Scanner) (c : Nat) : Scanner × ScanCode :=
  if isDigit c then ({ s with step := .dot0 }, .scanContinue) else s.error

/-- Go `stateDot0`. -/
def stateDot0 (s : Scanner) (c : Nat) : Scanner × ScanCode :=
  if isDigit c then (s, .scanContinue)
  else if c = 0x65 ∨ c = 0x45 then ({ s with step := .expE }, .scanContinue)
  else stateEndValue s c

/-- Go `stateESign`. -/
def stateESign (s : Scanner) (c : Nat) : Scanner × ScanCode :=
  if isDigit c then ({ s with step := .exp0 }, .scanContinue) else s.error

/-- Go `stateE`. -/
def stateE (s : Scanner) (c : Nat) : Scanner × ScanCode :=
  if c = 0x2B ∨ c = 0x2D then ({ s with step := .expSign }, .scanContinue)
  else stateESign s c

/-- Go `stateE0`. -/
def stateE0 (s : Scanner) (c : Nat) : Scanner × ScanCode :=
  if isDigit c then (s, .scanContinue) else stateEndValue s c

/-- Go `stateT`, `stateTr`, `stateF`, ... : inside a literal name the byte
`want` leads to `next`. -/
def stateLetter (want : Nat) (next : StepFn) (s : Scanner) (c : Nat) : Scanner × ScanCode :=
  if c = want then ({ s with step := next }, .scanContinue) else s.error

/-- The call `s.step(s, c)`: the state function the scanner is in, applied to
the next byte. -/
def Scanner.doStep (s : Scanner) (c : Nat) : Scanner × ScanCode :=
  match s.step with
  | .beginValueOrEmpty => stateBeginValueOrEmpty s c
  | .beginValue => stateBeginValue s c
  | .beginStringOrEmpty => stateBeginStringOrEmpty s c
  | .beginString => stateBeginString s c
  | .endValue => stateEndValue s c
  | .endTop => stateEndTop s c
  | .inString => stateInString s c
  | .inStringEsc => stateInStringEsc s c
  | .inStringEscU => stateHexDigit .inStringEscU1 s c
  | .inStringEscU1 => stateHexDigit .inStringEscU12 s c
  | .inStringEscU12 => stateHexDigit .inStringEscU123 s c
  | .inStringEscU123 => stateHexDigit .inString s c
  | .neg => stateNeg s c
  | .one => state1 s c
  | .zero => state0 s c
  | .dot => stateDot s c
  | .dot0 => stateDot0 s c
  | .expE => stateE s c
  | .expSign => stateESign s c
  | .exp0 => stateE0 s c
  | .litT => stateLetter 0x72 .litTr s c
  | .litTr => stateLetter 0x75 .litTru s c
  | .litTru => stateLetter 0x65 .endValue s c
  | .litF => stateLetter 0x61 .litFa s c
  | .litFa => stateLetter 0x6C .litFal s c
  | .litFal => stateLetter 0x73 .litFals s c
  | .litFals => stateLetter 0x65 .endValue s c
  | .litN => stateLetter 0x75 .litNu s c
  | .litNu => stateLetter 0x6C .litNul s c
  | .litNul => stateLetter 0x6C .endValue s c
  | .failed => (s, .scanError)

/-- Go `scanner.eof`: `true` when the input read so far is a complete value
(`scanEnd`), `false` for `scanError`. -/
def Scanner.eof (s : Scanner) : Bool :=
  if s.err then false
  else if s.endTop then true
  else ((s.doStep 0x20).1).endTop

/-- The loop of Go `checkValid`: the scanner after the whole input, or `none`
as soon as a step returns `scanError`. -/
def scanAll (s : Scanner) : Bytes → Option Scanner
  | [] => some s
  | c :: rest =>
    match s.doStep c with
    | (_, .scanError) => none
    | (s1, _) => scanAll s1 rest

/-- Go `checkValid`: whether `data` is one JSON value, blanks around it
allowed. -/
def checkValid (data : Bytes) : Bool :=
  match scanAll Scanner.reset data with
  | none => false
  | some s => s.eof

/-! ## Strings: `unquoteBytes` and the string encoder -/

/-- The rune `utf8.RuneError` and `unicode.ReplacementChar`. -/
def runeError : Nat := 0xFFFD

/-- Whether `b` is a UTF-8 continuation byte in the range `lo ..= hi`. -/
def inRange (lo hi b : Nat) : Bool := lo ≤ b && b ≤ hi

/-- Go `utf8.DecodeRune` on a non-empty slice: the rune and its width; a byte
that starts no well-formed sequence gives `(RuneError, 1)`. -/
def decodeRune : Bytes → Nat × Nat
  | [] => (runeError, 0)
  | p0 :: rest =>
    if p0 < 0x80 then (p0, 1)
    else if inRange 0xC2 0xDF p0 then
      match rest with
      | b1 :: _ =>
        if inRange 0x80 0xBF b1 then ((p0 % 0x20) * 0x40 + b1 % 0x40, 2) else (runeError, 1)
      | _ => (runeError, 1)
    else if inRange 0xE0 0xEF p0 then
      let lo := if p0 = 0xE0 then 0xA0 else 0x80
      let hi := if p0 = 0xED then 0x9F else 0xBF
      match rest with
      | b1 :: b2 :: _ =>
        if inRange lo hi b1 && inRange 0x80 0xBF b2 then
          ((p0 % 0x10) * 0x1000 + (b1 % 0x40) * 0x40 + b2 % 0x40, 3)
        else (runeError, 1)
      | _ => (runeError, 1)
    else if inRange 0xF0 0xF4 p0 then
      let lo := if p0 = 0xF0 then 0x90 else 0x80
      let hi := if p0 = 0xF4 then 0x8F else 0xBF
      match rest with
      | b1 :: b2 :: b3 :: _ =>
        if inRange lo hi b1 && inRange 0x80 0xBF b2 && inRange 0x80 0xBF b3 then
          ((p0 % 0x08) * 0x40000 + (b1 % 0x40) * 0x1000 + (b2 % 0x40) * 0x40 + b3 % 0x40, 4)
        else (runeError, 1)
      | _ => (runeError, 1)
    else (runeError, 1)

/-- The value of a hexadecimal digit. -/
def hexVal (c : Nat) : Option Nat :=
  if isDigit c then some (c - 0x30)
  else if 0x61 ≤ c ∧ c ≤ 0x66 then some (c - 0x61 + 10)
  else if 0x41 ≤ c ∧ c ≤ 0x46 then some (c - 0x41 + 10)
  else none

/-- Go `getu4`: the rune of a leading `\uXXXX`, `none` for Go's `-1`. -/
def getu4 : Bytes → Option Nat
  | 0x5C :: 0x75 :: a :: b :: c :: d :: _ =>
    match hexVal a, hexVal b, hexVal c, hexVal d with
    | some x, some y, some z, some w => some (((x * 16 + y) * 16 + z) * 16 + w)
    | _, _, _, _ => none
  | _ => none

/-- Go `utf16.DecodeRune`. -/
def utf16DecodeRune (r1 : Nat) (r2 : Option Nat) : Nat :=
  match r2 with
  | some r2 =>
    if 0xD800 ≤ r1 ∧ r1 < 0xDC00 ∧ 0xDC00 ≤ r2 ∧ r2 < 0xE000 then
      (r1 - 0xD800) * 0x400 + (r2 - 0xDC00) + 0x10000
    else runeError
  | none => runeError

/-- The loop of Go `unquoteBytes` over the text between the quotes.  Every
round reads at least one byte, so `fuel` bounds the rounds; `none` is Go's
`ok = false` (or no fuel left). -/
def unquoteLoop : Nat → Bytes → Option (List Char)
  | _, [] => some []
  | 0, _ :: _ => none
  | fuel + 1, c :: rest =>
    if c = 0x5C then
      match rest with
      | [] => none
      | e :: rest1 =>
        if e = 0x22 ∨ e = 0x5C ∨ e = 0x2F ∨ e = 0x27 then
          (unquoteLoop fuel rest1).map (Char.ofNat e :: ·)
        else if e = 0x62 then (unquoteLoop fuel rest1).map (Char.ofNat 0x08 :: ·)
        else if e = 0x66 then (unquoteLoop fuel rest1).map (Char.ofNat 0x0C :: ·)
        else if e = 0x6E then (unquoteLoop fuel rest1).map (Char.ofNat 0x0A :: ·)
        else if e = 0x72 then (unquoteLoop fuel rest1).map (Char.ofNat 0x0D :: ·)
        else if e = 0x74 then (unquoteLoop fuel rest1).map (Char.ofNat 0x09 :: ·)
        else if e = 0x75 then
          match getu4 (c :: rest) with
          | none => none
          | some rr =>
            let after := rest.drop 5
            if 0xD800 ≤ rr ∧ rr < 0xE000 then
              let dec := utf16DecodeRune rr (getu4 after)
              if dec ≠ runeError then
                (unquoteLoop fuel (after.drop 6)).map (Char.ofNat dec :: ·)
              else (unquoteLoop fuel after).map (Char.ofNat runeError :: ·)
            else (unquoteLoop fuel after).map (Char.ofNat rr :: ·)
        else none
    else if c = 0x22 ∨ c < 0x20 then none
    else if c < 0x80 then (unquoteLoop fuel rest).map (Char.ofNat c :: ·)
    else
      let (rr, size) := decodeRune (c :: rest)
      (unquoteLoop fuel (rest.drop (size - 1))).map (Char.ofNat rr :: ·)

/-- Go `unquoteBytes`, the result as a string: `s` is a string literal with its
quotes. -/
def unquote (s : Bytes) : Option String :=
  match s with
  | 0x22 :: rest =>
    match rest.reverse with
    | 0x22 :: revBody => (unquoteLoop revBody.length revBody.reverse).map String.mk
    | _ => none
  | _ => none

/-- The digits of Go's `hex` table. -/
def hexDigit (n : Nat) : Nat := if n < 10 then 0x30 + n else 0x61 + (n - 10)

/-- One character as the string encoder writes it with `escapeHTML` on (what
`json.Marshal` uses): `"` and `\` get a backslash, newline, carriage return and
tab their short escapes, the other control characters and `<`, `>`, `&` are
written `\u00XX`, U+2028 and U+2029 `\u202X`, everything else as UTF-8.  The
short escapes `\b` and `\f` of later Go releases are not used. -/
def quoteChar (c : Char) : Bytes :=
  let n := c.toNat
  if n = 0x22 ∨ n = 0x5C then [0x5C, n]
  else if n = 0x0A then [0x5C, 0x6E]
  else if n = 0x0D then [0x5C, 0x72]
  else if n = 0x09 then [0x5C, 0x74]
  else if n < 0x20 ∨ n = 0x3C ∨ n = 0x3E ∨ n = 0x26 then
    [0x5C, 0x75, 0x30, 0x30, hexDigit (n / 16), hexDigit (n % 16)]
  else if n = 0x2028 ∨ n = 0x2029 then [0x5C, 0x75, 0x32, 0x30, 0x32, hexDigit (n % 16)]
  else utf8EncodeChar c

/-- The string encoder: a JSON string literal for `s`. -/
def quote (s : String) : Bytes :=
  0x22 :: (s.data.flatMap quoteChar ++ [0x22])

/-- The loop of Go `encodeState.string` with `escapeHTML` on, over a Go string,
which is any sequence of bytes: ASCII as `quoteChar` writes it, a byte that
starts no well-formed UTF-8 sequence as `\ufffd`, U+2028 and U+2029 as
`\u202X`, and every other sequence as it is.  Every round reads at least one
byte, so `fuel` bounds the rounds. -/
def quoteLoop : Nat → Bytes → Bytes
  | 0, _ => []
  | _ + 1, [] => []
  | fuel + 1, b :: rest =>
    if b < 0x80 then
      (if b = 0x22 ∨ b = 0x5C then [0x5C, b]
        else if b = 0x0A then [0x5C, 0x6E]
        else if b = 0x0D then [0x5C, 0x72]
        else if b = 0x09 then [0x5C, 0x74]
        else if b < 0x20 ∨ b = 0x3C ∨ b = 0x3E ∨ b = 0x26 then
          [0x5C, 0x75, 0x30, 0x30, hexDigit (b / 16), hexDigit (b % 16)]
        else [b]) ++ quoteLoop fuel rest
    else
      let r := decodeRune (b :: rest)
      if r.1 = runeError ∧ r.2 = 1 then
        [0x5C, 0x75, 0x66, 0x66, 0x66, 0x64] ++ quoteLoop fuel rest
      else if r.1 = 0x2028 ∨ r.1 = 0x2029 then
        [0x5C, 0x75, 0x32, 0x30, 0x32, hexDigit (r.1 % 16)] ++
          quoteLoop fuel (rest.drop (r.2 - 1))
      else (b :: rest).take r.2 ++ quoteLoop fuel (rest.drop (r.2 - 1))

/-- The string encoder on a Go string: a JSON string literal for the bytes
`s`. -/
def quoteBytes (s : Bytes) : Bytes :=
  0x22 :: (quoteLoop s.length s ++ [0x22])

/-- The runes of a Go string as `range` yields them: a byte that starts no
well-formed sequence counts as U+FFFD. -/
def decodeRunes : Nat → Bytes → List Char
  | 0, _ => []
  | _ + 1, [] => []
  | fuel + 1, b :: rest =>
    Char.ofNat (decodeRune (b :: rest)).1 ::
      decodeRunes fuel (rest.drop ((decodeRune (b :: rest)).2 - 1))

/-- Go `utf8.Valid`: whether the bytes are the UTF-8 encoding of a text, which
is the case when encoding their runes gives the bytes back. -/
def validUTF8 (s : Bytes) : Bool :=
  decide (bytesOf (String.mk (decodeRunes s.length s)) = s)

/-! ## `compact` -/

/-- The loop of Go `compact` with `escape` on.  `skip` counts the bytes still
to pass over after a converted U+2028 or U+2029; `none` when a step returns
`scanError`. -/
def compactLoop (s : Scanner) (skip : Nat) : Bytes → Option (Scanner × Bytes)
  | [] => some (s, [])
  | c :: rest =>
    let sep := c = 0xE2 ∧ rest.head? = some 0x80 ∧
      ((rest.drop 1).head? = some 0xA8 ∨ (rest.drop 1).head? = some 0xA9)
    let (s1, v) := s.doStep c
    if v = .scanError then none
    else
      let out : Bytes :=
        if skip > 0 then []
        else if c = 0x3C ∨ c = 0x3E ∨ c = 0x26 then
          [0x5C, 0x75, 0x30, 0x30, hexDigit (c / 16), hexDigit (c % 16)]
        else if sep then
          [0x5C, 0x75, 0x32, 0x30, 0x32, hexDigit (((rest.drop 1).head?.getD 0) % 16)]
        else if v = .scanSkipSpace ∨ v = .scanEnd then []
        else [c]
      let skip1 := if skip > 0 then skip - 1 else if sep then 2 else 0
      (compactLoop s1 skip1 rest).map (fun r => (r.1, out ++ r.2))

/-- Go `compact(dst, src, true)`: `src` without insignificant blanks and with
`<`, `>`, `&`, U+2028 and U+2029 escaped; `none` when `src` is not valid JSON. -/
def compact (src : Bytes) : Option Bytes :=
  match compactLoop Scanner.reset 0 src with
  | none => none
  | some (s, out) => if s.eof then some out else none

/-! ## `float64` values and their text (`strconv`, `floatEncoder`) -/

/-- The number a run of decimal digits denotes. -/
def natOfDigits (ds : Bytes) : Nat :=
  ds.foldl (fun a d => a * 10 + (d - 0x30)) 0

/-- The exponent as `strconv` reads it: digits stop counting once the value
has reached 10000. -/
def expOfDigits (ds : Bytes) : Nat :=
  ds.foldl (fun e d => if e < 10000 then e * 10 + (d - 0x30) else e) 0

/-- The decimal digits of `n` before `acc`, most significant first; `fuel`
bounds their number. -/
def decDigitsAux : Nat → Nat → Bytes → Bytes
  | 0, _, acc => acc
  | fuel + 1, n, acc =>
    if n < 10 then (0x30 + n) :: acc
    else decDigitsAux fuel (n / 10) ((0x30 + n % 10) :: acc)

/-- The decimal digits of `n`, most significant first, `0` for zero. -/
def decDigits (n : Nat) : Bytes := decDigitsAux (n + 1) n []

/-- Digits without the zeros at their end (`trim` of `strconv/decimal.go`). -/
def trimZeros (ds : Bytes) : Bytes :=
  (ds.reverse.dropWhile (fun d => decide (d = 0x30))).reverse

/-- The loop of `log2`: the halvings of `n` counted in `acc`; `fuel` bounds
the rounds. -/
def log2Aux : Nat → Nat → Nat → Nat
  | 0, _, acc => acc
  | fuel + 1, n, acc => if n < 2 then acc else log2Aux fuel (n / 2) (acc + 1)

/-- The position of the highest bit of `n`: `2 ^ log2 n ≤ n < 2 ^ (log2 n + 1)`
for `n > 0`. -/
def log2 (n : Nat) : Nat := log2Aux n n 0

/-- A `float64` is held as its IEEE 754 bit pattern, a number below `2 ^ 64`.
Whether the pattern is a finite value, neither an infinity nor a NaN. -/
def f64Finite (b : Nat) : Bool :=
  decide (b < 2 ^ 64) && decide (b / 2 ^ 52 % 2 ^ 11 ≠ 2047)

/-- The sign bit. -/
def f64Neg (b : Nat) : Bool := decide (2 ^ 63 ≤ b)

/-- The bit pattern of the absolute value. -/
def f64Abs (b : Nat) : Nat := b % 2 ^ 63

/-- The mantissa of a non-negative finite value, with the hidden bit of a
normal number. -/
def f64Mant (a : Nat) : Nat :=
  if a / 2 ^ 52 = 0 then a % 2 ^ 52 else 2 ^ 52 + a % 2 ^ 52

/-- The binary exponent of a non-negative finite value `a`, which is
`f64Mant a * 2 ^ f64Exp a`. -/
def f64Exp (a : Nat) : Int :=
  if a / 2 ^ 52 = 0 then -1074 else (a / 2 ^ 52 : Int) - 1075

/-- The decimal `n * 10 ^ e` as a fraction, numerator and denominator. -/
def decFrac (n : Nat) (e : Int) : Nat × Nat :=
  if 0 ≤ e then (n * 10 ^ e.toNat, 1) else (n, 10 ^ (-e).toNat)

/-- The binary exponent `e` for which `num / den` lies between `2 ^ 52 * 2 ^ e`
and `2 ^ 53 * 2 ^ e`, for `num` and `den` above zero. -/
def normExp (num den : Nat) : Int :=
  let e0 : Int := (log2 num : Int) - (log2 den : Int) - 52
  let below : Bool :=
    if 0 ≤ e0 then decide (num < 2 ^ 52 * den * 2 ^ e0.toNat)
    else decide (num * 2 ^ (-e0).toNat < 2 ^ 52 * den)
  if below then e0 - 1 else e0

/-- The whole number nearest to `n / d`, the even one of two that are equally
near. -/
def roundHalfEven (n d : Nat) : Nat :=
  if 2 * (n % d) < d then n / d
  else if d < 2 * (n % d) then n / d + 1
  else if n / d % 2 = 0 then n / d
  else n / d + 1

/-- The `float64` nearest to `num / den`, ties to the even mantissa, as the bit
pattern of a non-negative value; `none` when the result is infinite, Go's
`ErrRange`.  This is what `strconv.ParseFloat(s, 64)` computes of the value of
a decimal text.  The mantissa is `num / den` in units of `2 ^ e`, where `e` is
the exponent of a normal number or the least exponent `-1074`; a mantissa that
rounds up to `2 ^ 53` carries into the exponent field by the addition. -/
def roundFrac (num den : Nat) : Option Nat :=
  if num = 0 then some 0
  else
    let e : Int := max (normExp num den) (-1074)
    let m :=
      if 0 ≤ e then roundHalfEven num (den * 2 ^ e.toNat)
      else roundHalfEven (num * 2 ^ (-e).toNat) den
    let a := (e + 1074).toNat * 2 ^ 52 + m
    if a < 2047 * 2 ^ 52 then some a else none

/-- The `float64` nearest to the decimal `n * 10 ^ e`. -/
def roundDec (n : Nat) (e : Int) : Option Nat :=
  roundFrac (decFrac n e).1 (decFrac n e).2

/-- Go `strconv.ParseFloat(lit, 64)` on a JSON number literal: the bit pattern,
or `none` for a range error. -/
def parseFloat (lit : Bytes) : Option Nat :=
  let body := if lit.head? = some 0x2D then lit.drop 1 else lit
  let intPart := body.takeWhile isDigit
  let rest1 := body.dropWhile isDigit
  let frac := if rest1.head? = some 0x2E then (rest1.drop 1).takeWhile isDigit else []
  let rest2 := if rest1.head? = some 0x2E then (rest1.drop 1).dropWhile isDigit else rest1
  let expText := rest2.drop 1
  let expDigits := if expText.head? = some 0x2D ∨ expText.head? = some 0x2B then expText.drop 1
    else expText
  let e : Int := if expText.head? = some 0x2D then -(expOfDigits expDigits : Int)
    else (expOfDigits expDigits : Int)
  (roundDec (natOfDigits (intPart ++ frac)) (e - frac.length)).map
    (fun a => if lit.head? = some 0x2D then 2 ^ 63 + a else a)

/-- The exact decimal expansion of a positive finite value `a` (Go's `decimal`
after `Assign` and `Shift`): the digits without zeros at the end and the place
`dp` of the decimal point, the value being `0.d₁d₂… * 10 ^ dp`. -/
def exactDecimal (a : Nat) : Bytes × Int :=
  let big := if 0 ≤ f64Exp a then f64Mant a * 2 ^ (f64Exp a).toNat
    else f64Mant a * 5 ^ (-f64Exp a).toNat
  let k : Int := if 0 ≤ f64Exp a then 0 else -f64Exp a
  (trimZeros (decDigits big), ((decDigits big).length : Int) - k)

/-- Go `decimal.shouldRoundUp` on exact digits: whether cutting `ds` after `n`
digits rounds up, an exact half going to the even digit. -/
def shouldRoundUp (ds : Bytes) (n : Nat) : Bool :=
  if n < ds.length then
    if ds.getD n 0 = 0x35 ∧ n + 1 = ds.length then
      decide (0 < n) && decide (ds.getD (n - 1) 0 % 2 = 1)
    else decide (0x35 ≤ ds.getD n 0)
  else false

/-- The decimal `l * 10 ^ e` as digits without zeros at the end and the place
of the decimal point. -/
def candidate (l : Nat) (e : Int) : Bytes × Int :=
  (trimZeros (decDigits l), e + (decDigits l).length)

/-- The walk of Go `roundShortest` along the exact digits `ds`: at the first
length `n` at which the digits cut off (`okdown`) or cut off and raised by one
(`okup`) still read back as `a`, the nearer of the two that do.  That a decimal
lies between Go's `lower` and `upper` is tested by what it is read back as. -/
def shortestLoop (a : Nat) (ds : Bytes) (dp : Int) : Nat → Nat → Bytes × Int
  | 0, _ => (ds, dp)
  | fuel + 1, n =>
    let l := natOfDigits (ds.take n)
    let e : Int := dp - n
    let okdown := decide (roundDec l e = some a)
    let okup := decide (roundDec (l + 1) e = some a)
    if okdown && okup then
      (if shouldRoundUp ds n then candidate (l + 1) e else candidate l e)
    else if okdown then candidate l e
    else if okup then candidate (l + 1) e
    else shortestLoop a ds dp fuel (n + 1)

/-- The digits `strconv.FormatFloat(f, fmt, -1, 64)` writes for a positive
finite value: the shortest decimal that `ParseFloat` reads back as the same
value. -/
def shortestDigits (a : Nat) : Bytes × Int :=
  shortestLoop a (exactDecimal a).1 (exactDecimal a).2 ((exactDecimal a).1.length + 1) 0

/-- The exponent of the `e` format as the encoder leaves it: sign and at least
two digits, but one digit after the encoder has turned `e-0X` into `e-X`. -/
def fmtExp (e : Int) : Bytes :=
  if e.natAbs < 10 then
    (if e < 0 then [0x2D, 0x30 + e.natAbs] else [0x2B, 0x30, 0x30 + e.natAbs])
  else (if e < 0 then 0x2D else 0x2B) :: decDigits e.natAbs

/-- Go `fmtE` with the shortest precision: `d.ddde±dd`. -/
def fmtE (ds : Bytes) (dp : Int) : Bytes :=
  (match ds with
    | [] => [0x30]
    | [d] => [d]
    | d :: rest => d :: 0x2E :: rest) ++ 0x65 :: fmtExp (dp - 1)

/-- Go `fmtF` with the shortest precision: the integer part, and the fraction
if there is one. -/
def fmtF (ds : Bytes) (dp : Int) : Bytes :=
  let ip : Bytes :=
    if 0 < dp then ds.take dp.toNat ++ List.replicate (dp.toNat - ds.length) 0x30 else [0x30]
  let fp : Bytes :=
    if 0 < dp then ds.drop dp.toNat else List.replicate (-dp).toNat 0x30 ++ ds
  if fp = [] then ip else ip ++ 0x2E :: fp

/-- The bit pattern of the `float64` constant `1e-6`. -/
def f64Micro : Nat := 0x3EB0C6F7A0B5ED8D

/-- The bit pattern of the `float64` constant `1e21`. -/
def f64Sextillion : Nat := 0x444B1AE4D6E2EF50

/-- Go `floatEncoder.encode` on a finite `float64`: the `f` format, the `e`
format for a value other than zero below `1e-6` or from `1e21` on. -/
def formatFloat (bits : Nat) : Bytes :=
  let a := f64Abs bits
  let sign : Bytes := if f64Neg bits then [0x2D] else []
  if a = 0 then sign ++ [0x30]
  else if a < f64Micro ∨ f64Sextillion ≤ a then
    sign ++ fmtE (shortestDigits a).1 (shortestDigits a).2
  else sign ++ fmtF (shortestDigits a).1 (shortestDigits a).2
/-! ## The value behind an `interface{}` -/

/-- The Go values that `json.Unmarshal` stores in an `interface{}`: `nil`,
`bool`, `float64` (as its bit pattern), `string` (as its bytes),
`[]interface{}` and `map[string]interface{}`.  These are the values an error
pointer of a decoded message points to; values of other Go types, which only
Go code could store there, are not embedded.  A slice is its elements (the
`nil` slice, which decoding never stores, has no counterpart).  A map has no
order, so it is held as its entries in increasing order of the keys;
`Value.WF` says that a value is held this way. -/
inductive Value where
  | null
  | bool (b : Bool)
  | number (bits : Nat)
  | string (s : Bytes)
  | array (xs : List Value)
  | object (fs : List (Bytes × Value))
  deriving Repr

mutual
/-- Equality of two values can be decided. -/
def Value.decEq : (x y : Value) → Decidable (x = y)
  | .null, .null => isTrue rfl
  | .bool a, .bool b =>
    decidable_of_iff (a = b) ⟨fun h => by rw [h], fun h => by cases h; rfl⟩
  | .number a, .number b =>
    decidable_of_iff (a = b) ⟨fun h => by rw [h], fun h => by cases h; rfl⟩
  | .string a, .string b =>
    decidable_of_iff (a = b) ⟨fun h => by rw [h], fun h => by cases h; rfl⟩
  | .array a, .array b =>
    @decidable_of_iff _ (a = b) ⟨fun h => by rw [h], fun h => by cases h; rfl⟩
      (Value.decEqList a b)
  | .object a, .object b =>
    @decidable_of_iff _ (a = b) ⟨fun h => by rw [h], fun h => by cases h; rfl⟩
      (Value.decEqFields a b)
  | .null, .bool _ => isFalse nofun
  | .null, .number _ => isFalse nofun
  | .null, .string _ => isFalse nofun
  | .null, .array _ => isFalse nofun
  | .null, .object _ => isFalse nofun
  | .bool _, .null => isFalse nofun
  | .bool _, .number _ => isFalse nofun
  | .bool _, .string _ => isFalse nofun
  | .bool _, .array _ => isFalse nofun
  | .bool _, .object _ => isFalse nofun
  | .number _, .null => isFalse nofun
  | .number _, .bool _ => isFalse nofun
  | .number _, .string _ => isFalse nofun
  | .number _, .array _ => isFalse nofun
  | .number _, .object _ => isFalse nofun
  | .string _, .null => isFalse nofun
  | .string _, .bool _ => isFalse nofun
  | .string _, .number _ => isFalse nofun
  | .string _, .array _ => isFalse nofun
  | .string _, .object _ => isFalse nofun
  | .array _, .null => isFalse nofun
  | .array _, .bool _ => isFalse nofun
  | .array _, .number _ => isFalse nofun
  | .array _, .string _ => isFalse nofun
  | .array _, .object _ => isFalse nofun
  | .object _, .null => isFalse nofun
  | .object _, .bool _ => isFalse nofun
  | .object _, .number _ => isFalse nofun
  | .object _, .string _ => isFalse nofun
  | .object _, .array _ => isFalse nofun
/-- Equality of two lists of values can be decided. -/
def Value.decEqList : (xs ys : List Value) → Decidable (xs = ys)
  | [], [] => isTrue rfl
  | [], _ :: _ => isFalse nofun
  | _ :: _, [] => isFalse nofun
  | x :: xs, y :: ys =>
    @decidable_of_iff _ (x = y ∧ xs = ys)
      ⟨fun h => by rw [h.1, h.2], fun h => by cases h; exact ⟨rfl, rfl⟩⟩
      (@instDecidableAnd _ _ (Value.decEq x y) (Value.decEqList xs ys))
/-- Equality of two lists of entries can be decided. -/
def Value.decEqFields : (fs gs : List (Bytes × Value)) → Decidable (fs = gs)
  | [], [] => isTrue rfl
  | [], _ :: _ => isFalse nofun
  | _ :: _, [] => isFalse nofun
  | (k, x) :: fs, (l, y) :: gs =>
    @decidable_of_iff _ (k = l ∧ x = y ∧ fs = gs)
      ⟨fun h => by rw [h.1, h.2.1, h.2.2], fun h => by cases h; exact ⟨rfl, rfl, rfl⟩⟩
      (@instDecidableAnd _ _ inferInstance
        (@instDecidableAnd _ _ (Value.decEq x y) (Value.decEqFields fs gs)))
end

instance : DecidableEq Value := Value.decEq

/-- Go `a < b` on strings: the order of the bytes, a proper prefix first. -/
def bytesLT : Bytes → Bytes → Bool
  | _, [] => false
  | [], _ :: _ => true
  | a :: as, b :: bs => decide (a < b) || (decide (a = b) && bytesLT as bs)

/-- Go `m[k] = x` on the entries of a map: the entry takes the place of one
with the same key, or its place in the order of the keys. -/
def insertField (k : Bytes) (x : Value) : List (Bytes × Value) → List (Bytes × Value)
  | [] => [(k, x)]
  | f :: fs =>
    if k = f.1 then (k, x) :: fs
    else if bytesLT k f.1 then (k, x) :: f :: fs
    else f :: insertField k x fs

/-- Whether the keys of the entries increase, so that no key is there twice. -/
def keysIncrease : List (Bytes × Value) → Bool
  | [] => true
  | [_] => true
  | f :: g :: fs => bytesLT f.1 g.1 && keysIncrease (g :: fs)

mutual
/-- Whether a value is one that `json.Marshal` can write and is held as the
value `json.Unmarshal` would store: its numbers are finite, its strings and
keys valid UTF-8, and the entries of its maps in increasing order of the
keys. -/
def Value.WF : Value → Bool
  | .null => true
  | .bool _ => true
  | .number bits => f64Finite bits
  | .string s => validUTF8 s
  | .array xs => Value.WFList xs
  | .object fs => keysIncrease fs && Value.WFFields fs
/-- Whether every value of a list is well-formed. -/
def Value.WFList : List Value → Bool
  | [] => true
  | x :: xs => x.WF && Value.WFList xs
/-- Whether every entry of a list has a valid key and a well-formed value. -/
def Value.WFFields : List (Bytes × Value) → Bool
  | [] => true
  | (k, x) :: fs => validUTF8 k && x.WF && Value.WFFields fs
end

mutual
/-- How deep the arrays and maps of a value are nested. -/
def Value.depth : Value → Nat
  | .array xs => Value.depthList xs + 1
  | .object fs => Value.depthFields fs + 1
  | _ => 0
/-- The depth of the deepest value of a list. -/
def Value.depthList : List Value → Nat
  | [] => 0
  | x :: xs => max x.depth (Value.depthList xs)
/-- The depth of the deepest value of a list of entries. -/
def Value.depthFields : List (Bytes × Value) → Nat
  | [] => 0
  | (_, x) :: fs => max x.depth (Value.depthFields fs)
end

/-- Texts with a comma between them. -/
def joinComma : List Bytes → Bytes
  | [] => []
  | [e] => e
  | e :: es => e ++ 0x2C :: joinComma es

/-- Go `sort.Slice` of the entries of a map by their keys, as `mapEncoder`
calls it. -/
def sortByKey (es : List (Bytes × Bytes)) : List (Bytes × Bytes) :=
  es.insertionSort (fun e f => bytesLT f.1 e.1 = false)

mutual
/-- Go `json.Marshal` on the value in an `interface{}`: `null`, `true`,
`false`, a number as `floatEncoder` writes it, a string as the string encoder
writes it, an array, and a map with its keys sorted.  `none` is the
`UnsupportedValueError` for an infinity or a NaN. -/
def encodeValue : Value → Option Bytes
  | .null => some [0x6E, 0x75, 0x6C, 0x6C]
  | .bool true => some [0x74, 0x72, 0x75, 0x65]
  | .bool false => some [0x66, 0x61, 0x6C, 0x73, 0x65]
  | .number bits => if f64Finite bits then some (formatFloat bits) else none
  | .string s => some (quoteBytes s)
  | .array xs =>
    match encodeElems xs with
    | none => none
    | some es => some (0x5B :: (joinComma es ++ [0x5D]))
  | .object fs =>
    match encodeFields fs with
    | none => none
    | some es =>
      some (0x7B ::
        (joinComma ((sortByKey es).map (fun e => quoteBytes e.1 ++ 0x3A :: e.2)) ++ [0x7D]))
/-- The texts of the values of a list. -/
def encodeElems : List Value → Option (List Bytes)
  | [] => some []
  | x :: xs =>
    match encodeValue x, encodeElems xs with
    | some e, some es => some (e :: es)
    | _, _ => none
/-- The keys of a list of entries, each with the text of its value. -/
def encodeFields : List (Bytes × Value) → Option (List (Bytes × Bytes))
  | [] => some []
  | (k, x) :: fs =>
    match encodeValue x, encodeFields fs with
    | some e, some es => some ((k, e) :: es)
    | _, _ => none
end

/-- The text of a string literal after its opening quote, up to the closing
quote, and what follows the literal. -/
def spanString : Bytes → Option (Bytes × Bytes)
  | [] => none
  | [c] => if c = 0x22 then some ([], []) else none
  | c :: d :: rest =>
    if c = 0x22 then some ([], d :: rest)
    else if c = 0x5C then (spanString rest).map (fun r => (c :: d :: r.1, r.2))
    else (spanString (d :: rest)).map (fun r => (c :: r.1, r.2))

/-- The bytes of a number literal. -/
def isNumberByte (c : Nat) : Bool :=
  isDigit c || c = 0x2D || c = 0x2B || c = 0x2E || c = 0x65 || c = 0x45

mutual
/-- Go `decodeState.valueInterface` on valid JSON: the value at the head of the
input, whether a number in it was out of the range of `float64` (the error is
saved and `nil` stored in its place), and the input after the value.  `fuel`
bounds the depth of the calls. -/
def parseValue : Nat → Bytes → Option (Value × Bool × Bytes)
  | 0, _ => none
  | fuel + 1, input =>
    match input.dropWhile isSpace with
    | [] => none
    | c :: rest =>
      if c = 0x7B then
        (parseFields fuel [] rest).map (fun r => (Value.object r.1, r.2))
      else if c = 0x5B then
        (parseElems fuel rest).map (fun r => (Value.array r.1, r.2))
      else if c = 0x22 then
        match spanString rest with
        | none => none
        | some (body, rest1) =>
          match unquote (0x22 :: (body ++ [0x22])) with
          | none => none
          | some str => some (Value.string (bytesOf str), false, rest1)
      else if c = 0x74 then some (Value.bool true, false, rest.drop 3)
      else if c = 0x66 then some (Value.bool false, false, rest.drop 4)
      else if c = 0x6E then some (Value.null, false, rest.drop 3)
      else
        match parseFloat ((c :: rest).takeWhile isNumberByte) with
        | none => some (Value.null, true, (c :: rest).dropWhile isNumberByte)
        | some bits => some (Value.number bits, false, (c :: rest).dropWhile isNumberByte)
/-- Go `decodeState.arrayInterface` after the opening bracket. -/
def parseElems : Nat → Bytes → Option (List Value × Bool × Bytes)
  | 0, _ => none
  | fuel + 1, input =>
    match input.dropWhile isSpace with
    | [] => none
    | c :: rest =>
      if c = 0x5D then some ([], false, rest)
      else
        match parseValue fuel (c :: rest) with
        | none => none
        | some (x, bad, rest1) =>
          match rest1.dropWhile isSpace with
          | [] => none
          | d :: rest2 =>
            if d = 0x5D then some ([x], bad, rest2)
            else (parseElems fuel rest2).map (fun r => (x :: r.1, bad || r.2.1, r.2.2))
/-- Go `decodeState.objectInterface` after the opening brace, with the entries
assigned so far. -/
def parseFields : Nat → List (Bytes × Value) → Bytes →
    Option (List (Bytes × Value) × Bool × Bytes)
  | 0, _, _ => none
  | fuel + 1, m, input =>
    match input.dropWhile isSpace with
    | [] => none
    | c :: rest =>
      if c = 0x7D then some (m, false, rest)
      else
        match spanString rest with
        | none => none
        | some (body, rest1) =>
          match unquote (0x22 :: (body ++ [0x22])) with
          | none => none
          | some key =>
            match parseValue fuel ((rest1.dropWhile isSpace).drop 1) with
            | none => none
            | some (x, bad, rest2) =>
              match rest2.dropWhile isSpace with
              | [] => none
              | d :: rest3 =>
                if d = 0x7D then some (insertField (bytesOf key) x m, bad, rest3)
                else
                  (parseFields fuel (insertField (bytesOf key) x m) rest3).map
                    (fun r => (r.1, bad || r.2.1, r.2.2))
end

/-- Go `json.Unmarshal` of the text of one valid JSON value into an
`interface{}`: the value and whether a number in it was out of range. -/
def decodeValue (text : Bytes) : Option (Value × Bool) :=
  (parseValue (2 * text.length + 2) text).map (fun r => (r.1, r.2.1))

/-! ## `JsonrpcMessage` and its codec -/

deriving instance DecidableEq for Except

/-- The errors of `encoding/json` that the manager can meet. -/
inductive JsonError where
  | SyntaxError
  | UnmarshalTypeError
  | MarshalerError
  | UnsupportedValueError
  deriving DecidableEq, Repr

/-- Go `common.JsonrpcMessage`.  `Version` and `Method` are Go strings, held as
their bytes.  The three `json.RawMessage` fields hold JSON text, `[]` when
absent.  `Error` is a `*interface{}`: `none` is the nil pointer, `some x` a
pointer to the value `x`. -/
structure JsonrpcMessage where
  Version : Bytes
  ID : Bytes
  Method : Bytes
  Params : Bytes
  Error : Option Value
  Result : Bytes
  deriving DecidableEq, Repr

/-- The zero value of the struct (`var msg common2.JsonrpcMessage`). -/
def JsonrpcMessage.zero : JsonrpcMessage :=
  { Version := [], ID := [], Method := [], Params := [], Error := none, Result := [] }

/-- The fields of `JsonrpcMessage`, by their JSON names. -/
inductive Field where
  | jsonrpc
  | id
  | method
  | params
  | error
  | result
  deriving DecidableEq, Repr

/-- Case folding as the decoder matches object keys against field names: ASCII
letters ignore case, and U+017F and U+212A count as `s` and `k`. -/
def foldChar (c : Char) : Char :=
  let n := c.toNat
  if 0x41 ≤ n ∧ n ≤ 0x5A then Char.ofNat (n + 0x20)
  else if n = 0x17F then Char.ofNat 0x73
  else if n = 0x212A then Char.ofNat 0x6B
  else c

/-- The field an object key selects, `none` for a key the struct does not
have (its value is skipped). -/
def fieldOf (key : String) : Option Field :=
  let k := String.mk (key.data.map foldChar)
  if k = "jsonrpc" then some .jsonrpc
  else if k = "id" then some .id
  else if k = "method" then some .method
  else if k = "params" then some .params
  else if k = "error" then some .error
  else if k = "result" then some .result
  else none

/-- What the decoder has gathered of the top-level object: the key literal and
the value text being read (last byte first) and the members read so far (last
member first). -/
structure Collector where
  key : Bytes
  val : Bytes
  members : List (Bytes × Bytes)
  deriving Repr

/-- One byte of the top-level object, given the scanner's stack before the byte
and the code its step returned: key literals and value texts are gathered
without the blanks, colon and commas around them. -/
def Collector.step (k : Collector) (ps : List ParseState) (v : ScanCode) (c : Nat) :
    Collector :=
  match ps with
  | [] => k
  | [.parseObjectKey] =>
    if v = .scanBeginLiteral ∨ v = .scanContinue then { k with key := c :: k.key } else k
  | [.parseObjectValue] =>
    if v = .scanSkipSpace then k
    else if v = .scanObjectValue ∨ v = .scanEndObject then
      { key := [], val := [], members := (k.key.reverse, k.val.reverse) :: k.members }
    else { k with val := c :: k.val }
  | _ => { k with val := c :: k.val }

/-- The walk of the decoder over a valid object. -/
def membersLoop (s : Scanner) (k : Collector) : Bytes → Collector
  | [] => k
  | c :: rest =>
    let (s1, v) := s.doStep c
    membersLoop s1 (k.step s.parseState v c) rest

/-- The members of a valid top-level object in input order, each as its key
literal and the text of its value. -/
def members (data : Bytes) : List (Bytes × Bytes) :=
  (membersLoop Scanner.reset { key := [], val := [], members := [] } data).members.reverse

/-- The decoder on one member: the struct and whether an error has been saved
(`d.saveError`; decoding goes on after a type error).  A string field takes a
string, keeps its value on `null` and saves an `UnmarshalTypeError` on anything
else; a `RawMessage` field takes the text of any value, `null` included;
`Error` becomes nil on `null` and otherwise points to the decoded value, with
an error saved when a number in it is out of the float64 range.  The decoded
strings are valid UTF-8, so they are stored as the bytes of a text. -/
def storeMember (acc : JsonrpcMessage × Bool) (m : Bytes × Bytes) : JsonrpcMessage × Bool :=
  let msg := acc.1
  let bad := acc.2
  let storeString (set : String → JsonrpcMessage) : JsonrpcMessage × Bool :=
    if m.2.head? = some 0x22 then
      match unquote m.2 with
      | some str => (set str, bad)
      | none => (msg, true)
    else if m.2.head? = some 0x6E then (msg, bad)
    else (msg, true)
  match unquote m.1 with
  | none => (msg, true)
  | some key =>
    match fieldOf key with
    | none => (msg, bad)
    | some .jsonrpc => storeString (fun str => { msg with Version := bytesOf str })
    | some .method => storeString (fun str => { msg with Method := bytesOf str })
    | some .id => ({ msg with ID := m.2 }, bad)
    | some .params => ({ msg with Params := m.2 }, bad)
    | some .result => ({ msg with Result := m.2 }, bad)
    | some .error =>
      if m.2.head? = some 0x6E then ({ msg with Error := none }, bad)
      else
        match decodeValue m.2 with
        | none => (msg, true)
        | some r => ({ msg with Error := some r.1 }, bad || r.2)

/-- Go `json.Unmarshal(data, &msg)` for a zero `msg common2.JsonrpcMessage`:
the struct after a successful call, or the error.  An object fills the struct,
`null` leaves it zero, any other value is an `UnmarshalTypeError`. -/
def unmarshalMessage (data : Bytes) : Except JsonError JsonrpcMessage :=
  if checkValid data then
    match data.dropWhile isSpace with
    | 0x7B :: _ =>
      let r := (members data).foldl storeMember (JsonrpcMessage.zero, false)
      if r.2 then .error .UnmarshalTypeError else .ok r.1
    | 0x6E :: _ => .ok JsonrpcMessage.zero
    | _ => .error .UnmarshalTypeError
  else .error .SyntaxError

/-- Go `json.Unmarshal(data, &res)` for `var res string`: a string literal
gives its text, `null` leaves `res` empty, another value is an
`UnmarshalTypeError`, and input that is not one JSON value (the empty input
included) a `SyntaxError`. -/
def unmarshalString (data : Bytes) : Except JsonError String :=
  if checkValid data then
    match data.dropWhile isSpace with
    | 0x22 :: rest =>
      match unquote (0x22 :: ((rest.reverse).dropWhile isSpace).reverse) with
      | some str => .ok str
      | none => .error .SyntaxError
    | 0x6E :: _ => .ok ""
    | _ => .error .UnmarshalTypeError
  else .error .SyntaxError

/-- One `json.RawMessage` field with `omitempty` as `json.Marshal` writes it:
nothing when empty, else a comma, the name and the compacted text; `none` when
the text is not valid JSON. -/
def marshalRaw (name : String) (raw : Bytes) : Option Bytes :=
  if raw.isEmpty then some []
  else (compact raw).map (fun b => 0x2C :: (quote name ++ 0x3A :: b))

/-- Go `json.Marshal(msg)` for a `JsonrpcMessage`: the fields in the order of
the struct, `jsonrpc` always and the others unless empty (`omitempty`).  The
first field that cannot be written gives the error: a `MarshalerError` for a
`RawMessage` that is not valid JSON, an `UnsupportedValueError` for an infinity
or a NaN behind `Error`. -/
def marshalMessage (msg : JsonrpcMessage) : Except JsonError Bytes :=
  let method : Bytes :=
    if msg.Method.isEmpty then []
    else 0x2C :: (quote "method" ++ 0x3A :: quoteBytes msg.Method)
  let err : Option Bytes :=
    match msg.Error with
    | none => some []
    | some x => (encodeValue x).map (fun b => 0x2C :: (quote "error" ++ 0x3A :: b))
  match marshalRaw "id" msg.ID, marshalRaw "params" msg.Params, err,
      marshalRaw "result" msg.Result with
  | some id, some params, some e, some result =>
    .ok (0x7B :: (quote "jsonrpc" ++ 0x3A :: quoteBytes msg.Version) ++ id ++ method ++ params
      ++ e ++ result ++ [0x7D])
  | none, _, _, _ => .error .MarshalerError
  | some _, none, _, _ => .error .MarshalerError
  | some _, some _, none, _ => .error .UnsupportedValueError
  | some _, some _, some _, none => .error .MarshalerError

/-! ## The manager (`blockchain/hmy.go`) -/

/-- Modelled from the spec: `subscriber.Type`, whose declaration is not among
the sources.  `WS` is the spec's Push mode, `RPC` its Pull mode, and `other`
stands for every further value of the type (the `default` branches). -/
inductive SubscriberType where
  | WS
  | RPC
  | other (tag : Nat)
  deriving DecidableEq, Repr

/-- Modelled from the spec: `evm.FilterQuery`, whose declaration is not among
the sources: the filter scope (addresses, topics) and the cursor `FromBlock`,
which is `""` (unset), `"latest"` or a hex block number. -/
structure FilterQuery where
  Addresses : List String
  Topics : List String
  FromBlock : String
  deriving DecidableEq, Repr

/-- Modelled from the spec: `subscriber.Event`, whose declaration is not among
the sources; the spec's JobRunRequest, a mapping from string keys to values. -/
abbrev Event := List (String × Bytes)

/-- Go `hmyManager`; `fq` is the `FilterQuery` the pointer refers to. -/
structure hmyManager where
  fq : FilterQuery
  p : SubscriberType
  endpointName : String
  jobid : String
  deriving DecidableEq, Repr

/-- Go `hmyManager.GetTriggerJson`: the body is commented out in the source and
only `return nil` is left. -/
def GetTriggerJson (_h : hmyManager) : Option Bytes :=
  none

/-- The message `GetTestJson` marshals. -/
def testRequest : JsonrpcMessage :=
  { Version := bytesOf "2.0", ID := bytesOf "1", Method := bytesOf "hmy_blockNumber", Params := [],
    Error := none, Result := [] }

/-- Go `hmyManager.GetTestJson`. -/
def GetTestJson (h : hmyManager) : Option Bytes :=
  if h.p = .RPC then
    match marshalMessage testRequest with
    | .error _ => none
    | .ok bytes => some bytes
  else none

/-- Go `hmyManager.ParseTestResponse`: the returned `error` (`none` is nil) and
the manager after the call. -/
def ParseTestResponse (h : hmyManager) (data : Bytes) : Option JsonError × hmyManager :=
  if h.p = .RPC then
    match unmarshalMessage data with
    | .error err => (some err, h)
    | .ok msg =>
      match unmarshalString msg.Result with
      | .error err => (some err, h)
      | .ok res => (none, { h with fq := { h.fq with FromBlock := res } })
  else (none, h)

/-- Go `hmyManager.ParseResponse`: the events, the `bool` and the manager after
the call.  Both the `WS` and the `RPC` case of the switch are commented out in
the source, so `events` stays nil there. -/
def ParseResponse (h : hmyManager) (data : Bytes) : List Event × Bool × hmyManager :=
  match unmarshalMessage data with
  | .error _ => ([], false, h)
  | .ok _ =>
    match h.p with
    | .WS => ([], true, h)
    | .RPC => ([], true, h)
    | .other _ => ([], false, h)

/-! ## Vocabulary of the properties -/

/-- Modelled from the spec: the block number a cursor denotes, `none` for the
sentinels `""` and `"latest"` and for any other text that is not `0x` followed
by hexadecimal digits. -/
def blockNumber (cursor : String) : Option Nat :=
  match cursor.data.map Char.toNat with
  | 0x30 :: x :: d :: ds =>
    if (x = 0x78 ∨ x = 0x58) ∧ (d :: ds).all isHexDigit then
      some ((d :: ds).foldl (fun a c => a * 16 + (hexVal c).getD 0) 0)
    else none
  | _ => none

/-- A manager in Pull mode whose cursor is unset. -/
def rpcManager : hmyManager :=
  { fq := { Addresses := ["0x1111111111111111111111111111111111111111"], Topics := [],
            FromBlock := "" },
    p := .RPC, endpointName := "hmy-node", jobid := "job-1" }

/-- A manager in Push mode. -/
def wsManager : hmyManager := { rpcManager with p := .WS }

/-- A manager whose mode is neither Push nor Pull. -/
def otherManager : hmyManager := { rpcManager with p := .other 2 }

/-- The response `\x7b"jsonrpc":"2.0","id":1,"result":"0x10"\x7d` to the health
check. -/
def headResponse : Bytes :=
  bytesOf "\x7b\"jsonrpc\":\"2.0\",\"id\":1,\"result\":\"0x10\"\x7d"

/-- A response cut off in the middle. -/
def truncatedResponse : Bytes :=
  bytesOf "\x7b\"jsonrpc\":\"2.0\",\"id\":1,\"resu"

/-- The manager `rpcManager` with the cursor at `latest`. -/
def rpcLatestManager : hmyManager :=
  { rpcManager with fq := { rpcManager.fq with FromBlock := "latest" } }

/-- One log entry of a `hmy_getLogs` result, with every field an Ethereum log
carries, at the given block number and with the given `removed` flag. -/
def logEntry (block removed : String) : String :=
  "\x7b\"address\":\"0x1111111111111111111111111111111111111111\"," ++
  "\"topics\":[\"0xd8d7ecc4800d25fa53ce0372f13a416d98907a7ef3d8d3bdd79cf4fe75529c65\"]," ++
  "\"data\":\"0x\",\"blockNumber\":\"" ++ block ++ "\"," ++
  "\"transactionHash\":\"0x2222222222222222222222222222222222222222222222222222222222222222\"," ++
  "\"transactionIndex\":\"0x0\"," ++
  "\"blockHash\":\"0x3333333333333333333333333333333333333333333333333333333333333333\"," ++
  "\"logIndex\":\"0x0\",\"removed\":" ++ removed ++ "\x7d"

/-- A `hmy_getLogs` response with two live entries, at blocks 5 and 7. -/
def batchLive : Bytes :=
  bytesOf ("\x7b\"jsonrpc\":\"2.0\",\"id\":1,\"result\":[" ++ logEntry "0x5" "false" ++ "," ++
    logEntry "0x7" "false" ++ "]\x7d")

/-- The same response with the entry at block 7 marked removed. -/
def batchMixed : Bytes :=
  bytesOf ("\x7b\"jsonrpc\":\"2.0\",\"id\":1,\"result\":[" ++ logEntry "0x5" "false" ++ "," ++
    logEntry "0x7" "true" ++ "]\x7d")

/-- A health-check response that reports block 5. -/
def lowerHeadResponse : Bytes :=
  bytesOf "\x7b\"jsonrpc\":\"2.0\",\"id\":1,\"result\":\"0x5\"\x7d"

/-- A health-check response that reports block 17. -/
def higherHeadResponse : Bytes :=
  bytesOf "\x7b\"jsonrpc\":\"2.0\",\"id\":1,\"result\":\"0x11\"\x7d"

/-- A health-check response whose result is the text `latest`. -/
def latestHeadResponse : Bytes :=
  bytesOf "\x7b\"jsonrpc\":\"2.0\",\"id\":1,\"result\":\"latest\"\x7d"

/-- The four operations of the manager, with their input. -/
inductive Op where
  | getTriggerJson
  | getTestJson
  | parseTestResponse (data : Bytes)
  | parseResponse (data : Bytes)
  deriving DecidableEq, Repr

/-- The manager after one operation.  `GetTriggerJson` and `GetTestJson`
assign to nothing, so they leave it as it is. -/
def Op.run (h : hmyManager) : Op → hmyManager
  | .getTriggerJson => h
  | .getTestJson => h
  | .parseTestResponse data => (ParseTestResponse h data).2
  | .parseResponse data => (ParseResponse h data).2.2

/-- The cursor after each operation of a sequence run from `h`. -/
def cursorTrace (h : hmyManager) : List Op → List String
  | [] => []
  | op :: ops => (op.run h).fq.FromBlock :: cursorTrace (op.run h) ops

/-- Whether a later cursor `d` respects an earlier cursor `c`: if `c` is a
concrete block number then `d` is one too and is not below it. -/
def advances (c d : String) : Bool :=
  match blockNumber c with
  | none => true
  | some a =>
    match blockNumber d with
    | none => false
    | some b => decide (a ≤ b)

/-- The cursor invariant of the spec on a sequence of cursor values: after a
concrete block number every later value is a concrete block number that is not
smaller, so no sentinel comes back. -/
def CursorMonotone (cursors : List String) : Prop :=
  cursors.Pairwise (fun c d => advances c d = true)

/-- The result strings that `ParseTestResponse` stores over a sequence of
operations on a manager of mode `p`: in Pull mode the decoded `result` of every
health-check response that decodes, in order; nothing in the other modes. -/
def acceptedResults (p : SubscriberType) : List Op → List String
  | [] => []
  | .parseTestResponse data :: ops =>
    if p = .RPC then
      match unmarshalMessage data with
      | .error _ => acceptedResults p ops
      | .ok msg =>
        match unmarshalString msg.Result with
        | .error _ => acceptedResults p ops
        | .ok res => res :: acceptedResults p ops
    else acceptedResults p ops
  | _ :: ops => acceptedResults p ops

/-- A health-check response whose result is the decimal text `16`. -/
def decimalHeadResponse : Bytes :=
  bytesOf "\x7b\"jsonrpc\":\"2.0\",\"id\":1,\"result\":\"16\"\x7d"

/-- Whether `ParseResponse` reports `ok = true` on every input of the
sequence, fed one after the other from `h`. -/
def allParsed (h : hmyManager) : List Bytes → Bool
  | [] => true
  | data :: rest => (ParseResponse h data).2.1 && allParsed (ParseResponse h data).2.2 rest

/-- Modelled from the spec: a well-formed cursor is `latest`, unset (empty) or
a 0x-prefixed hexadecimal block number. -/
def wellFormedCursor (c : String) : Bool :=
  c = "latest" || c = "" || (blockNumber c).isSome

/-- Go `common.MatchesJobID`; the package variable `ExpectsMock` it reads is
the first argument. -/
def MatchesJobID (ExpectsMock : Bool) (expected actual : String) : Bool :=
  if actual = expected then true
  else if ExpectsMock && actual = "mock" then true
  else false

/-! ## Maps (`blockchain/common/common.go`) -/

/-- The entries of a Go `map[string]V` that is not nil: at most one value per
key.  The order of the entries stands for the unspecified order of `range`. -/
abbrev Entries (V : Type) := AList (fun _ : String => V)

/-- A Go `map[string]V`: `none` is the nil map, which can be read and ranged
over like an empty map but not assigned to. -/
abbrev GoMap (V : Type) := Option (Entries V)

/-- Go `m[k]` as a read: the value under `k`, if there is one. -/
def GoMap.get {V : Type} (m : GoMap V) (k : String) : Option V :=
  match m with
  | none => none
  | some e => e.lookup k

/-- The entries `range m` visits. -/
def GoMap.range {V : Type} (m : GoMap V) : List (Sigma (fun _ : String => V)) :=
  match m with
  | none => []
  | some e => e.entries

/-- The run-time panic of the map functions. -/
inductive Panic where
  | assignmentToEntryInNilMap
  deriving DecidableEq, Repr

/-- Go `m[k] = v`: panics on the nil map. -/
def GoMap.assign {V : Type} (m : GoMap V) (k : String) (v : V) : Except Panic (GoMap V) :=
  match m with
  | none => .error .assignmentToEntryInNilMap
  | some e => .ok (some (e.insert k v))

/-- The loop of Go `ConvertStringArrayToKV` from index `i` on, with the map
built so far and the pending `key`. -/
def convertLoop (result : Entries String) (key : String) (i : Nat) :
    List String → Entries String
  | [] => result
  | val :: rest =>
    if val.length = 0 then convertLoop result key (i + 1) rest
    else if i % 2 = 0 then convertLoop result val (i + 1) rest
    else if key.length ≠ 0 then convertLoop (result.insert key val) "" (i + 1) rest
    else convertLoop result key (i + 1) rest

/-- Go `common.ConvertStringArrayToKV`.  The map comes from `make`, so it is
never nil; the values stored are the strings of `data`. -/
def ConvertStringArrayToKV (data : List String) : Entries String :=
  convertLoop ∅ "" 0 data

/-- The loop of Go `MergeMaps` over the entries of `m2` still to visit. -/
def mergeLoop {V : Type} (m1 : GoMap V) :
    List (Sigma (fun _ : String => V)) → Except Panic (GoMap V)
  | [] => .ok m1
  | e :: rest =>
    match m1.assign e.1 e.2 with
    | .error p => .error p
    | .ok m => mergeLoop m rest

/-- Go `common.MergeMaps`: `m1` after the assignments, which is also what the
caller's `m1` holds afterwards. -/
def MergeMaps {V : Type} (m1 m2 : GoMap V) : Except Panic (GoMap V) :=
  mergeLoop m1 m2.range

/-- Putting the elements of a list into a map two by two: each element at an
even position is the key of the element after it. -/
def insertPairs (result : Entries String) : List String → Entries String
  | a :: b :: rest => insertPairs (result.insert a b) rest
  | _ => result

/-- What the spec says of an entry `(k, v)` of `ConvertStringArrayToKV(data)`:
`k` is a non-empty element at an even index `i`, `v` a non-empty element at an
odd index `j > i`, and the elements at the odd indices between them are
empty. -/
def EntryFrom (data : List String) (k v : String) : Prop :=
  ∃ i j, i % 2 = 0 ∧ j % 2 = 1 ∧ i < j ∧ data[i]? = some k ∧ data[j]? = some v ∧
    k ≠ "" ∧ v ≠ "" ∧ ∀ m, i < m → m < j → m % 2 = 1 → data[m]? = some ""

/-- What holds of the pending key when the loop of `ConvertStringArrayToKV` is
at index `n`: it is empty, or it is the non-empty element at an even index
below `n` since which no odd index held a non-empty element. -/
def PendingKey (data : List String) (n : Nat) (key : String) : Prop :=
  key = "" ∨ ∃ i, i % 2 = 0 ∧ i < n ∧ data[i]? = some key ∧ key ≠ "" ∧
    ∀ m, i < m → m < n → m % 2 = 1 → data[m]? = some ""

/-! ## Vocabulary of the round trip of the codec -/

/-- The deepest the scanner's stack gets while it reads the bytes from the state `s`. -/
def scanDepth (s : Scanner) : Bytes → Nat
  | [] => s.parseState.length
  | c :: rest => max s.parseState.length (scanDepth (s.doStep c).1 rest)

/-- The states in which a number can end. -/
def numEnd (st : StepFn) : Bool :=
  st = .one || st = .zero || st = .dot0 || st = .exp0

/-- The scanner that reads a value of the top-level object, when the scanner `s` reads the
same value on its own: one more entry at the bottom of the stack, and the end of the value
is not the end of the input. -/
def ctx (s : Scanner) : Scanner :=
  { step := if s.step = .endTop then .endValue else s.step, endTop := false,
    parseState := s.parseState ++ [ParseState.parseObjectValue], err := false }

/-- What holds of a scanner that has read a prefix of a value without error. -/
def Inv (s : Scanner) : Prop :=
  s.err = false ∧ (s.endTop = true → s.step = .endTop) ∧
    (s.step = .endTop → s.parseState = []) ∧ s.step ≠ .failed ∧
    (s.step = .beginStringOrEmpty → s.parseState ≠ [])

/-- The scanner `t` inside the object has read what the scanner `s` has read on its own,
without the blanks that `compact` drops.  After a number `s` may have seen the blank that
ends it while `t` is still in the number. -/
def Embedded (s t : Scanner) : Prop :=
  Inv s ∧ (t = ctx s ∨
    ((s.step = .endValue ∨ s.step = .endTop) ∧
      ∃ n, numEnd n = true ∧ t = { ctx s with step := n }))

/-- One byte, read by the scanner on its own from `s` with the result `r` and by the scanner
inside the object from `t` with the result `rt`: either the byte is a blank that `compact`
drops and `t` still matches, or the two steps agree. -/
def Outcome (s t : Scanner) (r rt : Scanner × ScanCode) : Prop :=
  ((r.2 = .scanSkipSpace ∨ r.2 = .scanEnd) ∧ Embedded r.1 t) ∨
  (r.2 ≠ .scanSkipSpace ∧ r.2 ≠ .scanEnd ∧ rt = (ctx r.1, r.2) ∧ Inv r.1 ∧
    (s.parseState = [] → r.2 ≠ .scanObjectValue ∧ r.2 ≠ .scanEndObject))

/-- The results `r` from `s` and `rt` from `ctx s` agree, unless `r` is an error or reaches
the depth limit. -/
def Agree (s : Scanner) (r rt : Scanner × ScanCode) : Prop :=
  r.2 ≠ .scanError → r.1.err = false → r.1.parseState.length < maxNestingDepth →
    Outcome s (ctx s) r rt

/-- A step that sets the error also makes the scanner fail from then on. -/
def ErrFailed (r : Scanner × ScanCode) : Prop :=
  r.1.err = true → r.1.step = .failed

/-- Whether the three bytes at `c :: rest` are U+2028 or U+2029 in UTF-8. -/
def isLineSep (c : Nat) (rest : Bytes) : Prop :=
  c = 0xE2 ∧ rest.head? = some 0x80 ∧
    ((rest.drop 1).head? = some 0xA8 ∨ (rest.drop 1).head? = some 0xA9)

/-- Whether three bytes are a line separator can be decided. -/
instance (c : Nat) (rest : Bytes) : Decidable (isLineSep c rest) :=
  inferInstanceAs (Decidable (c = 0xE2 ∧ rest.head? = some 0x80 ∧
    ((rest.drop 1).head? = some 0xA8 ∨ (rest.drop 1).head? = some 0xA9)))

/-- What `compactLoop` writes for the byte `c`. -/
def compactOut (skip c : Nat) (rest : Bytes) (v : ScanCode) : Bytes :=
  if skip > 0 then []
  else if c = 0x3C ∨ c = 0x3E ∨ c = 0x26 then
    [0x5C, 0x75, 0x30, 0x30, hexDigit (c / 16), hexDigit (c % 16)]
  else if isLineSep c rest then
    [0x5C, 0x75, 0x32, 0x30, 0x32, hexDigit (((rest.drop 1).head?.getD 0) % 16)]
  else if v = .scanSkipSpace ∨ v = .scanEnd then []
  else [c]

/-- The bytes `compactLoop` still has to pass over after the byte `c`. -/
def compactSkip (skip c : Nat) (rest : Bytes) : Nat :=
  if skip > 0 then skip - 1 else if isLineSep c rest then 2 else 0

/-- The scanner and the decoder's collector read the bytes `X` without error and get from
`(s, k)` to `(s1, k1)`. -/
def Seg (s : Scanner) (k : Collector) (X : Bytes) (s1 : Scanner) (k1 : Collector) : Prop :=
  scanAll s X = some s1 ∧ ∀ Y, membersLoop s k (X ++ Y) = membersLoop s1 k1 Y

/-- The collector puts a byte of a key literal in front of the key read so far. -/
def appKey (k : Collector) (c : Nat) : Collector := { k with key := c :: k.key }

/-- The collector puts a byte of a value in front of the value read so far. -/
def appVal (k : Collector) (c : Nat) : Collector := { k with val := c :: k.val }

/-- With the stack `ps` the collector gathers the bytes of a literal by `app`. -/
def LitPhase (ps : List ParseState) (app : Collector → Nat → Collector) : Prop :=
  ∀ (k : Collector) (c : Nat) (v : ScanCode),
    v = .scanBeginLiteral ∨ v = .scanContinue → k.step ps v c = app k c

/-- Bytes that keep the scanner inside a string literal. -/
def InStr (X : Bytes) : Prop :=
  ∀ (e er : Bool) (ps : List ParseState) (app : Collector → Nat → Collector) (k : Collector),
    LitPhase ps app →
    Seg ⟨.inString, e, ps, er⟩ k X ⟨.inString, e, ps, er⟩ (X.foldl app k)

/-- The bytes `compactLoop` passes over are the tail of a line separator inside a string. -/
def SkipOK (skip : Nat) (s : Scanner) (raw : Bytes) : Prop :=
  (skip = 0 ∨ s.step = .inString) ∧
    skip ≤ List.length (raw.takeWhile (fun b => decide (0x80 ≤ b)))

/-- The states in which the scanner has read a complete value of the top-level object. -/
def ValueDone (t : Scanner) : Prop :=
  ∃ n, (n = StepFn.endValue ∨ numEnd n = true) ∧
    t = ⟨n, false, [ParseState.parseObjectValue], false⟩

/-- The scanner inside the top-level object, about to read a value. -/
def valueStart : Scanner := ⟨.beginValue, false, [ParseState.parseObjectValue], false⟩

/-- Text that the decoder reads as one value of the top-level object and keeps as it is. -/
def ValOK (V : Bytes) : Prop :=
  ∀ k : Collector, ∃ t, ValueDone t ∧ Seg valueStart k V t (V.foldl appVal k)

/-- The members of an object after the first, as `json.Marshal` writes them. -/
def encodeRest (fs : List (String × Bytes)) : Bytes :=
  fs.flatMap (fun f => 0x2C :: (quote f.1 ++ 0x3A :: f.2))

/-- A `json.RawMessage` field that is absent, or holds one JSON value nested less deep than
the scanner's limit. -/
def RawOK (raw : Bytes) : Prop :=
  raw = [] ∨ (checkValid raw = true ∧ scanDepth Scanner.reset raw < maxNestingDepth)

/-- The member `json.Marshal` writes for a `RawMessage` field, if any. -/
def rawField (name : String) (raw : Bytes) : List (String × Bytes) :=
  match compact raw with
  | some c => [(name, c)]
  | none => []

/-- Whether `compact` finds nothing to change in the bytes the scanner reads from the state
`s`: no byte that is insignificant space, none of `<`, `>` and `&`, and neither U+2028 nor
U+2029. -/
def tightFrom (s : Scanner) : Bytes → Bool
  | [] => true
  | c :: rest =>
    decide ((s.doStep c).2 ≠ .scanSkipSpace) && decide ((s.doStep c).2 ≠ .scanEnd) &&
      decide (c ≠ 0x3C) && decide (c ≠ 0x3E) && decide (c ≠ 0x26) &&
      !decide (isLineSep c rest) && tightFrom (s.doStep c).1 rest

/-- A JSON text in compact form, as `json.Marshal` writes a `RawMessage`: no space between
its tokens and no `<`, `>`, `&`, U+2028 or U+2029 in its strings. -/
def tight (raw : Bytes) : Bool := tightFrom Scanner.reset raw

/-- The integer part of a JSON number: `0`, or digits that start with another digit. -/
def IntPart (ip : Bytes) : Prop :=
  ip = [0x30] ∨ ∃ d tl, ip = d :: tl ∧ 0x31 ≤ d ∧ d ≤ 0x39 ∧ ∀ x ∈ tl, isDigit x = true

/-- The fraction of a number as it is written: nothing for no digits, else a point and the
digits. -/
def fracText (fp : Bytes) : Bytes := if fp = [] then [] else 0x2E :: fp

/-- The exponent of a number as it is written, with the value `E`: nothing for zero, or `e`,
a sign and digits. -/
def ExpText (ex : Bytes) (E : Int) : Prop :=
  (ex = [] ∧ E = 0) ∨
    ∃ sb eds, ex = 0x65 :: sb :: eds ∧ eds ≠ [] ∧ (∀ x ∈ eds, isDigit x = true) ∧
      ((sb = 0x2B ∧ E = (expOfDigits eds : Int)) ∨ (sb = 0x2D ∧ E = -(expOfDigits eds : Int)))

/-- The text of a number without its sign, which `ParseFloat` reads as `v`: integer part,
fraction and exponent. -/
def NumForm (t : Bytes) (v : Option Nat) : Prop :=
  ∃ ip fp ex E, t = ip ++ (fracText fp ++ ex) ∧ IntPart ip ∧ (∀ x ∈ fp, isDigit x = true) ∧
    ExpText ex E ∧ roundDec (natOfDigits (ip ++ fp)) (E - (fp.length : Int)) = v

/-- The states in which the scanner starts a value. -/
def startsValue (st : StepFn) : Prop := st = .beginValue ∨ st = .beginValueOrEmpty

/-- The states in which the scanner has read a complete value with the stack `ps`. -/
def ValueEnd (ps : List ParseState) (t : Scanner) : Prop :=
  ∃ n, (n = StepFn.endValue ∨ numEnd n = true) ∧ t = ⟨n, false, ps, false⟩

/-- Text that the scanner reads as one value with the entries `sp` on the stack above the
top-level object, and that the collector keeps as it is. -/
def ValSeg (sp : List ParseState) (V : Bytes) : Prop :=
  ∀ (st : StepFn) (k : Collector), startsValue st →
    ∃ t, ValueEnd (sp ++ [ParseState.parseObjectValue]) t ∧
      Seg ⟨st, false, sp ++ [ParseState.parseObjectValue], false⟩ k V t (V.foldl appVal k)

/-- What can follow a value inside a value: nothing, a comma, or a closing bracket or
brace. -/
def Delim (rest : Bytes) : Prop :=
  ∀ c, rest.head? = some c → c = 0x2C ∨ c = 0x5D ∨ c = 0x7D

/-- Bytes of the inside of a string literal that `spanString` passes over. -/
def SpanOK (X : Bytes) : Prop :=
  ∀ T : Bytes, T ≠ [] → spanString (X ++ T) = (spanString T).map (fun r => (X ++ r.1, r.2))

/-- What decoding makes of an encoded message: the texts of `id`, `params` and `result` in
compact form (empty when absent), the two strings and the error value as they were. -/
def compacted (v : JsonrpcMessage) : JsonrpcMessage :=
  { Version := v.Version, ID := (compact v.ID).getD [], Method := v.Method,
    Params := (compact v.Params).getD [], Error := v.Error,
    Result := (compact v.Result).getD [] }

/-- An error pointer that is nil, or points to a value other than `nil` that is held as
decoding would store it (`Value.WF`) and, inside the message, is nested no deeper than the
scanner's limit. -/
def ErrOK : Option Value → Prop
  | none => True
  | some x => x ≠ Value.null ∧ x.WF = true ∧ x.depth < maxNestingDepth

/-- The member `json.Marshal` writes for the method, if any. -/
def methodField (method : Bytes) : List (String × Bytes) :=
  if method.isEmpty then [] else [("method", quoteBytes method)]

/-- The member `json.Marshal` writes for the error, if any. -/
def errorField (err : Option Value) : List (String × Bytes) :=
  match err with
  | none => []
  | some x =>
    match encodeValue x with
    | some V => [("error", V)]
    | none => []

/-- The members of an encoded message after `jsonrpc`. -/
def restFields (v : JsonrpcMessage) : List (String × Bytes) :=
  rawField "id" v.ID ++ methodField v.Method ++ rawField "params" v.Params ++
    errorField v.Error ++ rawField "result" v.Result

/-- An envelope whose `params` text is valid JSON with a blank in it. -/
def spacedParams : JsonrpcMessage :=
  { Version := bytesOf "2.0", ID := bytesOf "1", Method := bytesOf "hmy_getLogs",
    Params := bytesOf "[1, 2]", Error := none, Result := [] }

/-- An envelope whose version is the one byte `0xFF`, which is not valid UTF-8. -/
def invalidVersion : JsonrpcMessage :=
  { Version := [0xFF], ID := bytesOf "1", Method := [], Params := [], Error := none,
    Result := [] }

/-- An envelope whose error pointer points to the value `nil`. -/
def nilError : JsonrpcMessage :=
  { Version := bytesOf "2.0", ID := bytesOf "1", Method := [], Params := [],
    Error := some Value.null, Result := [] }

/-- An envelope whose error value is the string of the one byte `0xFF`. -/
def invalidErrorText : JsonrpcMessage :=
  { Version := bytesOf "2.0", ID := bytesOf "1", Method := [], Params := [],
    Error := some (Value.string [0xFF]), Result := [] }

/-- The error value of a JSON-RPC error response: the code `-32000` (as a `float64`), a
message and data. -/
def revertError : Value :=
  .object [(bytesOf "code", .number 0xC0DF400000000000),
    (bytesOf "data", .array [.string (bytesOf "0x08c379a0"), .bool false, .null]),
    (bytesOf "message", .string (bytesOf "execution reverted"))]

/-- An envelope with every field populated, its texts in compact form. -/
def fullMessage : JsonrpcMessage :=
  { Version := bytesOf "2.0", ID := bytesOf "7", Method := bytesOf "hmy_getLogs",
    Params := bytesOf "[\x7b\"fromBlock\":\"0x10\"\x7d,\"a b\"]", Error := some revertError,
    Result := bytesOf "\"0x10\"" }

/-! ## Auxiliary facts -/

/-- `ParseResponse` never changes the manager. -/
theorem ParseResponse_state (h : hmyManager) (data : Bytes) :
    (ParseResponse h data).2.2 = h := by
  unfold ParseResponse
  cases unmarshalMessage data with
  | error e => rfl
  | ok msg => cases h.p <;> rfl

/-- A cursor respects itself. -/
theorem advances_refl (c : String) : advances c c = true := by
  unfold advances
  cases blockNumber c <;> simp

/-- Respecting an earlier cursor carries over along a sequence. -/
theorem advances_trans (c d e : String) (hcd : advances c d = true)
    (hde : advances d e = true) : advances c e = true := by
  unfold advances at *
  cases hc : blockNumber c with
  | none => simp
  | some a =>
    cases hd : blockNumber d with
    | none => simp [hc, hd] at hcd
    | some b =>
      cases he : blockNumber e with
      | none => simp [hd, he] at hde
      | some n =>
        simp [hc, hd] at hcd
        simp [hd, he] at hde
        simp
        omega

/-- A cursor sequence that is monotone stays so with an earlier cursor put in
front which its first value respects. -/
theorem CursorMonotone_cons (c d : String) (l : List String)
    (hcd : advances c d = true) (hl : CursorMonotone (d :: l)) :
    CursorMonotone (c :: d :: l) := by
  unfold CursorMonotone at *
  rw [List.pairwise_cons] at hl ⊢
  refine ⟨?_, List.pairwise_cons.mpr hl⟩
  intro x hx
  rcases List.mem_cons.mp hx with rfl | hx
  · exact hcd
  · exact advances_trans c d x hcd (hl.1 x hx)

/-- No operation changes the mode of the manager. -/
theorem run_p (h : hmyManager) (op : Op) : (op.run h).p = h.p := by
  cases op with
  | getTriggerJson => rfl
  | getTestJson => rfl
  | parseResponse data => simp only [Op.run, ParseResponse_state]
  | parseTestResponse data =>
    simp only [Op.run, ParseTestResponse]
    by_cases hp : h.p = SubscriberType.RPC
    · rw [if_pos hp]
      cases unmarshalMessage data with
      | error e => rfl
      | ok msg =>
        cases hs : unmarshalString msg.Result with
        | error e => simp only [hs]
        | ok s => simp only [hs]
    · rw [if_neg hp]

/-- Go `len(s) == 0` holds of the empty string only. -/
theorem length_eq_zero_iff (s : String) : s.length = 0 ↔ s = "" := by
  constructor
  · intro h
    cases s with
    | mk data =>
      have hd : data = [] := List.length_eq_zero.mp h
      subst hd
      rfl
  · intro h
    subst h
    rfl

/-- On a list without empty strings the loop of `ConvertStringArrayToKV`,
started at an even index, puts the elements into the map two by two. -/
theorem convertLoop_eq_insertPairs :
    ∀ (data : List String) (result : Entries String) (key : String) (i : Nat),
      (∀ s ∈ data, s ≠ "") → i % 2 = 0 →
      convertLoop result key i data = insertPairs result data
  | [], result, key, i, _, _ => rfl
  | [a], result, key, i, hne, hi => by
    have ha : ¬ a.length = 0 := fun h => hne a (by simp) ((length_eq_zero_iff a).mp h)
    simp [convertLoop, insertPairs, ha, hi]
  | a :: b :: rest, result, key, i, hne, hi => by
    have ha : ¬ a.length = 0 := fun h => hne a (by simp) ((length_eq_zero_iff a).mp h)
    have hb : ¬ b.length = 0 := fun h => hne b (by simp) ((length_eq_zero_iff b).mp h)
    have hi1 : ¬ (i + 1) % 2 = 0 := by omega
    have hi2 : (i + 1 + 1) % 2 = 0 := by omega
    have hrest : ∀ s ∈ rest, s ≠ "" := fun s hs => hne s (by simp [hs])
    simp only [convertLoop, insertPairs, ha, hb, hi, hi1, if_true, if_false, ne_eq,
      not_false_eq_true]
    exact convertLoop_eq_insertPairs rest (result.insert a b) "" (i + 1 + 1) hrest hi2

/-- The keys of `insertPairs`: those of the map it starts from and the
elements at even positions that have an element after them. -/
theorem mem_insertPairs :
    ∀ (data : List String) (result : Entries String) (k : String),
      k ∈ insertPairs result data ↔
        (k ∈ result ∨ ∃ i, 2 * i + 1 < data.length ∧ data[2 * i]? = some k)
  | [], result, k => by simp [insertPairs]
  | [a], result, k => by simp [insertPairs]
  | a :: b :: rest, result, k => by
    rw [insertPairs, mem_insertPairs rest (result.insert a b) k, AList.mem_insert]
    constructor
    · rintro ((rfl | h) | ⟨i, hi, hk⟩)
      · exact Or.inr ⟨0, by simp, by simp⟩
      · exact Or.inl h
      · refine Or.inr ⟨i + 1, by simp only [List.length_cons]; omega, ?_⟩
        have : 2 * (i + 1) = 2 * i + 1 + 1 := by ring
        rw [this]
        simpa using hk
    · rintro (h | ⟨i, hi, hk⟩)
      · exact Or.inl (Or.inr h)
      · cases i with
        | zero =>
          simp at hk
          exact Or.inl (Or.inl hk.symm)
        | succ i =>
          have : 2 * (i + 1) = 2 * i + 1 + 1 := by ring
          rw [this] at hk
          simp only [List.length_cons] at hi
          exact Or.inr ⟨i, by omega, by simpa using hk⟩

/-- A key that is at no even position of the list keeps its value through
`insertPairs`. -/
theorem lookup_insertPairs_of_absent :
    ∀ (data : List String) (result : Entries String) (k : String),
      (∀ i, 2 * i + 1 < data.length → data[2 * i]? ≠ some k) →
      (insertPairs result data).lookup k = result.lookup k
  | [], result, k, _ => rfl
  | [a], result, k, _ => rfl
  | a :: b :: rest, result, k, h => by
    have hka : k ≠ a := by
      intro hk
      exact h 0 (by simp) (by simp [hk])
    have hrest : ∀ i, 2 * i + 1 < rest.length → rest[2 * i]? ≠ some k := by
      intro i hi hk
      refine h (i + 1) (by simp only [List.length_cons]; omega) ?_
      have : 2 * (i + 1) = 2 * i + 1 + 1 := by ring
      rw [this]
      simpa using hk
    rw [insertPairs, lookup_insertPairs_of_absent rest (result.insert a b) k hrest,
      AList.lookup_insert_ne hka]

/-- The value `insertPairs` leaves under a key is the element after the last
even position that holds the key. -/
theorem lookup_insertPairs_of_last :
    ∀ (data : List String) (result : Entries String) (k : String) (j : Nat),
      2 * j + 1 < data.length → data[2 * j]? = some k →
      (∀ j', j < j' → 2 * j' + 1 < data.length → data[2 * j']? ≠ some k) →
      (insertPairs result data).lookup k = data[2 * j + 1]?
  | [], result, k, j, hj, _, _ => by simp at hj
  | [a], result, k, j, hj, _, _ => by simp at hj
  | a :: b :: rest, result, k, j, hj, hk, hlast => by
    cases j with
    | zero =>
      simp at hk
      subst hk
      have hrest : ∀ i, 2 * i + 1 < rest.length → rest[2 * i]? ≠ some a := by
        intro i hi hi2
        refine hlast (i + 1) (by omega) (by simp only [List.length_cons]; omega) ?_
        have : 2 * (i + 1) = 2 * i + 1 + 1 := by ring
        rw [this]
        simpa using hi2
      rw [insertPairs, lookup_insertPairs_of_absent rest _ a hrest, AList.lookup_insert]
      simp
    | succ j =>
      have e1 : 2 * (j + 1) = 2 * j + 1 + 1 := by ring
      have e2 : 2 * (j + 1) + 1 = 2 * j + 1 + 1 + 1 := by ring
      rw [e1] at hk
      simp only [List.length_cons] at hj
      have hlast1 : ∀ j', j < j' → 2 * j' + 1 < rest.length → rest[2 * j']? ≠ some k := by
        intro j' hjj hj' hk'
        refine hlast (j' + 1) (by omega) (by simp only [List.length_cons]; omega) ?_
        have : 2 * (j' + 1) = 2 * j' + 1 + 1 := by ring
        rw [this]
        simpa using hk'
      rw [insertPairs, e2,
        lookup_insertPairs_of_last rest (result.insert a b) k j (by omega) (by simpa using hk)
          hlast1]
      simp

/-- The head and the tail of what is left of a list from index `n` on. -/
theorem drop_eq_cons {data rest : List String} {val : String} {n : Nat}
    (h : data.drop n = val :: rest) : data[n]? = some val ∧ data.drop (n + 1) = rest := by
  constructor
  · have h0 := List.getElem?_drop data n 0
    rw [h] at h0
    simpa using h0.symm
  · rw [← List.tail_drop, h]
    rfl

/-- The loop of `ConvertStringArrayToKV` keeps every entry as the spec
describes it. -/
theorem convertLoop_entries (data : List String) :
    ∀ (rest : List String) (result : Entries String) (key : String) (n : Nat),
      data.drop n = rest →
      (∀ k v, result.lookup k = some v → EntryFrom data k v) →
      PendingKey data n key →
      ∀ k v, (convertLoop result key n rest).lookup k = some v → EntryFrom data k v := by
  intro rest
  induction rest with
  | nil =>
    intro result key n _ hres _ k v hk
    exact hres k v hk
  | cons val rest ih =>
    intro result key n hdrop hres hkey k v hk
    obtain ⟨hval, hdrop1⟩ := drop_eq_cons hdrop
    unfold convertLoop at hk
    by_cases hv : val.length = 0
    · rw [if_pos hv] at hk
      have hv0 : val = "" := (length_eq_zero_iff val).mp hv
      refine ih result key (n + 1) hdrop1 hres ?_ k v hk
      rcases hkey with hkey | ⟨i, hi, hin, hik, hne, hbetween⟩
      · exact Or.inl hkey
      · refine Or.inr ⟨i, hi, by omega, hik, hne, ?_⟩
        intro m him hmn hm
        by_cases hmn1 : m < n
        · exact hbetween m him hmn1 hm
        · have : m = n := by omega
          rw [this, hval, hv0]
    · rw [if_neg hv] at hk
      have hv0 : val ≠ "" := fun h => hv ((length_eq_zero_iff val).mpr h)
      by_cases hn : n % 2 = 0
      · rw [if_pos hn] at hk
        refine ih result val (n + 1) hdrop1 hres ?_ k v hk
        exact Or.inr ⟨n, hn, by omega, hval, hv0, fun m h1 h2 _ => by omega⟩
      · rw [if_neg hn] at hk
        by_cases hkl : key.length ≠ 0
        · rw [if_pos hkl] at hk
          have hkey0 : key ≠ "" := fun h => hkl ((length_eq_zero_iff key).mpr h)
          refine ih (result.insert key val) "" (n + 1) hdrop1 ?_ (Or.inl rfl) k v hk
          intro k1 v1 h1
          by_cases hk1 : k1 = key
          · subst hk1
            rw [AList.lookup_insert] at h1
            injection h1 with h1
            subst h1
            rcases hkey with hkey | ⟨i, hi, hin, hik, hne, hbetween⟩
            · exact absurd hkey hkey0
            · exact ⟨i, n, hi, by omega, hin, hik, hval, hne, hv0, hbetween⟩
          · rw [AList.lookup_insert_ne hk1] at h1
            exact hres k1 v1 h1
        · rw [if_neg hkl] at hk
          have hkey0 : key = "" := (length_eq_zero_iff key).mp (by omega)
          exact ih result key (n + 1) hdrop1 hres (Or.inl hkey0) k v hk

/-- An assignment adds at most one entry to a map. -/
theorem length_insert_le (result : Entries String) (k v : String) :
    (result.insert k v).entries.length ≤ result.entries.length + 1 := by
  rw [AList.insert_entries, List.length_cons]
  exact Nat.succ_le_succ (List.kerase_sublist k result.entries).length_le

/-- The loop of `ConvertStringArrayToKV` adds at most one entry per odd index
it passes. -/
theorem convertLoop_length :
    ∀ (rest : List String) (result : Entries String) (key : String) (n : Nat),
      (convertLoop result key n rest).entries.length ≤
        result.entries.length + (rest.length + n % 2) / 2 := by
  intro rest
  induction rest with
  | nil =>
    intro result key n
    simp [convertLoop]
  | cons val rest ih =>
    intro result key n
    unfold convertLoop
    simp only [List.length_cons]
    split
    · have := ih result key (n + 1)
      omega
    · split
      · have := ih result val (n + 1)
        omega
      · split
        · have h1 := ih (result.insert key val) "" (n + 1)
          have h2 := length_insert_le result key val
          omega
        · have := ih result key (n + 1)
          omega

/-- On a map that is not nil the loop of `MergeMaps` never panics: it assigns
the entries one after the other. -/
theorem mergeLoop_some {V : Type} :
    ∀ (l : List (Sigma (fun _ : String => V))) (a1 : Entries V),
      mergeLoop (some a1) l = .ok (some (l.foldl (fun m e => m.insert e.1 e.2) a1))
  | [], a1 => rfl
  | e :: rest, a1 => by
    simp only [mergeLoop, GoMap.assign, List.foldl_cons]
    exact mergeLoop_some rest (a1.insert e.1 e.2)

/-- The keys after a run of assignments. -/
theorem mem_foldl_insert {V : Type} :
    ∀ (l : List (Sigma (fun _ : String => V))) (a1 : Entries V) (k : String),
      k ∈ l.foldl (fun m e => m.insert e.1 e.2) a1 ↔ k ∈ a1 ∨ k ∈ l.keys
  | [], a1, k => by simp
  | e :: rest, a1, k => by
    rw [List.foldl_cons, mem_foldl_insert rest (a1.insert e.1 e.2) k, AList.mem_insert,
      List.keys_cons, List.mem_cons]
    tauto

/-- A key that is not assigned keeps its value. -/
theorem lookup_foldl_insert_of_not_mem {V : Type} :
    ∀ (l : List (Sigma (fun _ : String => V))) (a1 : Entries V) (k : String),
      k ∉ l.keys → (l.foldl (fun m e => m.insert e.1 e.2) a1).lookup k = a1.lookup k
  | [], a1, k, _ => rfl
  | e :: rest, a1, k, h => by
    rw [List.keys_cons, List.mem_cons, not_or] at h
    rw [List.foldl_cons, lookup_foldl_insert_of_not_mem rest (a1.insert e.1 e.2) k h.2,
      AList.lookup_insert_ne h.1]

/-- A key that is assigned once ends with the value assigned. -/
theorem lookup_foldl_insert_of_mem {V : Type} :
    ∀ (l : List (Sigma (fun _ : String => V))) (a1 : Entries V) (k : String) (v : V),
      l.NodupKeys → l.dlookup k = some v →
      (l.foldl (fun m e => m.insert e.1 e.2) a1).lookup k = some v
  | [], a1, k, v, _, h => by simp at h
  | e :: rest, a1, k, v, hnd, h => by
    obtain ⟨ek, ev⟩ := e
    rw [List.nodupKeys_cons] at hnd
    rw [List.foldl_cons]
    by_cases hk : ek = k
    · subst hk
      rw [List.dlookup_cons_eq] at h
      injection h with h
      subst h
      rw [lookup_foldl_insert_of_not_mem rest _ ek hnd.1, AList.lookup_insert]
    · rw [List.dlookup_cons_ne _ _ (fun h' => hk h'.symm)] at h
      exact lookup_foldl_insert_of_mem rest _ k v hnd.2 h

/-! ### The round trip of the codec -/

/-- Before the end of the value the scanner's `endTop` is not set. -/
theorem inv_endTop_false {s : Scanner} (hinv : Inv s) (hne : s.step ≠ .endTop) :
    s.endTop = false := by
  cases h : s.endTop
  · rfl
  · exact absurd (hinv.2.1 h) hne

/-- Before the end of the value the scanner inside the object is in the same state. -/
theorem ctx_step {s : Scanner} (hne : s.step ≠ .endTop) : (ctx s).step = s.step := by
  simp [ctx, hne]

/-- Two conditionals on the same condition agree when their branches do. -/
theorem agree_ite {s : Scanner} {p : Prop} [Decidable p] {a b a1 b1 : Scanner × ScanCode}
    (h1 : p → Agree s a a1) (h2 : ¬ p → Agree s b b1) :
    Agree s (if p then a else b) (if p then a1 else b1) := by
  by_cases h : p
  · rw [if_pos h, if_pos h]
    exact h1 h
  · rw [if_neg h, if_neg h]
    exact h2 h

/-- An error result agrees with anything. -/
theorem agree_error (s u : Scanner) (rt : Scanner × ScanCode) : Agree s u.error rt :=
  fun hv => absurd rfl hv

/-- A blank that leaves the scanner as it is: `compact` drops it. -/
theorem agree_skip {s : Scanner} (hinv : Inv s) (rt : Scanner × ScanCode) :
    Agree s (s, .scanSkipSpace) rt :=
  fun _ _ _ => Or.inl ⟨Or.inl rfl, hinv, Or.inl rfl⟩

/-- A byte inside a literal that leaves the scanner as it is. -/
theorem agree_stay {s : Scanner} (hinv : Inv s) :
    Agree s (s, .scanContinue) (ctx s, .scanContinue) :=
  fun _ _ _ => Or.inr ⟨by simp, by simp, rfl, hinv, fun _ => ⟨by simp, by simp⟩⟩

/-- A step that only changes the state inside a literal. -/
theorem agree_set {s : Scanner} (hinv : Inv s) (hne : s.step ≠ .endTop) (next : StepFn)
    (code : ScanCode) (h1 : next ≠ .endTop) (h2 : next ≠ .failed)
    (h3 : next ≠ .beginStringOrEmpty)
    (hc : code = .scanContinue ∨ code = .scanBeginLiteral) :
    Agree s ({ s with step := next }, code) ({ ctx s with step := next }, code) := by
  intro _ _ _
  refine Or.inr ⟨?_, ?_, ?_, ?_, ?_⟩
  · rcases hc with rfl | rfl <;> simp
  · rcases hc with rfl | rfl <;> simp
  · simp [ctx, h1]
  · exact ⟨hinv.1, fun h => absurd (hinv.2.1 h) hne, fun h => absurd h h1, h2,
      fun h => absurd h h3⟩
  · intro _
    rcases hc with rfl | rfl <;> simp

/-- A step that opens an object or an array. -/
theorem agree_push {s : Scanner} (hinv : Inv s) (hne : s.step ≠ .endTop) (next : StepFn)
    (p : ParseState) (code : ScanCode) (h1 : next ≠ .endTop) (h2 : next ≠ .failed)
    (hc : code = .scanBeginObject ∨ code = .scanBeginArray) :
    Agree s (Scanner.pushParseState { s with step := next } p code)
      (Scanner.pushParseState { ctx s with step := next } p code) := by
  intro hv _ hd
  by_cases hlen : s.parseState.length + 1 ≤ maxNestingDepth
  · have hr : Scanner.pushParseState { s with step := next } p code =
        ({ s with step := next, parseState := p :: s.parseState }, code) := by
      simp [Scanner.pushParseState, hlen]
    rw [hr] at hd ⊢
    simp only [List.length_cons] at hd
    have hrt : Scanner.pushParseState { ctx s with step := next } p code =
        ({ ctx s with step := next, parseState := p :: (ctx s).parseState }, code) := by
      have : s.parseState.length + 1 + 1 ≤ maxNestingDepth := by omega
      simp [Scanner.pushParseState, ctx, this]
    rw [hrt]
    refine Or.inr ⟨?_, ?_, ?_, ?_, ?_⟩
    · rcases hc with rfl | rfl <;> simp
    · rcases hc with rfl | rfl <;> simp
    · simp [ctx, h1]
    · exact ⟨hinv.1, fun h => absurd (hinv.2.1 h) hne, fun h => absurd h h1, h2,
        fun _ => List.cons_ne_nil _ _⟩
    · intro _
      rcases hc with rfl | rfl <;> simp
  · have hr : (Scanner.pushParseState { s with step := next } p code).2 = .scanError := by
      simp [Scanner.pushParseState, hlen, Scanner.error]
    exact absurd hr hv

/-- The byte after a value, read in a state from which the scanner looks for it. -/
theorem stateEndValue_agree {s : Scanner} (c : Nat) (hinv : Inv s) (hne : s.step ≠ .endTop)
    (hst : s.step = .endValue ∨ numEnd s.step = true ∨ isSpace c = false) :
    Agree s (stateEndValue s c) (stateEndValue (ctx s) c) := by
  intro hv herr _
  obtain ⟨st, e, stack, er⟩ := s
  simp only [Inv] at hinv
  obtain ⟨rfl, h2, h3, h4, h5⟩ := hinv
  have he : e = false := by
    cases e
    · rfl
    · exact absurd (h2 rfl) hne
  subst he
  simp only at hne hst
  by_cases hc : c ∈ ([0x20, 0x09, 0x0D, 0x0A, 0x3A, 0x2C, 0x7D, 0x5D] : List Nat)
  · simp only [List.mem_cons, List.mem_singleton, List.not_mem_nil, or_false] at hc
    rcases stack with _ | ⟨ps, _ | ⟨ps2, rest⟩⟩
    · rcases hc with rfl | rfl | rfl | rfl | rfl | rfl | rfl | rfl <;>
        simp [stateEndValue, stateEndTop, isSpace, Scanner.error, Scanner.popParseState, ctx,
          Outcome, Embedded, Inv, numEnd, hne, h4, h5] at hv herr hst ⊢ <;> tauto
    · cases ps <;> rcases hc with rfl | rfl | rfl | rfl | rfl | rfl | rfl | rfl <;>
        simp [stateEndValue, stateEndTop, isSpace, Scanner.error, Scanner.popParseState, ctx,
          Outcome, Embedded, Inv, numEnd, hne, h4, h5] at hv herr hst ⊢ <;> tauto
    · cases ps <;> rcases hc with rfl | rfl | rfl | rfl | rfl | rfl | rfl | rfl <;>
        simp [stateEndValue, stateEndTop, isSpace, Scanner.error, Scanner.popParseState, ctx,
          Outcome, Embedded, Inv, numEnd, hne, h4, h5] at hv herr hst ⊢ <;> tauto
  · simp only [List.mem_cons, List.mem_singleton, List.not_mem_nil, or_false, not_or] at hc
    obtain ⟨c1, c2, c3, c4, c5, c6, c7, c8⟩ := hc
    rcases stack with _ | ⟨ps, rest⟩
    · simp [stateEndValue, stateEndTop, isSpace, Scanner.error, c1, c2, c3, c4] at herr
    · cases ps <;>
        simp [stateEndValue, stateEndTop, isSpace, Scanner.error, c1, c2, c3, c4, c5, c6, c7, c8]
          at hv

/-- The two scanners agree on a byte inside a string. -/
theorem stateInString_agree {s : Scanner} (c : Nat) (hinv : Inv s) (hne : s.step ≠ .endTop) :
    Agree s (stateInString s c) (stateInString (ctx s) c) := by
  unfold stateInString
  repeat'
    first
    | exact agree_error _ _ _
    | exact agree_skip hinv _
    | exact agree_stay hinv
    | exact agree_set hinv hne _ _ (by decide) (by decide) (by decide) (by decide)
    | (apply agree_ite <;> intro _)

/-- The two scanners agree on the byte after a backslash. -/
theorem stateInStringEsc_agree {s : Scanner} (c : Nat) (hinv : Inv s) (hne : s.step ≠ .endTop) :
    Agree s (stateInStringEsc s c) (stateInStringEsc (ctx s) c) := by
  unfold stateInStringEsc
  repeat'
    first
    | exact agree_error _ _ _
    | exact agree_skip hinv _
    | exact agree_stay hinv
    | exact agree_set hinv hne _ _ (by decide) (by decide) (by decide) (by decide)
    | (apply agree_ite <;> intro _)

/-- The two scanners agree on a digit of a `\u` escape. -/
theorem stateHexDigit_agree {s : Scanner} (c : Nat) (next : StepFn) (hinv : Inv s)
    (hne : s.step ≠ .endTop)
    (h1 : next ≠ .endTop) (h2 : next ≠ .failed) (h3 : next ≠ .beginStringOrEmpty) :
    Agree s (stateHexDigit next s c) (stateHexDigit next (ctx s) c) := by
  unfold stateHexDigit
  exact agree_ite (fun _ => agree_set hinv hne _ _ h1 h2 h3 (by decide))
    (fun _ => agree_error _ _ _)

/-- The two scanners agree on a letter of `true`, `false` or `null`. -/
theorem stateLetter_agree {s : Scanner} (c : Nat) (want : Nat) (next : StepFn) (hinv : Inv s)
    (hne : s.step ≠ .endTop)
    (h1 : next ≠ .endTop) (h2 : next ≠ .failed) (h3 : next ≠ .beginStringOrEmpty) :
    Agree s (stateLetter want next s c) (stateLetter want next (ctx s) c) := by
  unfold stateLetter
  exact agree_ite (fun _ => agree_set hinv hne _ _ h1 h2 h3 (by decide))
    (fun _ => agree_error _ _ _)

/-- The two scanners agree on the byte after a minus sign. -/
theorem stateNeg_agree {s : Scanner} (c : Nat) (hinv : Inv s) (hne : s.step ≠ .endTop) :
    Agree s (stateNeg s c) (stateNeg (ctx s) c) := by
  unfold stateNeg
  repeat'
    first
    | exact agree_error _ _ _
    | exact agree_skip hinv _
    | exact agree_stay hinv
    | exact agree_set hinv hne _ _ (by decide) (by decide) (by decide) (by decide)
    | (apply agree_ite <;> intro _)

/-- The two scanners agree on the byte after a decimal point. -/
theorem stateDot_agree {s : Scanner} (c : Nat) (hinv : Inv s) (hne : s.step ≠ .endTop) :
    Agree s (stateDot s c) (stateDot (ctx s) c) := by
  unfold stateDot
  repeat'
    first
    | exact agree_error _ _ _
    | exact agree_skip hinv _
    | exact agree_stay hinv
    | exact agree_set hinv hne _ _ (by decide) (by decide) (by decide) (by decide)
    | (apply agree_ite <;> intro _)

/-- The two scanners agree on the byte after the sign of an exponent. -/
theorem stateESign_agree {s : Scanner} (c : Nat) (hinv : Inv s) (hne : s.step ≠ .endTop) :
    Agree s (stateESign s c) (stateESign (ctx s) c) := by
  unfold stateESign
  repeat'
    first
    | exact agree_error _ _ _
    | exact agree_skip hinv _
    | exact agree_stay hinv
    | exact agree_set hinv hne _ _ (by decide) (by decide) (by decide) (by decide)
    | (apply agree_ite <;> intro _)

/-- The two scanners agree on the first byte of an object key. -/
theorem stateBeginString_agree {s : Scanner} (c : Nat) (hinv : Inv s) (hne : s.step ≠ .endTop) :
    Agree s (stateBeginString s c) (stateBeginString (ctx s) c) := by
  unfold stateBeginString
  repeat'
    first
    | exact agree_error _ _ _
    | exact agree_skip hinv _
    | exact agree_stay hinv
    | exact agree_set hinv hne _ _ (by decide) (by decide) (by decide) (by decide)
    | (apply agree_ite <;> intro _)

/-- The two scanners agree on the first byte of a value. -/
theorem stateBeginValue_agree {s : Scanner} (c : Nat) (hinv : Inv s) (hne : s.step ≠ .endTop) :
    Agree s (stateBeginValue s c) (stateBeginValue (ctx s) c) := by
  unfold stateBeginValue
  repeat'
    first
    | exact agree_error _ _ _
    | exact agree_skip hinv _
    | exact agree_stay hinv
    | exact agree_set hinv hne _ _ (by decide) (by decide) (by decide) (by decide)
    | exact agree_push hinv hne _ _ _ (by decide) (by decide) (by decide)
    | (apply agree_ite <;> intro _)

/-- The two scanners agree on the byte after the `e` of an exponent. -/
theorem stateE_agree {s : Scanner} (c : Nat) (hinv : Inv s) (hne : s.step ≠ .endTop) :
    Agree s (stateE s c) (stateE (ctx s) c) := by
  unfold stateE
  exact agree_ite
    (fun _ => agree_set hinv hne _ _ (by decide) (by decide) (by decide) (by decide))
    (fun _ => stateESign_agree c hinv hne)

/-- The two scanners agree on the byte after `[`. -/
theorem stateBeginValueOrEmpty_agree {s : Scanner} (c : Nat) (hinv : Inv s)
    (hne : s.step ≠ .endTop) :
    Agree s (stateBeginValueOrEmpty s c) (stateBeginValueOrEmpty (ctx s) c) := by
  unfold stateBeginValueOrEmpty
  refine agree_ite (fun _ => agree_skip hinv _) (fun hsp => agree_ite (fun _ => ?_) (fun _ => ?_))
  · exact stateEndValue_agree c hinv hne (Or.inr (Or.inr (by simpa using hsp)))
  · exact stateBeginValue_agree c hinv hne

/-- The two scanners agree on the byte after a leading `0`. -/
theorem state0_agree {s : Scanner} (c : Nat) (hinv : Inv s) (hne : s.step ≠ .endTop)
    (hnum : numEnd s.step = true) : Agree s (state0 s c) (state0 (ctx s) c) := by
  unfold state0
  exact agree_ite
    (fun _ => agree_set hinv hne _ _ (by decide) (by decide) (by decide) (by decide))
    (fun _ => agree_ite
      (fun _ => agree_set hinv hne _ _ (by decide) (by decide) (by decide) (by decide))
      (fun _ => stateEndValue_agree c hinv hne (Or.inr (Or.inl hnum))))

/-- The two scanners agree on a byte after the digits of an integer. -/
theorem state1_agree {s : Scanner} (c : Nat) (hinv : Inv s) (hne : s.step ≠ .endTop)
    (hnum : numEnd s.step = true) : Agree s (state1 s c) (state1 (ctx s) c) := by
  unfold state1
  exact agree_ite
    (fun _ => agree_set hinv hne _ _ (by decide) (by decide) (by decide) (by decide))
    (fun _ => state0_agree c hinv hne hnum)

/-- The two scanners agree on a byte after the digits of a fraction. -/
theorem stateDot0_agree {s : Scanner} (c : Nat) (hinv : Inv s) (hne : s.step ≠ .endTop)
    (hnum : numEnd s.step = true) : Agree s (stateDot0 s c) (stateDot0 (ctx s) c) := by
  unfold stateDot0
  exact agree_ite (fun _ => agree_stay hinv)
    (fun _ => agree_ite
      (fun _ => agree_set hinv hne _ _ (by decide) (by decide) (by decide) (by decide))
      (fun _ => stateEndValue_agree c hinv hne (Or.inr (Or.inl hnum))))

/-- The two scanners agree on a byte after the digits of an exponent. -/
theorem stateE0_agree {s : Scanner} (c : Nat) (hinv : Inv s) (hne : s.step ≠ .endTop)
    (hnum : numEnd s.step = true) : Agree s (stateE0 s c) (stateE0 (ctx s) c) := by
  unfold stateE0
  exact agree_ite (fun _ => agree_stay hinv)
    (fun _ => stateEndValue_agree c hinv hne (Or.inr (Or.inl hnum)))

/-- The closing brace of an empty object. -/
theorem closeEmpty_agree {s : Scanner} (hinv : Inv s) (hne : s.step ≠ .endTop)
    (hstack : s.parseState ≠ []) :
    Agree s
      (stateEndValue { s with parseState := .parseObjectValue :: s.parseState.tail } 0x7D)
      (stateEndValue
        { ctx s with parseState := .parseObjectValue :: (ctx s).parseState.tail } 0x7D) := by
  intro hv herr _
  obtain ⟨st, e, stack, er⟩ := s
  simp only [Inv] at hinv
  obtain ⟨rfl, h2, h3, h4, h5⟩ := hinv
  have he : e = false := by
    cases e
    · rfl
    · exact absurd (h2 rfl) hne
  subst he
  simp only at hne hstack
  rcases stack with _ | ⟨ps, _ | ⟨ps2, rest⟩⟩
  · exact absurd rfl hstack
  · simp [stateEndValue, stateEndTop, isSpace, Scanner.error,
      Scanner.popParseState, ctx, Outcome, Embedded, Inv, numEnd, hne, h4] at hv herr ⊢
  · simp [stateEndValue, stateEndTop, isSpace, Scanner.error,
      Scanner.popParseState, ctx, Outcome, Embedded, Inv, numEnd, hne, h4] at hv herr ⊢

/-- The two scanners agree on the byte after the opening brace of an object. -/
theorem stateBeginStringOrEmpty_agree {s : Scanner} (c : Nat) (hinv : Inv s)
    (hne : s.step ≠ .endTop) (hstack : s.parseState ≠ []) :
    Agree s (stateBeginStringOrEmpty s c) (stateBeginStringOrEmpty (ctx s) c) := by
  unfold stateBeginStringOrEmpty
  refine agree_ite (fun _ => agree_skip hinv _) (fun _ => agree_ite (fun hc => ?_) (fun _ => ?_))
  · subst hc
    exact closeEmpty_agree hinv hne hstack
  · exact stateBeginString_agree c hinv hne

/-- One byte read from `s` and from `ctx s`. -/
theorem doStep_agree {s : Scanner} (c : Nat) (hinv : Inv s) (hne : s.step ≠ .endTop) :
    Agree s (s.doStep c) ((ctx s).doStep c) := by
  have hct := ctx_step hne
  cases hst : s.step <;> rw [hst] at hct <;> simp only [Scanner.doStep, hst, hct]
  case endTop => exact absurd hst hne
  case failed => exact absurd hst hinv.2.2.2.1
  case beginValueOrEmpty => exact stateBeginValueOrEmpty_agree c hinv hne
  case beginValue => exact stateBeginValue_agree c hinv hne
  case beginStringOrEmpty =>
    exact stateBeginStringOrEmpty_agree c hinv hne (hinv.2.2.2.2 hst)
  case beginString => exact stateBeginString_agree c hinv hne
  case endValue => exact stateEndValue_agree c hinv hne (Or.inl hst)
  case inString => exact stateInString_agree c hinv hne
  case inStringEsc => exact stateInStringEsc_agree c hinv hne
  case neg => exact stateNeg_agree c hinv hne
  case one => exact state1_agree c hinv hne (by rw [hst]; rfl)
  case zero => exact state0_agree c hinv hne (by rw [hst]; rfl)
  case dot => exact stateDot_agree c hinv hne
  case dot0 => exact stateDot0_agree c hinv hne (by rw [hst]; rfl)
  case expE => exact stateE_agree c hinv hne
  case expSign => exact stateESign_agree c hinv hne
  case exp0 => exact stateE0_agree c hinv hne (by rw [hst]; rfl)
  all_goals
    first
    | exact stateHexDigit_agree c _ hinv hne (by decide) (by decide) (by decide)
    | exact stateLetter_agree c _ _ hinv hne (by decide) (by decide) (by decide)

/-- The byte after a number and a blank: the scanner inside the object is still in the
number. -/
theorem endValue_num (s : Scanner) (c : Nat) (n : StepFn) (hinv : Inv s)
    (hs : s.step = .endValue) (hn : numEnd n = true)
    (hv : (stateEndValue s c).2 ≠ .scanError) (herr : (stateEndValue s c).1.err = false) :
    Outcome s { ctx s with step := n } (stateEndValue s c)
      (Scanner.doStep { ctx s with step := n } c) := by
  obtain ⟨st, e, stack, er⟩ := s
  simp only [Inv] at hinv
  obtain ⟨rfl, h2, h3, h4, h5⟩ := hinv
  simp only at hs
  subst hs
  have he : e = false := by
    cases e
    · rfl
    · exact absurd (h2 rfl) (by decide)
  subst he
  simp only [numEnd, Bool.or_eq_true, decide_eq_true_eq] at hn
  by_cases hc : c ∈ ([0x20, 0x09, 0x0D, 0x0A, 0x3A, 0x2C, 0x7D, 0x5D] : List Nat)
  · simp only [List.mem_cons, List.mem_singleton, List.not_mem_nil, or_false] at hc
    rcases stack with _ | ⟨ps, _ | ⟨ps2, rest⟩⟩
    · rcases hn with ((rfl | rfl) | rfl) | rfl <;>
        rcases hc with rfl | rfl | rfl | rfl | rfl | rfl | rfl | rfl <;>
        simp [Scanner.doStep, state0, state1, stateDot0, stateE0, isDigit, stateEndValue,
          stateEndTop, isSpace, Scanner.error, Scanner.popParseState, ctx,
          Outcome, Embedded, Inv, numEnd] at hv herr ⊢
    · cases ps <;> rcases hn with ((rfl | rfl) | rfl) | rfl <;>
        rcases hc with rfl | rfl | rfl | rfl | rfl | rfl | rfl | rfl <;>
        simp [Scanner.doStep, state0, state1, stateDot0, stateE0, isDigit, stateEndValue,
          stateEndTop, isSpace, Scanner.error, Scanner.popParseState, ctx,
          Outcome, Embedded, Inv, numEnd] at hv herr ⊢
    · cases ps <;> rcases hn with ((rfl | rfl) | rfl) | rfl <;>
        rcases hc with rfl | rfl | rfl | rfl | rfl | rfl | rfl | rfl <;>
        simp [Scanner.doStep, state0, state1, stateDot0, stateE0, isDigit, stateEndValue,
          stateEndTop, isSpace, Scanner.error, Scanner.popParseState, ctx,
          Outcome, Embedded, Inv, numEnd] at hv herr ⊢
  · simp only [List.mem_cons, List.mem_singleton, List.not_mem_nil, or_false, not_or] at hc
    obtain ⟨c1, c2, c3, c4, c5, c6, c7, c8⟩ := hc
    rcases stack with _ | ⟨ps, rest⟩
    · simp [stateEndValue, stateEndTop, isSpace, Scanner.error, c1, c2, c3, c4] at herr
    · cases ps <;>
        simp [stateEndValue, stateEndTop, isSpace, Scanner.error, c1, c2, c3, c4, c5, c6, c7, c8]
          at hv

/-- After the value the scanner on its own reads blanks only, and `compact` drops them. -/
theorem endTop_sim (s t : Scanner) (c : Nat) (hrel : Embedded s t)
    (herr : (stateEndTop s c).1.err = false) :
    Outcome s t (stateEndTop s c) (t.doStep c) := by
  by_cases c0 : isSpace c = true
  · have e1 : stateEndTop s c = (s, .scanEnd) := by simp [stateEndTop, c0]
    rw [e1]
    exact Or.inl ⟨Or.inr rfl, hrel⟩
  · simp [stateEndTop, c0, Scanner.error] at herr

/-- One byte read by the scanner on its own and, unless dropped, by the scanner inside the
object. -/
theorem step_sim {s t : Scanner} {c : Nat} (hrel : Embedded s t)
    (hv : (s.doStep c).2 ≠ .scanError) (herr : (s.doStep c).1.err = false)
    (hd : (s.doStep c).1.parseState.length < maxNestingDepth) :
    Outcome s t (s.doStep c) (t.doStep c) := by
  obtain ⟨hinv, ht | ⟨hs, n, hn, ht⟩⟩ := hrel
  · subst ht
    by_cases hne : s.step = .endTop
    · have e1 : s.doStep c = stateEndTop s c := by simp only [Scanner.doStep, hne]
      rw [e1] at herr ⊢
      exact endTop_sim s (ctx s) c ⟨hinv, Or.inl rfl⟩ herr
    · exact doStep_agree c hinv hne hv herr hd
  · subst ht
    rcases hs with hs | hs
    · have e1 : s.doStep c = stateEndValue s c := by simp only [Scanner.doStep, hs]
      rw [e1] at hv herr ⊢
      exact endValue_num s c n hinv hs hn hv herr
    · have e1 : s.doStep c = stateEndTop s c := by simp only [Scanner.doStep, hs]
      rw [e1] at herr ⊢
      exact endTop_sim s _ c ⟨hinv, Or.inr ⟨Or.inr hs, n, hn, rfl⟩⟩ herr

/-- A conditional keeps `ErrFailed` when its branches do. -/
theorem errFailed_ite (p : Prop) [Decidable p] (a b : Scanner × ScanCode)
    (ha : ErrFailed a) (hb : ErrFailed b) : ErrFailed (if p then a else b) := by
  split
  · exact ha
  · exact hb

/-- The result of `Scanner.error` is in the failed state. -/
theorem errFailed_error (s : Scanner) : ErrFailed s.error := by
  intro _
  rfl

/-- A result without the error set. -/
theorem errFailed_mk (st : StepFn) (e : Bool) (ps : List ParseState) (v : ScanCode) :
    ErrFailed (⟨st, e, ps, false⟩, v) := by
  intro h
  simp at h

/-- The result of `stateEndTop` sets the error only with the failed state. -/
theorem errFailed_endTop (st : StepFn) (e : Bool) (ps : List ParseState) (c : Nat) :
    ErrFailed (stateEndTop ⟨st, e, ps, false⟩ c) := by
  unfold stateEndTop
  exact errFailed_ite _ _ _ (errFailed_mk _ _ _ _) (fun _ => rfl)

/-- The result of `pushParseState` sets the error only with the failed state. -/
theorem errFailed_push (st : StepFn) (e : Bool) (ps : List ParseState) (n : ParseState)
    (v : ScanCode) : ErrFailed (Scanner.pushParseState ⟨st, e, ps, false⟩ n v) := by
  unfold Scanner.pushParseState
  exact errFailed_ite _ _ _ (errFailed_mk _ _ _ _) (errFailed_error _)

/-- The result of `popParseState` does not set the error. -/
theorem errFailed_pop (st : StepFn) (e : Bool) (ps : List ParseState) (v : ScanCode) :
    ErrFailed (Scanner.popParseState ⟨st, e, ps, false⟩, v) := by
  intro h
  simp only [Scanner.popParseState] at h
  split at h <;> simp at h

/-- The result of `stateEndValue` sets the error only with the failed state. -/
theorem errFailed_endValue (st : StepFn) (e : Bool) (ps : List ParseState) (c : Nat) :
    ErrFailed (stateEndValue ⟨st, e, ps, false⟩ c) := by
  unfold stateEndValue
  rcases ps with _ | ⟨p, rest⟩
  · exact errFailed_endTop _ _ _ _
  · cases p <;>
      repeat' first
        | apply errFailed_ite
        | exact errFailed_mk _ _ _ _
        | exact errFailed_error _
        | exact errFailed_pop _ _ _ _

/-- A step sets the error only together with the failed state. -/
theorem errFailed_doStep (s : Scanner) (c : Nat) (hs : s.err = false) :
    ErrFailed (s.doStep c) := by
  obtain ⟨st, e, stack, er⟩ := s
  simp only at hs
  subst hs
  cases st <;>
    simp only [Scanner.doStep, stateBeginValue, stateBeginValueOrEmpty, stateBeginString,
      stateBeginStringOrEmpty, stateInString, stateInStringEsc, stateHexDigit, state0, state1,
      stateNeg, stateDot, stateDot0, stateESign, stateE, stateE0, stateLetter] <;>
    repeat' first
      | apply errFailed_ite
      | exact errFailed_mk _ _ _ _
      | exact errFailed_error _
      | exact errFailed_endValue _ _ _ _
      | exact errFailed_endTop _ _ _ _
      | exact errFailed_push _ _ _ _ _
      | exact errFailed_pop _ _ _ _

/-- One round of `compactLoop`. -/
theorem compactLoop_eq (s : Scanner) (skip c : Nat) (rest : Bytes) :
    compactLoop s skip (c :: rest) =
      if (s.doStep c).2 = .scanError then none
      else (compactLoop (s.doStep c).1 (compactSkip skip c rest) rest).map
        (fun r => (r.1, compactOut skip c rest (s.doStep c).2 ++ r.2)) := by
  rfl

/-- A successful run of `compactLoop` over `c :: rest`: the step on `c` is no error and the
run goes on over `rest`. -/
theorem compactLoop_cons {s sfin : Scanner} {skip c : Nat} {rest out : Bytes}
    (h : compactLoop s skip (c :: rest) = some (sfin, out)) :
    (s.doStep c).2 ≠ .scanError ∧
    ∃ out1, compactLoop (s.doStep c).1 (compactSkip skip c rest) rest = some (sfin, out1) ∧
      out = compactOut skip c rest (s.doStep c).2 ++ out1 := by
  rw [compactLoop_eq] at h
  by_cases hv : (s.doStep c).2 = .scanError
  · rw [if_pos hv] at h
    exact absurd h (by simp)
  · refine ⟨hv, ?_⟩
    rw [if_neg hv] at h
    cases hrec : compactLoop (s.doStep c).1 (compactSkip skip c rest) rest with
    | none =>
      rw [hrec] at h
      exact absurd h (by simp)
    | some r =>
      rw [hrec, Option.map_some'] at h
      injection h with h
      injection h with h1 h2
      exact ⟨r.2, by rw [← h1], h2.symm⟩

/-- The empty segment. -/
theorem seg_nil (s : Scanner) (k : Collector) : Seg s k [] s k :=
  ⟨rfl, fun _ => rfl⟩

/-- A segment starts with one step that is no error. -/
theorem seg_cons {s s1 s2 : Scanner} {k k2 : Collector} {c : Nat} {v : ScanCode} {X : Bytes}
    (h : s.doStep c = (s1, v)) (hv : v ≠ .scanError)
    (hX : Seg s1 (k.step s.parseState v c) X s2 k2) : Seg s k (c :: X) s2 k2 := by
  constructor
  · simp only [scanAll, h]
    cases v <;> first | exact absurd rfl hv | exact hX.1
  · intro Y
    simp only [List.cons_append, membersLoop, h]
    exact hX.2 Y

/-- Segments compose. -/
theorem seg_append {s s1 s2 : Scanner} {k k1 k2 : Collector} {X Y : Bytes} :
    Seg s k X s1 k1 → Seg s1 k1 Y s2 k2 → Seg s k (X ++ Y) s2 k2 := by
  induction X generalizing s k with
  | nil =>
    intro h1 h2
    simp only [Seg, scanAll, List.nil_append, Option.some.injEq] at h1
    obtain ⟨rfl, hk⟩ := h1
    refine ⟨h2.1, fun Z => ?_⟩
    rw [List.nil_append, hk (Y ++ Z)]
    exact h2.2 Z
  | cons c X ih =>
    intro h1 h2
    have hstep : ∃ s' v, s.doStep c = (s', v) := ⟨_, _, rfl⟩
    obtain ⟨s', v, hs'⟩ := hstep
    have hv : v ≠ .scanError := by
      intro hv
      subst hv
      have := h1.1
      simp [scanAll, hs'] at this
    have h1' : Seg s' (k.step s.parseState v c) X s1 k1 := by
      constructor
      · have := h1.1
        simp only [scanAll, hs'] at this
        cases v <;> first | exact absurd rfl hv | exact this
      · intro Z
        have := h1.2 Z
        simpa only [List.cons_append, membersLoop, hs'] using this
    exact seg_cons hs' hv (ih h1' h2)

/-- The segment of one byte. -/
theorem seg_one {s s1 : Scanner} {k : Collector} {c : Nat} {v : ScanCode}
    (h : s.doStep c = (s1, v)) (hv : v ≠ .scanError) :
    Seg s k [c] s1 (k.step s.parseState v c) :=
  seg_cons h hv (seg_nil _ _)

/-- Inside a value of the top-level object the collector appends the byte to the value. -/
theorem collect_val (k : Collector) (sp : List ParseState) (v : ScanCode) (c : Nat)
    (h : sp = [] → v ≠ .scanSkipSpace ∧ v ≠ .scanObjectValue ∧ v ≠ .scanEndObject) :
    k.step (sp ++ [ParseState.parseObjectValue]) v c = { k with val := c :: k.val } := by
  rcases sp with _ | ⟨p, _ | ⟨q, rest⟩⟩
  · obtain ⟨h1, h2, h3⟩ := h rfl
    simp [Collector.step, h1, h2, h3]
  · cases p <;> rfl
  · cases p <;> rfl

/-- Gathering the bytes of a value one by one puts them, reversed, in front of the value. -/
theorem foldl_appVal (X : Bytes) (k : Collector) :
    X.foldl appVal k = { k with val := X.reverse ++ k.val } := by
  induction X generalizing k with
  | nil => rfl
  | cons c X ih =>
    rw [List.foldl_cons, ih]
    simp [appVal]

/-- Gathering the bytes of a key one by one puts them, reversed, in front of the key. -/
theorem foldl_appKey (X : Bytes) (k : Collector) :
    X.foldl appKey k = { k with key := X.reverse ++ k.key } := by
  induction X generalizing k with
  | nil => rfl
  | cons c X ih =>
    rw [List.foldl_cons, ih]
    simp [appKey]

/-- In key position the collector gathers the bytes of the key literal. -/
theorem litPhase_key : LitPhase [ParseState.parseObjectKey] appKey := by
  intro k c v hv
  rcases hv with rfl | rfl <;> rfl

/-- Inside a value of the top-level object the collector gathers the bytes of literals. -/
theorem litPhase_val (sp : List ParseState) :
    LitPhase (sp ++ [ParseState.parseObjectValue]) appVal := by
  intro k c v hv
  rw [collect_val]
  · rfl
  · intro _
    rcases hv with rfl | rfl <;> decide

/-- No bytes keep the scanner inside a string. -/
theorem inStr_nil : InStr [] :=
  fun _ _ _ _ _ _ => seg_nil _ _

/-- Bytes that keep the scanner inside a string can be put one after the other. -/
theorem inStr_append {X Y : Bytes} (hX : InStr X) (hY : InStr Y) : InStr (X ++ Y) := by
  intro e er ps app k hp
  rw [List.foldl_append]
  exact seg_append (hX e er ps app k hp) (hY e er ps app _ hp)

/-- A byte that is no quote, backslash or control character keeps the scanner inside a
string. -/
theorem inStr_plain {c : Nat} (h1 : c ≠ 0x22) (h2 : c ≠ 0x5C) (h3 : 0x20 ≤ c) :
    InStr [c] := by
  intro e er ps app k hp
  have hstep : Scanner.doStep ⟨.inString, e, ps, er⟩ c =
      (⟨.inString, e, ps, er⟩, .scanContinue) := by
    have h3' : ¬ c < 0x20 := by omega
    simp [Scanner.doStep, stateInString, h1, h2, h3']
  have := seg_one (k := k) hstep (by decide)
  rw [hp k c _ (Or.inr rfl)] at this
  exact this

/-- A short escape keeps the scanner inside a string. -/
theorem inStr_esc {c : Nat}
    (h : c = 0x62 ∨ c = 0x66 ∨ c = 0x6E ∨ c = 0x72 ∨ c = 0x74 ∨ c = 0x5C ∨ c = 0x2F ∨
      c = 0x22) :
    InStr [0x5C, c] := by
  intro e er ps app k hp
  have h1 : Scanner.doStep ⟨.inString, e, ps, er⟩ 0x5C =
      (⟨.inStringEsc, e, ps, er⟩, .scanContinue) := by
    simp [Scanner.doStep, stateInString]
  have h2 : Scanner.doStep ⟨.inStringEsc, e, ps, er⟩ c =
      (⟨.inString, e, ps, er⟩, .scanContinue) := by
    simp [Scanner.doStep, stateInStringEsc, h]
  have := seg_cons (k := k) h1 (by decide) (seg_one h2 (by decide))
  simp only [hp _ _ _ (Or.inr rfl)] at this
  exact this

/-- A `\uXXXX` escape keeps the scanner inside a string. -/
theorem inStr_hex4 {a b c d : Nat} (ha : isHexDigit a = true) (hb : isHexDigit b = true)
    (hc : isHexDigit c = true) (hd : isHexDigit d = true) :
    InStr [0x5C, 0x75, a, b, c, d] := by
  intro e er ps app k hp
  have h1 : Scanner.doStep ⟨.inString, e, ps, er⟩ 0x5C =
      (⟨.inStringEsc, e, ps, er⟩, .scanContinue) := by
    simp [Scanner.doStep, stateInString]
  have h2 : Scanner.doStep ⟨.inStringEsc, e, ps, er⟩ 0x75 =
      (⟨.inStringEscU, e, ps, er⟩, .scanContinue) := by
    simp [Scanner.doStep, stateInStringEsc]
  have h3 : Scanner.doStep ⟨.inStringEscU, e, ps, er⟩ a =
      (⟨.inStringEscU1, e, ps, er⟩, .scanContinue) := by
    simp [Scanner.doStep, stateHexDigit, ha]
  have h4 : Scanner.doStep ⟨.inStringEscU1, e, ps, er⟩ b =
      (⟨.inStringEscU12, e, ps, er⟩, .scanContinue) := by
    simp [Scanner.doStep, stateHexDigit, hb]
  have h5 : Scanner.doStep ⟨.inStringEscU12, e, ps, er⟩ c =
      (⟨.inStringEscU123, e, ps, er⟩, .scanContinue) := by
    simp [Scanner.doStep, stateHexDigit, hc]
  have h6 : Scanner.doStep ⟨.inStringEscU123, e, ps, er⟩ d =
      (⟨.inString, e, ps, er⟩, .scanContinue) := by
    simp [Scanner.doStep, stateHexDigit, hd]
  have := seg_cons (k := k) h1 (by decide) (seg_cons h2 (by decide) (seg_cons h3 (by decide)
    (seg_cons h4 (by decide) (seg_cons h5 (by decide) (seg_one h6 (by decide))))))
  simp only [hp _ _ _ (Or.inr rfl)] at this
  exact this

/-- The digits of the `hex` table are hexadecimal digits. -/
theorem isHexDigit_hexDigit {n : Nat} (h : n < 16) : isHexDigit (hexDigit n) = true := by
  unfold hexDigit isHexDigit isDigit
  split <;> simp <;> omega

/-- The bytes that `compact` escapes are accepted inside a string only. -/
theorem special_in_string {s : Scanner} {c : Nat}
    (hc : c = 0x3C ∨ c = 0x3E ∨ c = 0x26 ∨ c = 0xE2) (hs : s.step ≠ .inString) :
    (s.doStep c).2 = .scanError ∨ (s.doStep c).1.err = true := by
  obtain ⟨st, e, stack, er⟩ := s
  have hsp : isSpace c = false := by
    rcases hc with rfl | rfl | rfl | rfl <;> decide
  have hdg : isDigit c = false := by
    rcases hc with rfl | rfl | rfl | rfl <;> decide
  have hhx : isHexDigit c = false := by
    rcases hc with rfl | rfl | rfl | rfl <;> decide
  have hend : ∀ u : Scanner,
      (stateEndValue u c).2 = .scanError ∨ (stateEndValue u c).1.err = true := by
    intro u
    obtain ⟨st1, e1, stack1, er1⟩ := u
    rcases stack1 with _ | ⟨p, rest⟩
    · simp [stateEndValue, stateEndTop, hsp, Scanner.error]
    · cases p <;> rcases hc with rfl | rfl | rfl | rfl <;>
        simp [stateEndValue, hsp, Scanner.error]
  have hbs : ∀ u : Scanner, (stateBeginString u c).2 = .scanError := by
    intro u
    rcases hc with rfl | rfl | rfl | rfl <;> simp [stateBeginString, hsp, Scanner.error]
  have hbv : ∀ u : Scanner, (stateBeginValue u c).2 = .scanError := by
    intro u
    rcases hc with rfl | rfl | rfl | rfl <;> simp [stateBeginValue, hsp, Scanner.error]
  have h0 : ∀ u : Scanner, state0 u c = stateEndValue u c := by
    intro u
    rcases hc with rfl | rfl | rfl | rfl <;> simp [state0]
  cases st
  case inString => exact absurd rfl hs
  case endValue => exact hend _
  case beginValue => exact Or.inl (hbv _)
  case beginString => exact Or.inl (hbs _)
  case beginValueOrEmpty =>
    have : stateBeginValueOrEmpty ⟨.beginValueOrEmpty, e, stack, er⟩ c =
        stateBeginValue ⟨.beginValueOrEmpty, e, stack, er⟩ c := by
      rcases hc with rfl | rfl | rfl | rfl <;> simp [stateBeginValueOrEmpty, hsp]
    simp only [Scanner.doStep, this]
    exact Or.inl (hbv _)
  case beginStringOrEmpty =>
    have : stateBeginStringOrEmpty ⟨.beginStringOrEmpty, e, stack, er⟩ c =
        stateBeginString ⟨.beginStringOrEmpty, e, stack, er⟩ c := by
      rcases hc with rfl | rfl | rfl | rfl <;> simp [stateBeginStringOrEmpty, hsp]
    simp only [Scanner.doStep, this]
    exact Or.inl (hbs _)
  case endTop => simp [Scanner.doStep, stateEndTop, hsp, Scanner.error]
  case zero =>
    simp only [Scanner.doStep, h0]
    exact hend _
  case one =>
    simp only [Scanner.doStep, state1, hdg, h0]
    exact hend _
  case dot0 =>
    have : stateDot0 ⟨.dot0, e, stack, er⟩ c = stateEndValue ⟨.dot0, e, stack, er⟩ c := by
      rcases hc with rfl | rfl | rfl | rfl <;> simp [stateDot0, hdg]
    simp only [Scanner.doStep, this]
    exact hend _
  case exp0 =>
    simp only [Scanner.doStep, stateE0, hdg]
    exact hend _
  case failed => exact Or.inl rfl
  all_goals
    rcases hc with rfl | rfl | rfl | rfl <;>
      simp [Scanner.doStep, stateInStringEsc, stateHexDigit, stateNeg, stateDot, stateESign,
        stateE, stateLetter, Scanner.error, isHexDigit, isDigit]

/-- Inside a string a byte from `&` on, the backslash apart, leaves the scanner as it is. -/
theorem inString_high {s : Scanner} {c : Nat} (hs : s.step = .inString) (hc : 0x26 ≤ c)
    (h2 : c ≠ 0x5C) : s.doStep c = (s, .scanContinue) := by
  obtain ⟨st, e, stack, er⟩ := s
  cases hs
  have h1 : c ≠ 0x22 := by omega
  have h3 : ¬ c < 0x20 := by omega
  simp [Scanner.doStep, stateInString, h1, h2, h3]

/-- Once the error is set, `compactLoop` stops at the next byte. -/
theorem compactLoop_err {s sfin : Scanner} {skip : Nat} {raw out : Bytes}
    (hs : s.err = true) (hf : s.step = .failed)
    (h : compactLoop s skip raw = some (sfin, out)) : sfin.err = true := by
  cases raw with
  | nil =>
    simp only [compactLoop, Option.some.injEq, Prod.mk.injEq] at h
    rw [← h.1]
    exact hs
  | cons c rest =>
    have := (compactLoop_cons h).1
    obtain ⟨st, e, stack, er⟩ := s
    cases hf
    exact absurd rfl this

/-- The depth of a run is at least the depth at its start. -/
theorem scanDepth_ge (s : Scanner) (X : Bytes) : s.parseState.length ≤ scanDepth s X := by
  cases X with
  | nil => exact le_refl _
  | cons c rest => exact le_max_left _ _

/-- Gathering two runs of bytes is gathering their concatenation. -/
theorem foldl_appVal_append (X Y : Bytes) (k : Collector) :
    Y.foldl appVal (X.foldl appVal k) = (X ++ Y).foldl appVal k := by
  rw [List.foldl_append]

/-- The scanner inside the object reads the output of `compactLoop` as the scanner on its
own reads the input, and the collector keeps every byte of it. -/
theorem sim_run : ∀ (raw : Bytes) (s t sfin : Scanner) (skip : Nat) (k : Collector) (out : Bytes),
    compactLoop s skip raw = some (sfin, out) → sfin.err = false → Embedded s t →
    SkipOK skip s raw → scanDepth s raw < maxNestingDepth →
    ∃ t1, Embedded sfin t1 ∧ Seg t k out t1 (out.foldl appVal k) := by
  intro raw
  induction raw with
  | nil =>
    intro s t sfin skip k out h _ hrel _ _
    simp only [compactLoop, Option.some.injEq, Prod.mk.injEq] at h
    obtain ⟨rfl, rfl⟩ := h
    exact ⟨t, hrel, seg_nil _ _⟩
  | cons c rest ih =>
    intro s t sfin skip k out h hfin hrel hskip hdepth
    obtain ⟨hv, out1, hrec, rfl⟩ := compactLoop_cons h
    have herr : (s.doStep c).1.err = false := by
      cases he : (s.doStep c).1.err with
      | false => rfl
      | true =>
        have := compactLoop_err he (errFailed_doStep s c hrel.1.1 he) hrec
        rw [this] at hfin
        exact absurd hfin (by decide)
    have hdepth1 : scanDepth (s.doStep c).1 rest < maxNestingDepth :=
      lt_of_le_of_lt (le_max_right _ _) hdepth
    have hd : (s.doStep c).1.parseState.length < maxNestingDepth :=
      lt_of_le_of_lt (scanDepth_ge _ _) hdepth1
    have hstack : t.parseState = s.parseState ++ [ParseState.parseObjectValue] := by
      rcases hrel.2 with rfl | ⟨_, n, _, rfl⟩ <;> rfl
    have hin : s.step = .inString →
        t = ⟨.inString, false, s.parseState ++ [ParseState.parseObjectValue], false⟩ := by
      intro hs
      rcases hrel.2 with rfl | ⟨h1, _⟩
      · simp [ctx, hs]
      · rw [hs] at h1
        rcases h1 with h1 | h1 <;> cases h1
    rw [← foldl_appVal_append]
    by_cases hsk : skip > 0
    · -- a byte of a line separator that has been written already
      have hs : s.step = .inString := by
        rcases hskip.1 with h0 | h0
        · omega
        · exact h0
      have hc : 0x80 ≤ c := by
        have := hskip.2
        by_cases hc : 0x80 ≤ c
        · exact hc
        · simp [List.takeWhile, hc] at this
          omega
      have hstep : s.doStep c = (s, .scanContinue) := inString_high hs (by omega) (by omega)
      rw [hstep] at hrec
      have hskip1 : SkipOK (compactSkip skip c rest) s rest := by
        refine ⟨Or.inr hs, ?_⟩
        have := hskip.2
        simp only [List.takeWhile, decide_eq_true hc, List.length_cons] at this
        simp only [compactSkip, if_pos hsk]
        omega
      rw [hstep] at hdepth1
      obtain ⟨t1, ht1, hseg⟩ := ih s t sfin _ k out1 hrec hfin hrel hskip1 hdepth1
      refine ⟨t1, ht1, ?_⟩
      simp only [compactOut, if_pos hsk, List.foldl_nil]
      exact seg_append (seg_nil _ _) hseg
    · by_cases hsp : c = 0x3C ∨ c = 0x3E ∨ c = 0x26
      · -- a character of a string that is written as an escape
        have hs : s.step = .inString := by
          by_contra hs
          rcases special_in_string (by tauto) hs with h1 | h1
          · exact hv h1
          · rw [h1] at herr
            exact absurd herr (by decide)
        have hstep : s.doStep c = (s, .scanContinue) :=
          inString_high hs (by omega) (by omega)
        rw [hstep] at hrec hdepth1
        have hns : ¬ isLineSep c rest := by
          intro h1
          have := h1.1
          omega
        have hskip1 : SkipOK (compactSkip skip c rest) s rest := by
          simp only [compactSkip, if_neg hsk, if_neg hns]
          exact ⟨Or.inl rfl, Nat.zero_le _⟩
        have hout : compactOut skip c rest (s.doStep c).2 =
            [0x5C, 0x75, 0x30, 0x30, hexDigit (c / 16), hexDigit (c % 16)] := by
          simp only [compactOut, if_neg hsk, if_pos hsp]
        rw [hout]
        have hseg0 := inStr_hex4 (a := 0x30) (b := 0x30) (c := hexDigit (c / 16))
          (d := hexDigit (c % 16)) (by decide) (by decide)
          (isHexDigit_hexDigit (by omega)) (isHexDigit_hexDigit (by omega))
          false false _ appVal k (litPhase_val s.parseState)
        rw [← hin hs] at hseg0
        obtain ⟨t1, ht1, hseg⟩ := ih s t sfin _ _ out1 hrec hfin hrel hskip1 hdepth1
        exact ⟨t1, ht1, seg_append hseg0 hseg⟩
      · by_cases hls : isLineSep c rest
        · -- a line separator, written as an escape
          have hs : s.step = .inString := by
            by_contra hs
            rcases special_in_string (Or.inr (Or.inr (Or.inr hls.1))) hs with h1 | h1
            · exact hv h1
            · rw [h1] at herr
              exact absurd herr (by decide)
          have hstep : s.doStep c = (s, .scanContinue) :=
            inString_high hs (by have := hls.1; omega) (by have := hls.1; omega)
          rw [hstep] at hrec hdepth1
          have hskip1 : SkipOK (compactSkip skip c rest) s rest := by
            simp only [compactSkip, if_neg hsk, if_pos hls]
            refine ⟨Or.inr hs, ?_⟩
            obtain ⟨_, h2, h3⟩ := hls
            rcases rest with _ | ⟨b1, _ | ⟨b2, r⟩⟩
            · simp at h2
            · simp at h3
            · simp only [List.head?_cons, Option.some.injEq] at h2
              simp only [List.drop_succ_cons, List.drop_zero, List.head?_cons,
                Option.some.injEq] at h3
              subst h2
              rcases h3 with rfl | rfl <;> simp [List.takeWhile]
          have hdig : isHexDigit (hexDigit (((rest.drop 1).head?.getD 0) % 16)) = true :=
            isHexDigit_hexDigit (Nat.mod_lt _ (by decide))
          have hout : compactOut skip c rest (s.doStep c).2 =
              [0x5C, 0x75, 0x32, 0x30, 0x32, hexDigit (((rest.drop 1).head?.getD 0) % 16)] := by
            simp only [compactOut, if_neg hsk, if_neg hsp, if_pos hls]
          rw [hout]
          have hseg0 := inStr_hex4 (a := 0x32) (b := 0x30) (c := 0x32)
            (d := hexDigit (((rest.drop 1).head?.getD 0) % 16)) (by decide) (by decide)
            (by decide) hdig false false _ appVal k (litPhase_val s.parseState)
          rw [← hin hs] at hseg0
          obtain ⟨t1, ht1, hseg⟩ := ih s t sfin _ _ out1 hrec hfin hrel hskip1 hdepth1
          exact ⟨t1, ht1, seg_append hseg0 hseg⟩
        · -- any other byte: the two scanners take the same step
          have hskip1 : SkipOK (compactSkip skip c rest) (s.doStep c).1 rest := by
            simp only [compactSkip, if_neg hsk, if_neg hls]
            exact ⟨Or.inl rfl, Nat.zero_le _⟩
          have hsim := step_sim hrel hv herr hd
          rcases hsim with ⟨hcode, hrel1⟩ | ⟨hc1, hc2, hstep, hinv1, hcol⟩
          · have hout : compactOut skip c rest (s.doStep c).2 = [] := by
              simp only [compactOut, if_neg hsk, if_neg hsp, if_neg hls, if_pos hcode]
            rw [hout]
            obtain ⟨t1, ht1, hseg⟩ := ih _ t sfin _ k out1 hrec hfin hrel1 hskip1 hdepth1
            exact ⟨t1, ht1, seg_append (seg_nil _ _) hseg⟩
          · have hout : compactOut skip c rest (s.doStep c).2 = [c] := by
              have : ¬ ((s.doStep c).2 = .scanSkipSpace ∨ (s.doStep c).2 = .scanEnd) := by
                tauto
              simp only [compactOut, if_neg hsk, if_neg hsp, if_neg hls, if_neg this]
            rw [hout]
            have hseg0 := seg_one (k := k) hstep (by exact hv)
            rw [hstack, collect_val k s.parseState _ c
              (fun h0 => ⟨hc1, (hcol h0).1, (hcol h0).2⟩)] at hseg0
            obtain ⟨t1, ht1, hseg⟩ := ih _ (ctx (s.doStep c).1) sfin _ (appVal k c) out1 hrec
              hfin ⟨hinv1, Or.inl rfl⟩ hskip1 hdepth1
            exact ⟨t1, ht1, seg_append hseg0 hseg⟩

/-- The UTF-8 bytes of a character that is no quote, backslash or control character keep the
scanner inside a string. -/
theorem inStr_utf8 (c : Char) (h1 : c.toNat ≠ 0x22) (h2 : c.toNat ≠ 0x5C)
    (h3 : 0x20 ≤ c.toNat) : InStr (utf8EncodeChar c) := by
  unfold utf8EncodeChar
  simp only
  split_ifs with ha hb hc
  · exact inStr_plain h1 h2 h3
  · exact inStr_append (X := [_]) (inStr_plain (by omega) (by omega) (by omega))
      (inStr_plain (by omega) (by omega) (by omega))
  · exact inStr_append (X := [_]) (inStr_plain (by omega) (by omega) (by omega))
      (inStr_append (X := [_]) (inStr_plain (by omega) (by omega) (by omega))
        (inStr_plain (by omega) (by omega) (by omega)))
  · exact inStr_append (X := [_]) (inStr_plain (by omega) (by omega) (by omega))
      (inStr_append (X := [_]) (inStr_plain (by omega) (by omega) (by omega))
        (inStr_append (X := [_]) (inStr_plain (by omega) (by omega) (by omega))
          (inStr_plain (by omega) (by omega) (by omega))))

/-- What the string encoder writes for a character keeps the scanner inside a string. -/
theorem inStr_quoteChar (c : Char) : InStr (quoteChar c) := by
  unfold quoteChar
  simp only
  split_ifs with h1 h2 h3 h4 h5 h6
  · exact inStr_esc (by omega)
  · exact inStr_esc (by decide)
  · exact inStr_esc (by decide)
  · exact inStr_esc (by decide)
  · exact inStr_hex4 (by decide) (by decide)
      (isHexDigit_hexDigit (by omega)) (isHexDigit_hexDigit (by omega))
  · exact inStr_hex4 (by decide) (by decide) (by decide) (isHexDigit_hexDigit (by omega))
  · exact inStr_utf8 c (by omega) (by omega) (by omega)

/-- What the string encoder writes between the quotes keeps the scanner inside a string. -/
theorem inStr_body (cs : List Char) : InStr (cs.flatMap quoteChar) := by
  induction cs with
  | nil => exact inStr_nil
  | cons c cs ih =>
    rw [List.flatMap_cons]
    exact inStr_append (inStr_quoteChar c) ih

/-- The scanner reads a string literal written by `quote`, from a state that opens a string
at `"`. -/
theorem seg_quote (st : StepFn) (e er : Bool) (ps : List ParseState)
    (app : Collector → Nat → Collector) (k : Collector) (str : String) (hp : LitPhase ps app)
    (hopen : Scanner.doStep ⟨st, e, ps, er⟩ 0x22 =
      (⟨.inString, e, ps, er⟩, .scanBeginLiteral)) :
    Seg ⟨st, e, ps, er⟩ k (quote str) ⟨.endValue, e, ps, er⟩
      ((quote str).foldl app k) := by
  have hclose : Scanner.doStep ⟨.inString, e, ps, er⟩ 0x22 =
      (⟨.endValue, e, ps, er⟩, .scanContinue) := by
    simp [Scanner.doStep, stateInString]
  unfold quote
  refine seg_cons hopen (by decide) ?_
  rw [hp k _ _ (Or.inl rfl), List.foldl_cons, List.foldl_append]
  refine seg_append (inStr_body str.data e er ps app _ hp) ?_
  have := seg_one (k := List.foldl app (app k 0x22) (str.data.flatMap quoteChar)) hclose
    (by decide)
  rw [hp _ _ _ (Or.inr rfl)] at this
  exact this

/-- When the scanner on its own has read a complete value, the scanner inside the object is
at the end of a value of the top-level object. -/
theorem value_done {s t : Scanner} (hrel : Embedded s t) (heof : s.eof = true) :
    ValueDone t := by
  obtain ⟨st, e, stack, er⟩ := s
  obtain ⟨⟨h1, h2, h3, h4, h5⟩, ht⟩ := hrel
  simp only at h1 h2 h3 h4 h5
  subst h1
  have hstack : stack = [] ∧ (st = .endTop ∨ st = .endValue ∨ numEnd st = true) := by
    cases e with
    | true =>
      have := h2 rfl
      exact ⟨h3 this, Or.inl this⟩
    | false =>
      simp only [Scanner.eof, Bool.false_eq_true, if_false] at heof
      rcases stack with _ | ⟨p, rest⟩
      · refine ⟨rfl, ?_⟩
        cases st <;> first
          | exact Or.inl rfl
          | exact Or.inr (Or.inl rfl)
          | exact Or.inr (Or.inr rfl)
          | (exfalso
             revert heof
             simp [Scanner.doStep, stateBeginValueOrEmpty, stateBeginValue,
               stateBeginStringOrEmpty, stateBeginString, stateInString, stateInStringEsc,
               stateHexDigit, stateNeg, stateDot, stateE, stateESign, stateLetter,
               Scanner.error, isSpace, isDigit, isHexDigit])
      · exfalso
        revert heof
        cases st <;>
          simp [Scanner.doStep, stateBeginValueOrEmpty, stateBeginValue,
            stateBeginStringOrEmpty, stateBeginString, stateInString, stateInStringEsc,
            stateHexDigit, stateNeg, stateDot, stateE, stateESign, stateLetter, stateEndValue,
            stateEndTop, state0, state1, stateDot0, stateE0,
            Scanner.error, isSpace, isDigit, isHexDigit]
  obtain ⟨rfl, hst⟩ := hstack
  rcases ht with rfl | ⟨_, n, hn, rfl⟩
  · rcases hst with rfl | rfl | hst
    · exact ⟨.endValue, Or.inl rfl, rfl⟩
    · exact ⟨.endValue, Or.inl rfl, rfl⟩
    · refine ⟨st, Or.inr hst, ?_⟩
      have : st ≠ .endTop := by
        rintro rfl
        exact absurd hst (by decide)
      simp [ctx, this]
  · exact ⟨n, Or.inr hn, rfl⟩

/-- After a complete value a comma starts the next key. -/
theorem valueDone_comma {t : Scanner} (h : ValueDone t) :
    t.doStep 0x2C = (⟨.beginString, false, [ParseState.parseObjectKey], false⟩,
      .scanObjectValue) := by
  obtain ⟨n, hn, rfl⟩ := h
  rcases hn with rfl | hn
  · rfl
  · cases n <;> first | exact absurd hn (by decide) | rfl

/-- After a complete value a closing brace ends the top-level object. -/
theorem valueDone_brace {t : Scanner} (h : ValueDone t) :
    t.doStep 0x7D = (⟨.endTop, true, [], false⟩, .scanEndObject) := by
  obtain ⟨n, hn, rfl⟩ := h
  rcases hn with rfl | hn
  · rfl
  · cases n <;> first | exact absurd hn (by decide) | rfl

/-- After a complete value the stack holds the top-level object only. -/
theorem valueDone_stack {t : Scanner} (h : ValueDone t) :
    t.parseState = [ParseState.parseObjectValue] := by
  obtain ⟨n, _, rfl⟩ := h
  rfl

/-- A string literal written by the string encoder is read as one value. -/
theorem valOK_quote (str : String) : ValOK (quote str) := by
  intro k
  exact ⟨_, ⟨.endValue, Or.inl rfl, rfl⟩, seg_quote _ _ _ _ _ k str (litPhase_val []) rfl⟩

/-- The invariant holds of the scanner at the start. -/
theorem Inv_reset : Inv Scanner.reset := by
  simp [Inv, Scanner.reset]

/-- The output of `compact` is read as one value, for input nested less deep than the limit.
-/
theorem valOK_compact {raw out : Bytes} (h : compact raw = some out)
    (hd : scanDepth Scanner.reset raw < maxNestingDepth) : ValOK out := by
  intro k
  unfold compact at h
  cases hc : compactLoop Scanner.reset 0 raw with
  | none => simp [hc] at h
  | some r =>
    obtain ⟨sfin, o⟩ := r
    simp only [hc] at h
    by_cases heof : sfin.eof = true
    · simp only [heof, if_true, Option.some.injEq] at h
      subst h
      have herr : sfin.err = false := by
        cases he : sfin.err with
        | false => rfl
        | true => simp [Scanner.eof, he] at heof
      obtain ⟨t1, ht1, hseg⟩ := sim_run raw Scanner.reset (ctx Scanner.reset) sfin 0 k o hc herr
        ⟨Inv_reset, Or.inl rfl⟩ ⟨Or.inl rfl, Nat.zero_le _⟩ hd
      exact ⟨t1, value_done ht1 heof, hseg⟩
    · simp [heof] at h

/-- The colon after a key of the top-level object. -/
theorem seg_colon (k : Collector) :
    Seg ⟨.endValue, false, [ParseState.parseObjectKey], false⟩ k [0x3A] valueStart k :=
  seg_one (v := .scanObjectKey) rfl (by decide)

/-- The decoder reads the members after the first and the closing brace. -/
theorem seg_rest : ∀ (fs : List (String × Bytes)) (t : Scanner) (k : Collector),
    (∀ f ∈ fs, ValOK f.2) → ValueDone t →
    Seg t k (encodeRest fs ++ [0x7D]) ⟨.endTop, true, [], false⟩
      { key := [], val := [],
        members := (fs.map (fun f => (quote f.1, f.2))).reverse ++
          (k.key.reverse, k.val.reverse) :: k.members } := by
  intro fs
  induction fs with
  | nil =>
    intro t k _ ht
    have := seg_one (k := k) (valueDone_brace ht) (by decide)
    rw [valueDone_stack ht] at this
    exact this
  | cons f fs ih =>
    intro t k hfs ht
    have hcomma := seg_one (k := k) (valueDone_comma ht) (by decide)
    rw [valueDone_stack ht] at hcomma
    have hkey := seg_quote .beginString false false _ _
      { key := [], val := [], members := (k.key.reverse, k.val.reverse) :: k.members } f.1
      litPhase_key rfl
    obtain ⟨t1, ht1, hval⟩ := hfs f (List.mem_cons_self _ _)
      (List.foldl appKey
        { key := [], val := [], members := (k.key.reverse, k.val.reverse) :: k.members }
        (quote f.1))
    have hrest := ih t1 (List.foldl appVal
      (List.foldl appKey
        { key := [], val := [], members := (k.key.reverse, k.val.reverse) :: k.members }
        (quote f.1)) f.2) (fun g hg => hfs g (List.mem_cons_of_mem _ hg)) ht1
    have hall := seg_append hcomma (seg_append hkey (seg_append (seg_colon _)
      (seg_append hval hrest)))
    simp only [foldl_appVal, foldl_appKey, List.append_nil, List.reverse_reverse] at hall
    simp only [encodeRest, List.flatMap_cons, List.map_cons, List.reverse_cons,
      List.append_assoc, List.singleton_append, List.cons_append, List.nil_append]
    simpa [encodeRest, Collector.step] using hall

/-- The value of a digit of the `hex` table. -/
theorem hexVal_hexDigit {n : Nat} (h : n < 16) : hexVal (hexDigit n) = some n := by
  unfold hexDigit hexVal
  by_cases h10 : n < 10
  · have hd : isDigit (0x30 + n) = true := by
      simp only [isDigit, Bool.and_eq_true, decide_eq_true_eq]
      omega
    rw [if_pos h10, if_pos hd]
    congr 1
    omega
  · have hd : ¬ isDigit (0x61 + (n - 10)) = true := by
      simp only [isDigit, Bool.and_eq_true, decide_eq_true_eq]
      omega
    have h2 : 0x61 ≤ 0x61 + (n - 10) ∧ 0x61 + (n - 10) ≤ 0x66 := by omega
    rw [if_neg h10, if_neg hd, if_pos h2]
    congr 1
    omega

/-- Decoding a well-formed sequence of two bytes. -/
theorem decodeRune_two (p0 b1 : Nat) (rest : Bytes) (h0 : 0xC2 ≤ p0 ∧ p0 ≤ 0xDF)
    (h1 : 0x80 ≤ b1 ∧ b1 ≤ 0xBF) :
    decodeRune (p0 :: b1 :: rest) = ((p0 % 0x20) * 0x40 + b1 % 0x40, 2) := by
  have ha : ¬ p0 < 0x80 := by omega
  simp [decodeRune, inRange, ha, h0, h1]

/-- Decoding a well-formed sequence of three bytes. -/
theorem decodeRune_three (p0 b1 b2 : Nat) (rest : Bytes) (h0 : 0xE0 ≤ p0 ∧ p0 ≤ 0xEF)
    (h1 : 0x80 ≤ b1 ∧ b1 ≤ 0xBF) (hlo : p0 = 0xE0 → 0xA0 ≤ b1)
    (hhi : p0 = 0xED → b1 ≤ 0x9F)
    (h2 : 0x80 ≤ b2 ∧ b2 ≤ 0xBF) :
    decodeRune (p0 :: b1 :: b2 :: rest) =
      ((p0 % 0x10) * 0x1000 + (b1 % 0x40) * 0x40 + b2 % 0x40, 3) := by
  have ha : ¬ p0 < 0x80 := by omega
  have hb : ¬ (0xC2 ≤ p0 ∧ p0 ≤ 0xDF) := by omega
  have hc : (if p0 = 0xE0 then 0xA0 else 0x80) ≤ b1 ∧
      b1 ≤ (if p0 = 0xED then 0x9F else 0xBF) := by
    constructor
    · split_ifs with h
      · exact hlo h
      · exact h1.1
    · split_ifs with h
      · exact hhi h
      · exact h1.2
  simp [decodeRune, inRange, ha, hb, h0, hc, h2]

/-- Decoding a well-formed sequence of four bytes. -/
theorem decodeRune_four (p0 b1 b2 b3 : Nat) (rest : Bytes) (h0 : 0xF0 ≤ p0 ∧ p0 ≤ 0xF4)
    (h1 : 0x80 ≤ b1 ∧ b1 ≤ 0xBF) (hlo : p0 = 0xF0 → 0x90 ≤ b1)
    (hhi : p0 = 0xF4 → b1 ≤ 0x8F)
    (h2 : 0x80 ≤ b2 ∧ b2 ≤ 0xBF) (h3 : 0x80 ≤ b3 ∧ b3 ≤ 0xBF) :
    decodeRune (p0 :: b1 :: b2 :: b3 :: rest) =
      ((p0 % 0x08) * 0x40000 + (b1 % 0x40) * 0x1000 + (b2 % 0x40) * 0x40 + b3 % 0x40, 4) := by
  have ha : ¬ p0 < 0x80 := by omega
  have hb : ¬ (0xC2 ≤ p0 ∧ p0 ≤ 0xDF) := by omega
  have hb2 : ¬ (0xE0 ≤ p0 ∧ p0 ≤ 0xEF) := by omega
  have hc : (if p0 = 0xF0 then 0x90 else 0x80) ≤ b1 ∧
      b1 ≤ (if p0 = 0xF4 then 0x8F else 0xBF) := by
    constructor
    · split_ifs with h
      · exact hlo h
      · exact h1.1
    · split_ifs with h
      · exact hhi h
      · exact h1.2
  simp [decodeRune, inRange, ha, hb, hb2, h0, hc, h2, h3]

/-- A character is a Unicode scalar value. -/
theorem char_bounds (c : Char) :
    c.toNat < 0xD800 ∨ (0xDFFF < c.toNat ∧ c.toNat < 0x110000) := c.valid

/-- A character outside ASCII decodes from its UTF-8 bytes. -/
theorem decodeRune_utf8 (c : Char) (rest : Bytes) (h : 0x80 ≤ c.toNat) :
    decodeRune (utf8EncodeChar c ++ rest) = (c.toNat, (utf8EncodeChar c).length) := by
  have hv := char_bounds c
  unfold utf8EncodeChar
  simp only
  split_ifs with ha hb hc
  · omega
  · rw [List.cons_append, List.cons_append, List.nil_append,
      decodeRune_two _ _ _ (by omega) (by omega)]
    simp only [List.length_cons, List.length_nil, Prod.mk.injEq, and_true]
    omega
  · rw [List.cons_append, List.cons_append, List.cons_append, List.nil_append,
      decodeRune_three _ _ _ _ (by omega) (by omega) (by omega) (by omega) (by omega)]
    simp only [List.length_cons, List.length_nil, Prod.mk.injEq, and_true]
    omega
  · rw [List.cons_append, List.cons_append, List.cons_append, List.cons_append, List.nil_append,
      decodeRune_four _ _ _ _ _ (by omega) (by omega) (by omega) (by omega) (by omega) (by omega)]
    simp only [List.length_cons, List.length_nil, Prod.mk.injEq, and_true]
    omega

/-- Go `getu4` reads four digits of the `hex` table. -/
theorem getu4_hex (a b c d : Nat) (rest : Bytes) (ha : a < 16) (hb : b < 16) (hc : c < 16)
    (hd : d < 16) :
    getu4 (0x5C :: 0x75 :: hexDigit a :: hexDigit b :: hexDigit c :: hexDigit d :: rest) =
      some (((a * 16 + b) * 16 + c) * 16 + d) := by
  simp only [getu4, hexVal_hexDigit ha, hexVal_hexDigit hb, hexVal_hexDigit hc,
    hexVal_hexDigit hd]

/-- The digit `0`. -/
theorem hexDigit_zero : hexDigit 0 = 0x30 := rfl

/-- The digit `2`. -/
theorem hexDigit_two : hexDigit 2 = 0x32 := rfl

/-- One round of `unquoteLoop` at a backslash. -/
theorem unquoteLoop_esc (fuel e : Nat) (rest1 : Bytes) :
    unquoteLoop (fuel + 1) (0x5C :: e :: rest1) =
      if e = 0x22 ∨ e = 0x5C ∨ e = 0x2F ∨ e = 0x27 then
        (unquoteLoop fuel rest1).map (Char.ofNat e :: ·)
      else if e = 0x62 then (unquoteLoop fuel rest1).map (Char.ofNat 0x08 :: ·)
      else if e = 0x66 then (unquoteLoop fuel rest1).map (Char.ofNat 0x0C :: ·)
      else if e = 0x6E then (unquoteLoop fuel rest1).map (Char.ofNat 0x0A :: ·)
      else if e = 0x72 then (unquoteLoop fuel rest1).map (Char.ofNat 0x0D :: ·)
      else if e = 0x74 then (unquoteLoop fuel rest1).map (Char.ofNat 0x09 :: ·)
      else if e = 0x75 then
        match getu4 (0x5C :: e :: rest1) with
        | none => none
        | some rr =>
          if 0xD800 ≤ rr ∧ rr < 0xE000 then
            if utf16DecodeRune rr (getu4 ((e :: rest1).drop 5)) ≠ runeError then
              (unquoteLoop fuel (((e :: rest1).drop 5).drop 6)).map
                (Char.ofNat (utf16DecodeRune rr (getu4 ((e :: rest1).drop 5))) :: ·)
            else (unquoteLoop fuel ((e :: rest1).drop 5)).map (Char.ofNat runeError :: ·)
          else (unquoteLoop fuel ((e :: rest1).drop 5)).map (Char.ofNat rr :: ·)
      else none := by
  rfl

/-- One round of `unquoteLoop` at a byte that is no backslash, quote or control character.
-/
theorem unquoteLoop_plain (fuel c : Nat) (rest : Bytes) (h1 : c ≠ 0x5C) (h2 : c ≠ 0x22)
    (h3 : ¬ c < 0x20) :
    unquoteLoop (fuel + 1) (c :: rest) =
      if c < 0x80 then (unquoteLoop fuel rest).map (Char.ofNat c :: ·)
      else (unquoteLoop fuel (rest.drop ((decodeRune (c :: rest)).2 - 1))).map
        (Char.ofNat (decodeRune (c :: rest)).1 :: ·) := by
  have h4 : ¬ (c = 0x22 ∨ c < 0x20) := by
    rintro (h | h)
    · exact h2 h
    · exact h3 h
  have h0 : unquoteLoop (fuel + 1) (c :: rest) =
      if c = 0x5C then unquoteLoop (fuel + 1) (c :: rest)
      else if c = 0x22 ∨ c < 0x20 then none
      else if c < 0x80 then (unquoteLoop fuel rest).map (Char.ofNat c :: ·)
      else (unquoteLoop fuel (rest.drop ((decodeRune (c :: rest)).2 - 1))).map
        (Char.ofNat (decodeRune (c :: rest)).1 :: ·) := by
    rw [if_neg h1]
    change (if c = 0x5C then _ else _) = _
    rw [if_neg h1]
  rw [h0, if_neg h1, if_neg h4]

/-- One round of `unquoteLoop` at a `\uXXXX` escape outside the surrogate range. -/
theorem unquoteLoop_u (fuel rr a b c d : Nat) (rest : Bytes)
    (hg : getu4 (0x5C :: 0x75 :: a :: b :: c :: d :: rest) = some rr)
    (hns : ¬ (0xD800 ≤ rr ∧ rr < 0xE000)) :
    unquoteLoop (fuel + 1) (0x5C :: 0x75 :: a :: b :: c :: d :: rest) =
      (unquoteLoop fuel rest).map (Char.ofNat rr :: ·) := by
  rw [unquoteLoop_esc]
  simp only [hg, if_neg hns]
  rfl

/-- The loop of `unquoteBytes` reads back one character written by the string encoder. -/
theorem unquoteLoop_quoteChar (c : Char) (fuel : Nat) (rest : Bytes) :
    unquoteLoop (fuel + 1) (quoteChar c ++ rest) = (unquoteLoop fuel rest).map (c :: ·) := by
  have hv := char_bounds c
  have hof : Char.ofNat c.toNat = c := Char.ofNat_toNat c
  unfold quoteChar
  simp only
  split_ifs with h1 h2 h3 h4 h5 h6
  · rcases h1 with h | h
    · rw [h] at hof ⊢
      rw [← hof]
      rfl
    · rw [h] at hof ⊢
      rw [← hof]
      rfl
  · rw [h2] at hof
    rw [← hof]
    rfl
  · rw [h3] at hof
    rw [← hof]
    rfl
  · rw [h4] at hof
    rw [← hof]
    rfl
  · have hg := getu4_hex 0 0 (c.toNat / 16) (c.toNat % 16) rest (by omega) (by omega)
      (by omega) (by omega)
    rw [hexDigit_zero] at hg
    have hval : ((0 * 16 + 0) * 16 + c.toNat / 16) * 16 + c.toNat % 16 = c.toNat := by omega
    rw [hval] at hg
    have hns : ¬ (0xD800 ≤ c.toNat ∧ c.toNat < 0xE000) := by omega
    have := unquoteLoop_u fuel _ _ _ _ _ rest hg hns
    rw [hof] at this
    exact this
  · have hg := getu4_hex 2 0 2 (c.toNat % 16) rest (by omega) (by omega)
      (by omega) (by omega)
    rw [hexDigit_zero, hexDigit_two] at hg
    have hval : ((2 * 16 + 0) * 16 + 2) * 16 + c.toNat % 16 = c.toNat := by omega
    rw [hval] at hg
    have hns : ¬ (0xD800 ≤ c.toNat ∧ c.toNat < 0xE000) := by omega
    have := unquoteLoop_u fuel _ _ _ _ _ rest hg hns
    rw [hof] at this
    exact this
  · by_cases hlt : c.toNat < 0x80
    · have hu : utf8EncodeChar c = [c.toNat] := by
        simp only [utf8EncodeChar, if_pos hlt]
      rw [hu, List.singleton_append, unquoteLoop_plain _ _ _ (by omega) (by omega) (by omega),
        if_pos hlt, hof]
    · have hdec := decodeRune_utf8 c rest (by omega)
      obtain ⟨b0, bs, hbs⟩ : ∃ b0 bs, utf8EncodeChar c = b0 :: bs := by
        unfold utf8EncodeChar
        simp only
        split_ifs <;> exact ⟨_, _, rfl⟩
      have hb0 : 0xC0 ≤ b0 := by
        have : (utf8EncodeChar c).head? = some b0 := by rw [hbs]; rfl
        unfold utf8EncodeChar at this
        simp only at this
        split_ifs at this <;> simp at this <;> omega
      rw [hbs] at hdec ⊢
      rw [List.cons_append] at hdec ⊢
      rw [unquoteLoop_plain _ _ _ (by omega) (by omega) (by omega), if_neg (by omega), hdec]
      simp only [List.length_cons, Nat.add_sub_cancel, List.drop_left, hof]

/-- The string encoder writes at least one byte for a character. -/
theorem quoteChar_length (c : Char) : 1 ≤ (quoteChar c).length := by
  unfold quoteChar utf8EncodeChar
  simp only
  split_ifs <;> simp

/-- The loop of `unquoteBytes` reads back what the string encoder wrote between the quotes.
-/
theorem unquoteLoop_body : ∀ (cs : List Char) (fuel : Nat),
    (cs.flatMap quoteChar).length ≤ fuel →
      unquoteLoop fuel (cs.flatMap quoteChar) = some cs := by
  intro cs
  induction cs with
  | nil =>
    intro fuel _
    cases fuel <;> rfl
  | cons c cs ih =>
    intro fuel hfuel
    rw [List.flatMap_cons] at hfuel ⊢
    rw [List.length_append] at hfuel
    have := quoteChar_length c
    obtain ⟨f, rfl⟩ : ∃ f, fuel = f + 1 := ⟨fuel - 1, by omega⟩
    rw [unquoteLoop_quoteChar, ih f (by omega)]
    rfl

/-- The decoder reads back the string that the string encoder wrote. -/
theorem unquote_quote (str : String) : unquote (quote str) = some str := by
  have hrev : (str.data.flatMap quoteChar ++ [0x22]).reverse =
      0x22 :: (str.data.flatMap quoteChar).reverse := by
    simp
  simp only [unquote, quote, hrev, List.reverse_reverse, List.length_reverse]
  rw [unquoteLoop_body _ _ (le_refl _)]
  rfl

/-- The empty text is no JSON value. -/
theorem compact_nil : compact [] = none := rfl

/-- The scanner of `compactLoop` ends where the scanner of `checkValid` does. -/
theorem compactLoop_fst : ∀ (raw : Bytes) (s : Scanner) (skip : Nat),
    (compactLoop s skip raw).map Prod.fst = scanAll s raw := by
  intro raw
  induction raw with
  | nil =>
    intro s skip
    rfl
  | cons c rest ih =>
    intro s skip
    rw [compactLoop_eq]
    have hscan : scanAll s (c :: rest) =
        if (s.doStep c).2 = .scanError then none else scanAll (s.doStep c).1 rest := by
      cases h : s.doStep c with
      | mk s1 v => cases v <;> simp [scanAll, h]
    rw [hscan]
    by_cases hv : (s.doStep c).2 = .scanError
    · rw [if_pos hv, if_pos hv]
      rfl
    · rw [if_neg hv, if_neg hv, ← ih (s.doStep c).1 (compactSkip skip c rest), Option.map_map]
      rfl

/-- Go `compact` succeeds on valid JSON and on nothing else. -/
theorem compact_isSome (raw : Bytes) : (compact raw).isSome = checkValid raw := by
  have h := compactLoop_fst raw Scanner.reset 0
  unfold compact checkValid
  cases hc : compactLoop Scanner.reset 0 raw with
  | none =>
    rw [hc] at h
    rw [← h]
    rfl
  | some r =>
    rw [hc] at h
    rw [← h]
    obtain ⟨s, out⟩ := r
    cases he : s.eof <;> simp [he]

/-- What `json.Marshal` writes for a `RawMessage` field. -/
theorem marshalRaw_eq {name : String} {raw : Bytes} (h : RawOK raw) :
    marshalRaw name raw = some (encodeRest (rawField name raw)) := by
  rcases h with rfl | ⟨h1, _⟩
  · rfl
  · rw [← compact_isSome] at h1
    cases hc : compact raw with
    | none => simp [hc] at h1
    | some c =>
      have hne : raw.isEmpty = false := by
        cases raw with
        | nil => simp [compact_nil] at hc
        | cons _ _ => rfl
      simp [marshalRaw, hne, hc, rawField, encodeRest]

/-- The text written for a `RawMessage` field is read as one value. -/
theorem rawField_valOK {name : String} {raw : Bytes} (h : RawOK raw) :
    ∀ f ∈ rawField name raw, ValOK f.2 := by
  intro f hf
  rcases h with rfl | ⟨_, h2⟩
  · simp [rawField, compact_nil] at hf
  · cases hc : compact raw with
    | none => simp [rawField, hc] at hf
    | some c =>
      simp only [rawField, hc, List.mem_singleton] at hf
      subst hf
      exact valOK_compact hc h2

/-- The text of the members of two lists. -/
theorem encodeRest_append (a b : List (String × Bytes)) :
    encodeRest (a ++ b) = encodeRest a ++ encodeRest b := by
  simp [encodeRest]

/-- The scanner and the collector on an encoded message. -/
theorem message_seg (ver : String) (fs : List (String × Bytes)) (hfs : ∀ f ∈ fs, ValOK f.2) :
    Seg Scanner.reset { key := [], val := [], members := [] }
      (0x7B :: (quote "jsonrpc" ++ 0x3A :: (quote ver ++ (encodeRest fs ++ [0x7D]))))
      ⟨.endTop, true, [], false⟩
      { key := [], val := [],
        members := (fs.map (fun f => (quote f.1, f.2))).reverse ++
          [(quote "jsonrpc", quote ver)] } := by
  have hopen : Seg Scanner.reset { key := [], val := [], members := [] } [0x7B]
      ⟨.beginStringOrEmpty, false, [ParseState.parseObjectKey], false⟩
      { key := [], val := [], members := [] } :=
    seg_one (v := .scanBeginObject) rfl (by decide)
  have hkey := seg_quote .beginStringOrEmpty false false _ _
    { key := [], val := [], members := [] } "jsonrpc" litPhase_key rfl
  obtain ⟨t1, ht1, hval⟩ := valOK_quote ver
    (List.foldl appKey { key := [], val := [], members := [] } (quote "jsonrpc"))
  have hrest := seg_rest fs t1 (List.foldl appVal
    (List.foldl appKey { key := [], val := [], members := [] } (quote "jsonrpc")) (quote ver))
    hfs ht1
  have hall := seg_append hopen (seg_append hkey (seg_append (seg_colon _)
    (seg_append hval hrest)))
  simp only [foldl_appVal, foldl_appKey, List.append_nil, List.reverse_reverse] at hall
  simpa using hall

/-- The members the decoder finds in an encoded message. -/
theorem members_message (ver : String) (fs : List (String × Bytes))
    (hfs : ∀ f ∈ fs, ValOK f.2) :
    members (0x7B :: (quote "jsonrpc" ++ 0x3A :: (quote ver ++ (encodeRest fs ++ [0x7D])))) =
      (quote "jsonrpc", quote ver) :: fs.map (fun f => (quote f.1, f.2)) := by
  have h := (message_seg ver fs hfs).2 []
  rw [List.append_nil] at h
  unfold members
  rw [h]
  simp [membersLoop]

/-- An encoded message is valid JSON. -/
theorem checkValid_message (ver : String) (fs : List (String × Bytes))
    (hfs : ∀ f ∈ fs, ValOK f.2) :
    checkValid (0x7B :: (quote "jsonrpc" ++ 0x3A :: (quote ver ++ (encodeRest fs ++ [0x7D]))))
      = true := by
  unfold checkValid
  rw [(message_seg ver fs hfs).1]
  rfl

/-- A string literal starts with a quote. -/
theorem quote_head (str : String) : (quote str).head? = some 0x22 := rfl

/-- The decoder stores the member `id`. -/
theorem storeMember_id (msg : JsonrpcMessage) (bad : Bool) (c : Bytes) :
    storeMember (msg, bad) (quote "id", c) = ({ msg with ID := c }, bad) := by
  have hf : fieldOf "id" = some .id := by decide
  simp only [storeMember, unquote_quote, hf]

/-- The decoder stores the member `params`. -/
theorem storeMember_params (msg : JsonrpcMessage) (bad : Bool) (c : Bytes) :
    storeMember (msg, bad) (quote "params", c) = ({ msg with Params := c }, bad) := by
  have hf : fieldOf "params" = some .params := by decide
  simp only [storeMember, unquote_quote, hf]

/-- The decoder stores the member `result`. -/
theorem storeMember_result (msg : JsonrpcMessage) (bad : Bool) (c : Bytes) :
    storeMember (msg, bad) (quote "result", c) = ({ msg with Result := c }, bad) := by
  have hf : fieldOf "result" = some .result := by decide
  simp only [storeMember, unquote_quote, hf]

/-- The UTF-8 bytes of a character outside ASCII: at least two, the first not ASCII. -/
theorem utf8_high (c : Char) (h : 0x80 ≤ c.toNat) :
    ∃ b tl, utf8EncodeChar c = b :: tl ∧ 0x80 ≤ b ∧ 1 ≤ tl.length := by
  unfold utf8EncodeChar
  simp only
  split_ifs with ha hb hc
  · omega
  · exact ⟨_, _, rfl, by omega, by simp⟩
  · exact ⟨_, _, rfl, by omega, by simp⟩
  · exact ⟨_, _, rfl, by omega, by simp⟩

/-- One round of the string encoder on the bytes of a character. -/
theorem quoteLoop_char (c : Char) (fuel : Nat) (rest : Bytes) :
    quoteLoop (fuel + 1) (utf8EncodeChar c ++ rest) = quoteChar c ++ quoteLoop fuel rest := by
  by_cases h : c.toNat < 0x80
  · have he : utf8EncodeChar c = [c.toNat] := by
      unfold utf8EncodeChar
      simp only [h, if_true]
    rw [he]
    have h1 : ¬ (c.toNat = 0x2028 ∨ c.toNat = 0x2029) := by omega
    simp only [List.singleton_append, quoteLoop, h, if_true, quoteChar, h1, if_false, he]
    rfl
  · obtain ⟨b, tl, he, hb, htl⟩ := utf8_high c (by omega)
    have hd := decodeRune_utf8 c rest (by omega)
    rw [he] at hd
    have hb2 : ¬ b < 0x80 := by omega
    have hlen : (utf8EncodeChar c).length = tl.length + 1 := by rw [he]; rfl
    have hq : quoteChar c = if c.toNat = 0x2028 ∨ c.toNat = 0x2029 then
        [0x5C, 0x75, 0x32, 0x30, 0x32, hexDigit (c.toNat % 16)] else utf8EncodeChar c := by
      unfold quoteChar
      simp only
      rw [if_neg (by omega), if_neg (by omega), if_neg (by omega), if_neg (by omega),
        if_neg (by omega)]
    rw [he, List.cons_append]
    rw [quoteLoop]
    simp only [hb2, if_false]
    rw [← List.cons_append, hd, hq]
    have h3 : ¬ ((c.toNat, (b :: tl).length).1 = runeError ∧ (c.toNat, (b :: tl).length).2 = 1) := by
      simp only [List.length_cons]
      omega
    rw [if_neg h3]
    have hdrop : List.drop ((c.toNat, (b :: tl).length).2 - 1) (tl ++ rest) = rest := by
      simp
    have htake : List.take (c.toNat, (b :: tl).length).2 (b :: tl ++ rest) = b :: tl := by
      simp
    rw [hdrop, htake]
    split_ifs <;> simp [he]

/-- The string encoder on the bytes of characters. -/
theorem quoteLoop_flatMap : ∀ (cs : List Char) (fuel : Nat),
    (cs.flatMap utf8EncodeChar).length ≤ fuel →
    quoteLoop fuel (cs.flatMap utf8EncodeChar) = cs.flatMap quoteChar := by
  intro cs
  induction cs with
  | nil =>
    intro fuel _
    cases fuel <;> rfl
  | cons c cs ih =>
    intro fuel hf
    have hpos : 1 ≤ (utf8EncodeChar c).length := by
      unfold utf8EncodeChar
      simp only
      split_ifs <;> simp
    rw [List.flatMap_cons, List.length_append] at hf
    cases fuel with
    | zero => omega
    | succ fuel =>
      rw [List.flatMap_cons, quoteLoop_char, ih fuel (by omega), List.flatMap_cons]

/-- On the bytes of a text the string encoder for Go strings writes what the
string encoder for texts writes. -/
theorem quoteBytes_bytesOf (str : String) : quoteBytes (bytesOf str) = quote str := by
  unfold quoteBytes quote bytesOf
  rw [quoteLoop_flatMap _ _ (le_refl _)]

/-- Valid UTF-8 is the bytes of a text. -/
theorem validUTF8_text {s : Bytes} (h : validUTF8 s = true) : ∃ str : String, s = bytesOf str := by
  unfold validUTF8 at h
  exact ⟨_, (of_decide_eq_true h).symm⟩

/-- On a text in compact form `compactLoop` writes the text itself. -/
theorem compactLoop_tight : ∀ (raw : Bytes) (s : Scanner) (r : Scanner × Bytes),
    compactLoop s 0 raw = some r → tightFrom s raw = true → r.2 = raw := by
  intro raw
  induction raw with
  | nil =>
    intro s r h _
    simp only [compactLoop, Option.some.injEq] at h
    rw [← h]
  | cons c rest ih =>
    intro s r h ht
    obtain ⟨sfin, out⟩ := r
    obtain ⟨_, out1, hrec, hout⟩ := compactLoop_cons h
    simp only [tightFrom, Bool.and_eq_true, decide_eq_true_eq, Bool.not_eq_true',
      decide_eq_false_iff_not] at ht
    obtain ⟨⟨⟨⟨⟨⟨h1, h2⟩, h3⟩, h4⟩, h5⟩, h6⟩, h7⟩ := ht
    have hskip : compactSkip 0 c rest = 0 := by
      simp [compactSkip, h6]
    have hco : compactOut 0 c rest (s.doStep c).2 = [c] := by
      unfold compactOut
      rw [if_neg (by omega), if_neg (by omega), if_neg h6, if_neg (by tauto)]
    rw [hskip] at hrec
    have := ih _ _ hrec h7
    simp only at this
    simp only [hout, hco, this, List.singleton_append]

/-- Compacting a valid text in compact form gives the text. -/
theorem compact_tight {raw out : Bytes} (h : compact raw = some out) (ht : tight raw = true) :
    out = raw := by
  unfold compact at h
  cases hc : compactLoop Scanner.reset 0 raw with
  | none => simp [hc] at h
  | some r =>
    obtain ⟨s, o⟩ := r
    rw [hc] at h
    have h1 := compactLoop_tight raw _ _ hc ht
    simp only at h h1
    by_cases he : s.eof = true
    · simp only [he, if_true, Option.some.injEq] at h
      rw [← h, h1]
    · simp [he] at h

/-- The bytes that are decimal digits. -/
theorem isDigit_iff (c : Nat) : isDigit c = true ↔ 0x30 ≤ c ∧ c ≤ 0x39 := by
  simp [isDigit]

/-- The digits read so far count ten times for every digit that follows. -/
theorem foldl_digits (ds : Bytes) (init : Nat) :
    ds.foldl (fun a d => a * 10 + (d - 0x30)) init = init * 10 ^ ds.length + natOfDigits ds := by
  induction ds generalizing init with
  | nil => simp [natOfDigits]
  | cons d ds ih =>
    have h1 := ih (init * 10 + (d - 0x30))
    have h2 := ih (0 * 10 + (d - 0x30))
    simp only [List.foldl_cons, List.length_cons, natOfDigits] at *
    rw [h1, h2]
    ring

/-- The number of two runs of digits, one after the other. -/
theorem natOfDigits_append (a b : Bytes) :
    natOfDigits (a ++ b) = natOfDigits a * 10 ^ b.length + natOfDigits b := by
  unfold natOfDigits
  rw [List.foldl_append, foldl_digits]
  rfl

/-- Zeros denote zero. -/
theorem natOfDigits_zeros (k : Nat) : natOfDigits (List.replicate k 0x30) = 0 := by
  induction k with
  | zero => rfl
  | succ k ih =>
    have h := natOfDigits_append [0x30] (List.replicate k 0x30)
    rw [List.replicate_succ]
    simp only [List.singleton_append] at h
    have h0 : natOfDigits [0x30] = 0 := rfl
    rw [h, ih, h0]
    simp

/-- Zeros after the digits multiply by a power of ten. -/
theorem natOfDigits_append_zeros (ds : Bytes) (k : Nat) :
    natOfDigits (ds ++ List.replicate k 0x30) = natOfDigits ds * 10 ^ k := by
  rw [natOfDigits_append, natOfDigits_zeros, List.length_replicate, Nat.add_zero]

/-- Zeros before the digits change nothing. -/
theorem natOfDigits_zeros_append (ds : Bytes) (k : Nat) :
    natOfDigits (List.replicate k 0x30 ++ ds) = natOfDigits ds := by
  rw [natOfDigits_append, natOfDigits_zeros, Nat.zero_mul, Nat.zero_add]

/-- A run of `n` digits denotes a number below `10 ^ n`. -/
theorem natOfDigits_lt (ds : Bytes) (h : ∀ d ∈ ds, isDigit d = true) :
    natOfDigits ds < 10 ^ ds.length := by
  induction ds using List.reverseRecOn with
  | nil => simp [natOfDigits]
  | append_singleton ds d ih =>
    have hd := (isDigit_iff d).mp (h d (by simp))
    have h1 := ih (fun x hx => h x (by simp [hx]))
    have h2 : natOfDigits [d] = d - 0x30 := by simp [natOfDigits]
    rw [natOfDigits_append, h2]
    simp only [List.length_append, List.length_singleton, pow_succ, pow_one, pow_zero, one_mul]
    generalize 10 ^ ds.length = p at h1 ⊢
    omega

/-- What `decDigitsAux` puts before `acc`: the digits of `n`. -/
theorem decDigitsAux_spec : ∀ (fuel n : Nat) (acc : Bytes), n < fuel →
    ∃ ds, decDigitsAux fuel n acc = ds ++ acc ∧ ds ≠ [] ∧ (∀ d ∈ ds, isDigit d = true) ∧
      natOfDigits ds = n ∧ (0 < n → ds.head? ≠ some 0x30) ∧
      (∀ k, 1 ≤ k → n < 10 ^ k → ds.length ≤ k) := by
  intro fuel
  induction fuel with
  | zero =>
    intro n acc h
    omega
  | succ fuel ih =>
    intro n acc h
    by_cases h10 : n < 10
    · refine ⟨[0x30 + n], ?_, by simp, ?_, ?_, ?_, ?_⟩
      · simp [decDigitsAux, h10]
      · intro d hd
        simp only [List.mem_singleton] at hd
        rw [hd, isDigit_iff]
        omega
      · simp [natOfDigits]
      · intro hn
        simp only [List.head?_cons, ne_eq, Option.some.injEq]
        omega
      · intro k hk _
        simpa using hk
    · obtain ⟨ds, h1, h2, h3, h4, h5, h6⟩ := ih (n / 10) ((0x30 + n % 10) :: acc) (by omega)
      refine ⟨ds ++ [0x30 + n % 10], ?_, by simp, ?_, ?_, ?_, ?_⟩
      · simp only [decDigitsAux, h10, if_false, h1]
        simp
      · intro d hd
        rw [List.mem_append] at hd
        rcases hd with hd | hd
        · exact h3 d hd
        · simp only [List.mem_singleton] at hd
          rw [hd, isDigit_iff]
          omega
      · rw [natOfDigits_append, h4]
        simp only [natOfDigits, List.foldl_cons, List.foldl_nil, List.length_singleton]
        omega
      · intro _
        have := h5 (by omega)
        cases ds with
        | nil => exact absurd rfl h2
        | cons x xs => simpa using this
      · intro k hk hn
        cases k with
        | zero => omega
        | succ k =>
          have hk1 : 1 ≤ k := by
            cases k with
            | zero => simp at hn; omega
            | succ k => omega
          have := h6 k hk1 (by rw [pow_succ] at hn; omega)
          simp only [List.length_append, List.length_singleton]
          omega

/-- The digits of a number: there is one, all are digits, they denote the number, the
first is not a zero unless the number is zero, and a number below `10 ^ k` has at most
`k`. -/
theorem decDigits_spec (n : Nat) :
    decDigits n ≠ [] ∧ (∀ d ∈ decDigits n, isDigit d = true) ∧
      natOfDigits (decDigits n) = n ∧ (0 < n → (decDigits n).head? ≠ some 0x30) ∧
      (∀ k, 1 ≤ k → n < 10 ^ k → (decDigits n).length ≤ k) := by
  obtain ⟨ds, h1, h2⟩ := decDigitsAux_spec (n + 1) n [] (by omega)
  unfold decDigits
  rw [h1, List.append_nil]
  exact h2

/-- Dropping from a list that ends in an element the test rejects. -/
theorem dropWhile_snoc (p : Nat → Bool) (A : Bytes) (d : Nat) (h : p d = false) :
    (A ++ [d]).dropWhile p = A.dropWhile p ++ [d] := by
  induction A with
  | nil => simp [List.dropWhile, h]
  | cons a A ih =>
    by_cases ha : p a = true
    · simp [List.dropWhile, ha, ih]
    · simp [List.dropWhile, ha]

/-- Digits are the digits without the zeros at their end, and zeros. -/
theorem trimZeros_spec (ds : Bytes) : ∃ k, ds = trimZeros ds ++ List.replicate k 0x30 := by
  refine ⟨(ds.reverse.takeWhile (fun d => decide (d = 0x30))).length, ?_⟩
  have h := List.takeWhile_append_dropWhile (fun d => decide (d = 0x30)) ds.reverse
  have h2 : ds.reverse.takeWhile (fun d => decide (d = 0x30)) =
      List.replicate (ds.reverse.takeWhile (fun d => decide (d = 0x30))).length 0x30 := by
    rw [List.eq_replicate_iff]
    refine ⟨rfl, ?_⟩
    intro b hb
    simpa using List.mem_takeWhile_imp hb
  have h3 := congrArg List.reverse h
  rw [List.reverse_append, List.reverse_reverse] at h3
  unfold trimZeros
  rw [← List.reverse_replicate, ← h2]
  exact h3.symm

/-- The digits that are left are among the digits. -/
theorem trimZeros_subset (ds : Bytes) : ∀ d ∈ trimZeros ds, d ∈ ds := by
  intro d hd
  unfold trimZeros at hd
  rw [List.mem_reverse] at hd
  have := (List.dropWhile_sublist (fun d => decide (d = 0x30)) (l := ds.reverse)).subset hd
  simpa using this

/-- A first digit that is not a zero stays the first. -/
theorem trimZeros_cons (d : Nat) (ds : Bytes) (h : d ≠ 0x30) :
    trimZeros (d :: ds) = d :: trimZeros ds := by
  unfold trimZeros
  rw [List.reverse_cons, dropWhile_snoc _ _ _ (by simpa using h)]
  simp

/-- No more digits are left than there were. -/
theorem trimZeros_length (ds : Bytes) : (trimZeros ds).length ≤ ds.length := by
  obtain ⟨k, hk⟩ := trimZeros_spec ds
  have := congrArg List.length hk
  rw [List.length_append] at this
  omega

/-- The position of the highest bit, by the loop. -/
theorem log2Aux_spec : ∀ (fuel n acc : Nat), n ≤ fuel → 0 < n →
    ∃ L, log2Aux fuel n acc = acc + L ∧ 2 ^ L ≤ n ∧ n < 2 ^ (L + 1) := by
  intro fuel
  induction fuel with
  | zero =>
    intro n acc h h0
    omega
  | succ fuel ih =>
    intro n acc h h0
    by_cases h2 : n < 2
    · refine ⟨0, ?_, ?_, ?_⟩
      · simp only [log2Aux, h2, if_true, Nat.add_zero]
      · simpa using h0
      · simpa using h2
    · obtain ⟨L, h3, h4, h5⟩ := ih (n / 2) (acc + 1) (by omega) (by omega)
      refine ⟨L + 1, ?_, ?_, ?_⟩
      · simp only [log2Aux, h2, if_false, h3]
        omega
      · rw [pow_succ]
        omega
      · rw [pow_succ] at h5 ⊢
        omega

/-- The position of the highest bit of a number above zero. -/
theorem log2_spec (n : Nat) (h : 0 < n) : 2 ^ log2 n ≤ n ∧ n < 2 ^ (log2 n + 1) := by
  obtain ⟨L, h1, h2, h3⟩ := log2Aux_spec n n 0 (le_refl n) h
  unfold log2
  rw [h1, Nat.zero_add]
  exact ⟨h2, h3⟩

/-- A power of two with a whole exponent that is not negative. -/
theorem two_pow_toNat (e : Int) (h : 0 ≤ e) : ((2 ^ e.toNat : Nat) : ℚ) = (2 : ℚ) ^ e := by
  have h1 : ((e.toNat : Nat) : Int) = e := Int.toNat_of_nonneg h
  rw [Nat.cast_pow, ← zpow_natCast, h1]
  rfl

/-- The exponent `normExp` finds puts `num / den` between `2 ^ 52` and `2 ^ 53` units. -/
theorem normExp_spec (num den : Nat) (hn : 0 < num) (hd : 0 < den) :
    (2 : ℚ) ^ (normExp num den + 52) ≤ (num : ℚ) / den ∧
      (num : ℚ) / den < (2 : ℚ) ^ (normExp num den + 53) := by
  obtain ⟨hL1, hL2⟩ := log2_spec num hn
  obtain ⟨hM1, hM2⟩ := log2_spec den hd
  have hdq : (0 : ℚ) < den := by exact_mod_cast hd
  have hL1q : (2 : ℚ) ^ (log2 num : Int) ≤ num := by
    rw [zpow_natCast]; exact_mod_cast hL1
  have hL2q : (num : ℚ) < (2 : ℚ) ^ ((log2 num : Int) + 1) := by
    have : (num : ℚ) < (2 : ℚ) ^ (log2 num + 1) := by exact_mod_cast hL2
    rw [← zpow_natCast] at this
    exact_mod_cast this
  have hM1q : (2 : ℚ) ^ (log2 den : Int) ≤ den := by
    rw [zpow_natCast]; exact_mod_cast hM1
  have hM2q : (den : ℚ) < (2 : ℚ) ^ ((log2 den : Int) + 1) := by
    have : (den : ℚ) < (2 : ℚ) ^ (log2 den + 1) := by exact_mod_cast hM2
    rw [← zpow_natCast] at this
    exact_mod_cast this
  have h2 : (0 : ℚ) < 2 := by norm_num
  have h2ne : (2 : ℚ) ≠ 0 := by norm_num
  -- the bounds that the two logarithms give
  have hlow : (2 : ℚ) ^ ((log2 num : Int) - (log2 den : Int) - 52 + 51) < (num : ℚ) / den := by
    rw [lt_div_iff₀ hdq]
    calc (2 : ℚ) ^ ((log2 num : Int) - (log2 den : Int) - 52 + 51) * den
        < (2 : ℚ) ^ ((log2 num : Int) - (log2 den : Int) - 52 + 51) *
            (2 : ℚ) ^ ((log2 den : Int) + 1) :=
          mul_lt_mul_of_pos_left hM2q (zpow_pos h2 _)
      _ = (2 : ℚ) ^ (log2 num : Int) := by
          rw [← zpow_add₀ h2ne]
          congr 1
          ring
      _ ≤ num := hL1q
  have hhigh : (num : ℚ) / den < (2 : ℚ) ^ ((log2 num : Int) - (log2 den : Int) - 52 + 53) := by
    rw [div_lt_iff₀ hdq]
    calc (num : ℚ) < (2 : ℚ) ^ ((log2 num : Int) + 1) := hL2q
      _ = (2 : ℚ) ^ ((log2 num : Int) - (log2 den : Int) - 52 + 53) *
            (2 : ℚ) ^ (log2 den : Int) := by
          rw [← zpow_add₀ h2ne]
          congr 1
          ring
      _ ≤ (2 : ℚ) ^ ((log2 num : Int) - (log2 den : Int) - 52 + 53) * den :=
          mul_le_mul_of_nonneg_left hM1q (le_of_lt (zpow_pos h2 _))
  -- what the test of `normExp` says
  have htest : ∀ e0 : Int,
      ((if 0 ≤ e0 then decide (num < 2 ^ 52 * den * 2 ^ e0.toNat)
        else decide (num * 2 ^ (-e0).toNat < 2 ^ 52 * den)) = true) ↔
      (num : ℚ) / den < (2 : ℚ) ^ (e0 + 52) := by
    intro e0
    by_cases he : 0 ≤ e0
    · rw [if_pos he, decide_eq_true_iff, div_lt_iff₀ hdq, zpow_add₀ h2ne, ← two_pow_toNat e0 he]
      constructor
      · intro h
        have : (num : ℚ) < ((2 ^ 52 * den * 2 ^ e0.toNat : Nat) : ℚ) := by exact_mod_cast h
        rw [Nat.cast_mul, Nat.cast_mul] at this
        calc (num : ℚ) < _ := this
          _ = _ := by push_cast; ring
      · intro h
        have : (num : ℚ) < ((2 ^ 52 * den * 2 ^ e0.toNat : Nat) : ℚ) := by
          calc (num : ℚ) < _ := h
            _ = _ := by push_cast; ring
        exact_mod_cast this
    · rw [if_neg he, decide_eq_true_iff, div_lt_iff₀ hdq]
      have hneg : 0 ≤ -e0 := by omega
      have hp := two_pow_toNat (-e0) hneg
      have hpos : (0 : ℚ) < (2 : ℚ) ^ (-e0) := zpow_pos h2 _
      have hsplit : (2 : ℚ) ^ (e0 + 52) * (2 : ℚ) ^ (-e0) = (2 : ℚ) ^ (52 : Nat) := by
        rw [← zpow_add₀ h2ne, ← zpow_natCast]
        congr 1
        ring
      constructor
      · intro h
        have h1 : ((num * 2 ^ (-e0).toNat : Nat) : ℚ) < ((2 ^ 52 * den : Nat) : ℚ) := by
          exact_mod_cast h
        rw [Nat.cast_mul, hp] at h1
        have h3 : (num : ℚ) * (2 : ℚ) ^ (-e0) < (2 : ℚ) ^ (e0 + 52) * den * (2 : ℚ) ^ (-e0) := by
          calc (num : ℚ) * (2 : ℚ) ^ (-e0) < ((2 ^ 52 * den : Nat) : ℚ) := h1
            _ = (2 : ℚ) ^ (52 : Nat) * den := by push_cast; ring
            _ = (2 : ℚ) ^ (e0 + 52) * (2 : ℚ) ^ (-e0) * den := by rw [hsplit]
            _ = _ := by ring
        exact lt_of_mul_lt_mul_right h3 (le_of_lt hpos)
      · intro h
        have h3 : (num : ℚ) * (2 : ℚ) ^ (-e0) < (2 : ℚ) ^ (e0 + 52) * den * (2 : ℚ) ^ (-e0) :=
          mul_lt_mul_of_pos_right h hpos
        have h1 : ((num * 2 ^ (-e0).toNat : Nat) : ℚ) < ((2 ^ 52 * den : Nat) : ℚ) := by
          rw [Nat.cast_mul, hp]
          calc (num : ℚ) * (2 : ℚ) ^ (-e0) < _ := h3
            _ = (2 : ℚ) ^ (e0 + 52) * (2 : ℚ) ^ (-e0) * den := by ring
            _ = (2 : ℚ) ^ (52 : Nat) * den := by rw [hsplit]
            _ = _ := by push_cast; ring
        exact_mod_cast h1
  unfold normExp
  simp only
  by_cases hb : (if 0 ≤ (log2 num : Int) - (log2 den : Int) - 52 then
      decide (num < 2 ^ 52 * den * 2 ^ ((log2 num : Int) - (log2 den : Int) - 52).toNat)
      else decide (num * 2 ^ (-((log2 num : Int) - (log2 den : Int) - 52)).toNat < 2 ^ 52 * den))
      = true
  · rw [if_pos hb]
    have := (htest _).mp hb
    constructor
    · have e1 : (log2 num : Int) - (log2 den : Int) - 52 - 1 + 52 =
          (log2 num : Int) - (log2 den : Int) - 52 + 51 := by ring
      rw [e1]
      exact le_of_lt hlow
    · have e1 : (log2 num : Int) - (log2 den : Int) - 52 - 1 + 53 =
          (log2 num : Int) - (log2 den : Int) - 52 + 52 := by ring
      rw [e1]
      exact this
  · rw [if_neg hb]
    have := (not_congr (htest _)).mp hb
    exact ⟨not_lt.mp this, hhigh⟩

/-- Only one exponent puts a number between `2 ^ 52` and `2 ^ 53` units. -/
theorem normExp_unique (x : ℚ) (a b : Int)
    (ha : (2 : ℚ) ^ (a + 52) ≤ x ∧ x < (2 : ℚ) ^ (a + 53))
    (hb : (2 : ℚ) ^ (b + 52) ≤ x ∧ x < (2 : ℚ) ^ (b + 53)) : a = b := by
  have h2 : (1 : ℚ) < 2 := by norm_num
  have h1 : a + 52 < b + 53 := (zpow_lt_zpow_iff_right₀ h2).mp (lt_of_le_of_lt ha.1 hb.2)
  have h3 : b + 52 < a + 53 := (zpow_lt_zpow_iff_right₀ h2).mp (lt_of_le_of_lt hb.1 ha.2)
  omega

/-- The exponent depends on the quotient only. -/
theorem normExp_scale (c num den : Nat) (hc : 0 < c) (hn : 0 < num) (hd : 0 < den) :
    normExp (c * num) (c * den) = normExp num den := by
  have h1 := normExp_spec (c * num) (c * den) (Nat.mul_pos hc hn) (Nat.mul_pos hc hd)
  have h2 := normExp_spec num den hn hd
  have hcq : (c : ℚ) ≠ 0 := by exact_mod_cast (Nat.pos_iff_ne_zero.mp hc)
  have he : ((c * num : Nat) : ℚ) / ((c * den : Nat) : ℚ) = (num : ℚ) / den := by
    push_cast
    rw [mul_div_mul_left _ _ hcq]
  rw [he] at h1
  exact normExp_unique _ _ _ h1 h2

/-- The nearest whole number depends on the quotient only. -/
theorem roundHalfEven_scale (c n d : Nat) (hc : 0 < c) :
    roundHalfEven (c * n) (c * d) = roundHalfEven n d := by
  unfold roundHalfEven
  rw [Nat.mul_mod_mul_left, Nat.mul_div_mul_left _ _ hc]
  have h1 : 2 * (c * (n % d)) < c * d ↔ 2 * (n % d) < d := by
    rw [show 2 * (c * (n % d)) = c * (2 * (n % d)) by ring]
    exact Nat.mul_lt_mul_left hc
  have h2 : c * d < 2 * (c * (n % d)) ↔ d < 2 * (n % d) := by
    rw [show 2 * (c * (n % d)) = c * (2 * (n % d)) by ring]
    exact Nat.mul_lt_mul_left hc
  simp only [h1, h2]

/-- A whole quotient is its own nearest whole number. -/
theorem roundHalfEven_exact (m d : Nat) (hd : 0 < d) : roundHalfEven (m * d) d = m := by
  unfold roundHalfEven
  rw [Nat.mul_mod_left, Nat.mul_div_cancel _ hd]
  simp [hd]

/-- The nearest `float64` depends on the quotient only. -/
theorem roundFrac_scale (c num den : Nat) (hc : 0 < c) (hd : 0 < den) :
    roundFrac (c * num) (c * den) = roundFrac num den := by
  by_cases hn : num = 0
  · simp [roundFrac, hn]
  · have hn1 : 0 < num := Nat.pos_of_ne_zero hn
    have hcn : c * num ≠ 0 := Nat.pos_iff_ne_zero.mp (Nat.mul_pos hc hn1)
    unfold roundFrac
    rw [if_neg hn, if_neg hcn, normExp_scale c num den hc hn1 hd]
    simp only
    have e1 : c * den * 2 ^ (max (normExp num den) (-1074)).toNat =
        c * (den * 2 ^ (max (normExp num den) (-1074)).toNat) := by ring
    have e2 : c * num * 2 ^ (-max (normExp num den) (-1074)).toNat =
        c * (num * 2 ^ (-max (normExp num den) (-1074)).toNat) := by ring
    rw [e1, e2, roundHalfEven_scale _ _ _ hc, roundHalfEven_scale _ _ _ hc]

/-- Two fractions of the same value have the same nearest `float64`. -/
theorem roundFrac_cross (n1 d1 n2 d2 : Nat) (h1 : 0 < d1) (h2 : 0 < d2)
    (h : n1 * d2 = n2 * d1) : roundFrac n1 d1 = roundFrac n2 d2 := by
  rw [← roundFrac_scale d2 n1 d1 h2 h1, ← roundFrac_scale d1 n2 d2 h1 h2]
  congr 1
  · rw [Nat.mul_comm, h, Nat.mul_comm]
  · exact Nat.mul_comm _ _

/-- Zeros at the end of the digits count as an exponent. -/
theorem roundDec_shift (n k : Nat) (e : Int) : roundDec (n * 10 ^ k) e = roundDec n (e + k) := by
  unfold roundDec decFrac
  have hp : ∀ j : Nat, 0 < 10 ^ j := fun j => pow_pos (by norm_num) j
  by_cases h1 : 0 ≤ e
  · have h2 : 0 ≤ e + k := by omega
    rw [if_pos h1, if_pos h2]
    simp only
    have h3 : (e + k).toNat = k + e.toNat := by omega
    rw [h3, pow_add, Nat.mul_assoc]
  · by_cases h2 : 0 ≤ e + k
    · rw [if_neg h1, if_pos h2]
      simp only
      apply roundFrac_cross _ _ _ _ (hp _) (by norm_num)
      have h3 : k = (e + k).toNat + (-e).toNat := by omega
      rw [Nat.mul_one, Nat.mul_assoc, ← pow_add, ← h3]
    · rw [if_neg h1, if_neg h2]
      simp only
      apply roundFrac_cross _ _ _ _ (hp _) (hp _)
      have h3 : (-e).toNat = k + (-(e + k)).toNat := by omega
      rw [h3, Nat.mul_assoc, ← pow_add]

/-- Zero is read as zero. -/
theorem roundDec_zero (e : Int) : roundDec 0 e = some 0 := by
  unfold roundDec decFrac
  split_ifs <;> simp [roundFrac]

/-- The exponent found for a value that is a mantissa below `2 ^ 53` in units of `2 ^ ex`,
where the mantissa is normal or `ex` is the least exponent. -/
theorem normExp_exact (m num den : Nat) (ex : Int) (hm2 : m < 2 ^ 53)
    (hex : -1074 ≤ ex) (hnorm : 2 ^ 52 ≤ m ∨ ex = -1074) (hn : 0 < num) (hd : 0 < den)
    (hval : (num : ℚ) / den = (m : ℚ) * (2 : ℚ) ^ ex) :
    max (normExp num den) (-1074) = ex := by
  obtain ⟨h1, h2⟩ := normExp_spec num den hn hd
  rw [hval] at h1 h2
  have h2pos : (0 : ℚ) < (2 : ℚ) ^ ex := zpow_pos (by norm_num) _
  have h2ne : (2 : ℚ) ≠ 0 := by norm_num
  have hone : (1 : ℚ) < 2 := by norm_num
  have hmq : (m : ℚ) < (2 : ℚ) ^ (53 : Int) := by
    have : (m : ℚ) < ((2 ^ 53 : Nat) : ℚ) := by exact_mod_cast hm2
    rw [Nat.cast_pow] at this
    exact_mod_cast this
  have hup : (m : ℚ) * (2 : ℚ) ^ ex < (2 : ℚ) ^ (ex + 53) := by
    rw [zpow_add₀ h2ne, mul_comm]
    exact mul_lt_mul_of_pos_left hmq h2pos
  have hle : normExp num den ≤ ex := by
    have := (zpow_lt_zpow_iff_right₀ hone).mp (lt_of_le_of_lt h1 hup)
    omega
  rcases hnorm with hnorm | hnorm
  · have hmq2 : (2 : ℚ) ^ (52 : Int) ≤ (m : ℚ) := by
      have : ((2 ^ 52 : Nat) : ℚ) ≤ (m : ℚ) := by exact_mod_cast hnorm
      rw [Nat.cast_pow] at this
      exact_mod_cast this
    have hlow : (2 : ℚ) ^ (ex + 52) ≤ (m : ℚ) * (2 : ℚ) ^ ex := by
      rw [zpow_add₀ h2ne, mul_comm]
      exact mul_le_mul_of_nonneg_right hmq2 (le_of_lt h2pos)
    have := (zpow_lt_zpow_iff_right₀ hone).mp (lt_of_le_of_lt hlow h2)
    have heq : normExp num den = ex := by omega
    rw [heq]
    exact max_eq_left hex
  · rw [hnorm] at hle ⊢
    exact max_eq_right hle

/-- A `float64` with an exponent that is not negative is the nearest to its own value. -/
theorem roundFrac_exact_pos (m : Nat) (ex : Int) (hm : 0 < m) (hm2 : m < 2 ^ 53)
    (hex : 0 ≤ ex) (hnorm : 2 ^ 52 ≤ m)
    (hfin : (ex + 1074).toNat * 2 ^ 52 + m < 2047 * 2 ^ 52) :
    roundFrac (m * 2 ^ ex.toNat) 1 = some ((ex + 1074).toNat * 2 ^ 52 + m) := by
  have hp : 0 < 2 ^ ex.toNat := pow_pos (by norm_num) _
  have hn : 0 < m * 2 ^ ex.toNat := Nat.mul_pos hm hp
  have he := normExp_exact m (m * 2 ^ ex.toNat) 1 ex hm2 (by omega) (Or.inl hnorm) hn
    (by norm_num) (by
      rw [Nat.cast_one, div_one, Nat.cast_mul, two_pow_toNat ex hex])
  unfold roundFrac
  rw [if_neg (Nat.pos_iff_ne_zero.mp hn)]
  simp only [he, hex, if_true, Nat.one_mul, roundHalfEven_exact m _ hp, hfin]

/-- A `float64` with a negative exponent is the nearest to its own value. -/
theorem roundFrac_exact_neg (m : Nat) (ex : Int) (hm : 0 < m) (hm2 : m < 2 ^ 53)
    (hex : -1074 ≤ ex) (hneg : ex < 0) (hnorm : 2 ^ 52 ≤ m ∨ ex = -1074)
    (hfin : (ex + 1074).toNat * 2 ^ 52 + m < 2047 * 2 ^ 52) :
    roundFrac m (2 ^ (-ex).toNat) = some ((ex + 1074).toNat * 2 ^ 52 + m) := by
  have hp : 0 < 2 ^ (-ex).toNat := pow_pos (by norm_num) _
  have he := normExp_exact m m (2 ^ (-ex).toNat) ex hm2 hex hnorm hm hp (by
      rw [two_pow_toNat (-ex) (by omega), zpow_neg, div_eq_mul_inv, inv_inv])
  have hneg2 : ¬ (0 ≤ ex) := by omega
  unfold roundFrac
  rw [if_neg (Nat.pos_iff_ne_zero.mp hm)]
  simp only [he, hneg2, if_false, roundHalfEven_exact m _ hp, hfin, if_true]

/-- The mantissa and the exponent of a finite value give its bit pattern back. -/
theorem f64_parts (a : Nat) (h0 : 0 < a) (hfin : a < 2047 * 2 ^ 52) :
    0 < f64Mant a ∧ f64Mant a < 2 ^ 53 ∧ -1074 ≤ f64Exp a ∧ f64Exp a ≤ 971 ∧
      (2 ^ 52 ≤ f64Mant a ∨ f64Exp a = -1074) ∧
      (f64Exp a + 1074).toNat * 2 ^ 52 + f64Mant a = a := by
  unfold f64Mant f64Exp
  have hdm := Nat.div_add_mod a (2 ^ 52)
  have hmod : a % 2 ^ 52 < 2 ^ 52 := Nat.mod_lt _ (by norm_num)
  have hdiv : a / 2 ^ 52 < 2047 := Nat.div_lt_of_lt_mul (by omega)
  have hc : ((a : Int) / 2 ^ 52) = ((a / 2 ^ 52 : Nat) : Int) := by norm_cast
  by_cases hz : a / 2 ^ 52 = 0
  · rw [if_pos hz, if_pos hz]
    rw [hz] at hdm
    refine ⟨by omega, by omega, by omega, by omega, Or.inr rfl, ?_⟩
    simp only [neg_add_cancel, Int.toNat_zero, Nat.zero_mul, Nat.zero_add]
    omega
  · rw [if_neg hz, if_neg hz, hc]
    refine ⟨by omega, by omega, by omega, by omega, Or.inl (by omega), ?_⟩
    have h1 : ((a / 2 ^ 52 : Nat) : Int) - 1075 + 1074 = ((a / 2 ^ 52 - 1 : Nat) : Int) := by
      omega
    rw [h1, Int.toNat_ofNat]
    have h2 : (a / 2 ^ 52 - 1) * 2 ^ 52 + 2 ^ 52 = a / 2 ^ 52 * 2 ^ 52 := by
      have : a / 2 ^ 52 = (a / 2 ^ 52 - 1) + 1 := by omega
      conv_rhs => rw [this, Nat.add_mul, Nat.one_mul]
    omega

/-- The exact decimal of a finite value reads back as the value. -/
theorem roundDec_exact (a : Nat) (h0 : 0 < a) (hfin : a < 2047 * 2 ^ 52) :
    roundDec
      (if 0 ≤ f64Exp a then f64Mant a * 2 ^ (f64Exp a).toNat
        else f64Mant a * 5 ^ (-f64Exp a).toNat)
      (-(if 0 ≤ f64Exp a then 0 else -f64Exp a)) = some a := by
  obtain ⟨h1, h2, h3, h4, h5, h6⟩ := f64_parts a h0 hfin
  by_cases hex : 0 ≤ f64Exp a
  · simp only [hex, if_true, neg_zero]
    have hnorm : 2 ^ 52 ≤ f64Mant a := by
      rcases h5 with h5 | h5
      · exact h5
      · omega
    have := roundFrac_exact_pos (f64Mant a) (f64Exp a) h1 h2 hex hnorm (by rw [h6]; exact hfin)
    rw [h6] at this
    unfold roundDec decFrac
    simpa using this
  · simp only [hex, if_false, neg_neg]
    have := roundFrac_exact_neg (f64Mant a) (f64Exp a) h1 h2 h3 (by omega) h5
      (by rw [h6]; exact hfin)
    rw [h6] at this
    unfold roundDec decFrac
    rw [if_neg hex]
    simp only
    rw [← this]
    apply roundFrac_cross _ _ _ _ (pow_pos (by norm_num) _) (pow_pos (by norm_num) _)
    rw [Nat.mul_assoc, ← Nat.mul_pow]

/-- The digits and the decimal point of a candidate denote the candidate. -/
theorem candidate_value (l : Nat) (e : Int) :
    roundDec (natOfDigits (candidate l e).1)
      ((candidate l e).2 - ((candidate l e).1.length : Int)) = roundDec l e := by
  obtain ⟨k, hk⟩ := trimZeros_spec (decDigits l)
  have hl := (decDigits_spec l).2.2.1
  have hlen := congrArg List.length hk
  rw [List.length_append, List.length_replicate] at hlen
  unfold candidate
  simp only
  conv_rhs => rw [← hl, hk, natOfDigits_append_zeros, roundDec_shift]
  congr 1
  omega

/-- The exact decimal is a candidate. -/
theorem exactDecimal_candidate (a : Nat) :
    exactDecimal a = candidate
      (if 0 ≤ f64Exp a then f64Mant a * 2 ^ (f64Exp a).toNat
        else f64Mant a * 5 ^ (-f64Exp a).toNat)
      (-(if 0 ≤ f64Exp a then 0 else -f64Exp a)) := by
  unfold exactDecimal candidate
  simp only [Prod.mk.injEq, true_and]
  ring

/-- The walk along the exact digits ends at a candidate that reads back as the value, with
the decimal point not far from where it was. -/
theorem shortestLoop_spec (a : Nat) (ds : Bytes) (dp : Int)
    (hds : ∀ d ∈ ds, isDigit d = true)
    (hfb : ∃ l e, (ds, dp) = candidate l e ∧ roundDec l e = some a) :
    ∀ fuel n : Nat, ∃ l e, shortestLoop a ds dp fuel n = candidate l e ∧
      roundDec l e = some a ∧ dp - (n + fuel : Nat) - 1 ≤ (shortestLoop a ds dp fuel n).2 ∧
      (shortestLoop a ds dp fuel n).2 ≤ dp + 1 := by
  intro fuel
  induction fuel with
  | zero =>
    intro n
    obtain ⟨l, e, h1, h2⟩ := hfb
    refine ⟨l, e, h1, h2, ?_, ?_⟩ <;> simp only [shortestLoop] <;> omega
  | succ fuel ih =>
    intro n
    have hlt : natOfDigits (ds.take n) < 10 ^ n := by
      have h1 := natOfDigits_lt (ds.take n) (fun d hd => hds d (List.mem_of_mem_take hd))
      have h2 : (ds.take n).length ≤ n := by simp
      exact lt_of_lt_of_le h1 (Nat.pow_le_pow_right (by norm_num) h2)
    have hcand : ∀ l : Nat, l ≤ 10 ^ n →
        dp - (n + (fuel + 1) : Nat) - 1 ≤ (candidate l (dp - n)).2 ∧
        (candidate l (dp - n)).2 ≤ dp + 1 := by
      intro l hl
      have h1 := (decDigits_spec l).2.2.2.2 (n + 1) (by omega)
        (lt_of_le_of_lt hl (Nat.pow_lt_pow_right (by norm_num) (by omega)))
      unfold candidate
      simp only
      omega
    by_cases hd : roundDec (natOfDigits (ds.take n)) (dp - n) = some a
    · by_cases hu : roundDec (natOfDigits (ds.take n) + 1) (dp - n) = some a
      · by_cases hr : shouldRoundUp ds n = true
        · have hs : shortestLoop a ds dp (fuel + 1) n =
              candidate (natOfDigits (ds.take n) + 1) (dp - n) := by
            simp [shortestLoop, hd, hu, hr]
          rw [hs]
          exact ⟨_, _, rfl, hu, hcand _ (by omega)⟩
        · have hs : shortestLoop a ds dp (fuel + 1) n =
              candidate (natOfDigits (ds.take n)) (dp - n) := by
            simp [shortestLoop, hd, hu, hr]
          rw [hs]
          exact ⟨_, _, rfl, hd, hcand _ (by omega)⟩
      · have hs : shortestLoop a ds dp (fuel + 1) n =
            candidate (natOfDigits (ds.take n)) (dp - n) := by
          simp [shortestLoop, hd, hu]
        rw [hs]
        exact ⟨_, _, rfl, hd, hcand _ (by omega)⟩
    · by_cases hu : roundDec (natOfDigits (ds.take n) + 1) (dp - n) = some a
      · have hs : shortestLoop a ds dp (fuel + 1) n =
            candidate (natOfDigits (ds.take n) + 1) (dp - n) := by
          simp [shortestLoop, hd, hu]
        rw [hs]
        exact ⟨_, _, rfl, hu, hcand _ (by omega)⟩
      · have hs : shortestLoop a ds dp (fuel + 1) n = shortestLoop a ds dp fuel (n + 1) := by
          simp [shortestLoop, hd, hu]
        rw [hs]
        obtain ⟨l, e, h1, h2, h3, h4⟩ := ih (n + 1)
        exact ⟨l, e, h1, h2, by push_cast at h3 ⊢; omega, h4⟩

/-- The digits of the shortest decimal of a finite value above zero: they start with a digit
other than zero, read back as the value, and the decimal point is within bounds. -/
theorem shortestDigits_spec (a : Nat) (h0 : 0 < a) (hfin : a < 2047 * 2 ^ 52) :
    (∃ d tl, (shortestDigits a).1 = d :: tl ∧ 0x31 ≤ d ∧ d ≤ 0x39 ∧
      ∀ x ∈ tl, isDigit x = true) ∧
    roundDec (natOfDigits (shortestDigits a).1)
      ((shortestDigits a).2 - ((shortestDigits a).1.length : Int)) = some a ∧
    -2000 ≤ (shortestDigits a).2 ∧ (shortestDigits a).2 ≤ 2000 := by
  obtain ⟨h1, h2, h3, h4, h5, h6⟩ := f64_parts a h0 hfin
  have hex := exactDecimal_candidate a
  have hrd := roundDec_exact a h0 hfin
  generalize hbig : (if 0 ≤ f64Exp a then f64Mant a * 2 ^ (f64Exp a).toNat
        else f64Mant a * 5 ^ (-f64Exp a).toNat) = big at hex hrd
  generalize hk : (if 0 ≤ f64Exp a then 0 else -f64Exp a) = k at hex hrd
  have hk1 : 0 ≤ k ∧ k ≤ 1074 := by
    rw [← hk]
    split_ifs <;> omega
  have hbig1 : big < 10 ^ 800 := by
    rw [← hbig]
    split_ifs with hs
    · have ht : (f64Exp a).toNat ≤ 971 := by omega
      have : 2 ^ (f64Exp a).toNat ≤ 2 ^ 971 := pow_le_pow_right₀ (by norm_num) ht
      calc f64Mant a * 2 ^ (f64Exp a).toNat ≤ 2 ^ 53 * 2 ^ 971 :=
            Nat.mul_le_mul (le_of_lt h2) this
        _ < 10 ^ 800 := by norm_num
    · have ht : (-f64Exp a).toNat ≤ 1074 := by omega
      have : 5 ^ (-f64Exp a).toNat ≤ 5 ^ 1074 := pow_le_pow_right₀ (by norm_num) ht
      calc f64Mant a * 5 ^ (-f64Exp a).toNat ≤ 2 ^ 53 * 5 ^ 1074 :=
            Nat.mul_le_mul (le_of_lt h2) this
        _ < 10 ^ 800 := by norm_num
  have hds : ∀ d ∈ (exactDecimal a).1, isDigit d = true := by
    intro d hd
    rw [hex] at hd
    exact (decDigits_spec big).2.1 d (trimZeros_subset _ d hd)
  obtain ⟨l, e, hl1, hl2, hl3, hl4⟩ := shortestLoop_spec a (exactDecimal a).1 (exactDecimal a).2
    hds ⟨big, -k, by rw [← hex], hrd⟩ ((exactDecimal a).1.length + 1) 0
  have hlen1 : (exactDecimal a).1.length ≤ (decDigits big).length := by
    rw [hex]
    exact trimZeros_length _
  have hlen2 : (decDigits big).length ≤ 800 := (decDigits_spec big).2.2.2.2 800 (by norm_num) hbig1
  have hdp : (exactDecimal a).2 = -k + ((decDigits big).length : Int) := by
    rw [hex]
    rfl
  have hlpos : 0 < l := by
    rcases Nat.eq_zero_or_pos l with hz | hz
    · rw [hz, roundDec_zero] at hl2
      simp only [Option.some.injEq] at hl2
      omega
    · exact hz
  unfold shortestDigits
  refine ⟨?_, ?_, by push_cast at hl3; omega, by omega⟩
  · rw [hl1]
    obtain ⟨hne, hdig, _, hhead, _⟩ := decDigits_spec l
    cases hdd : decDigits l with
    | nil => exact absurd hdd hne
    | cons d tl =>
      rw [hdd] at hdig hhead
      have hd := (isDigit_iff d).mp (hdig d (by simp))
      have hd0 : d ≠ 0x30 := by
        have := hhead hlpos
        simpa using this
      refine ⟨d, trimZeros tl, ?_, by omega, hd.2, ?_⟩
      · unfold candidate
        simp only [hdd]
        exact trimZeros_cons d tl hd0
      · intro x hx
        exact hdig x (List.mem_cons_of_mem _ (trimZeros_subset _ x hx))
  · rw [hl1, candidate_value, hl2]

/-- The exponent is read from digits that stay below the cap of `strconv`. -/
theorem expOfDigits_eq (ds : Bytes) (h : natOfDigits ds < 10000) :
    expOfDigits ds = natOfDigits ds := by
  induction ds using List.reverseRecOn with
  | nil => rfl
  | append_singleton ds d ih =>
    have h1 := natOfDigits_append ds [d]
    have h2 : natOfDigits [d] = d - 0x30 := by simp [natOfDigits]
    rw [h2, List.length_singleton, pow_one] at h1
    have h3 := ih (by omega)
    rw [h1]
    unfold expOfDigits at h3 ⊢
    rw [List.foldl_append, h3]
    simp only [List.foldl_cons, List.foldl_nil]
    rw [if_pos (by omega)]

/-- The exponent `fmtExp` writes is an exponent text with its value. -/
theorem fmtExp_form (e : Int) (h1 : -10000 < e) (h2 : e < 10000) :
    ExpText (0x65 :: fmtExp e) e := by
  right
  unfold fmtExp
  by_cases h10 : e.natAbs < 10
  · rw [if_pos h10]
    by_cases hneg : e < 0
    · rw [if_pos hneg]
      refine ⟨0x2D, [0x30 + e.natAbs], rfl, by simp, ?_, Or.inr ⟨rfl, ?_⟩⟩
      · intro x hx
        simp only [List.mem_singleton] at hx
        rw [hx, isDigit_iff]
        omega
      · have h : expOfDigits [0x30 + e.natAbs] = e.natAbs := by simp [expOfDigits]
        rw [h]
        omega
    · rw [if_neg hneg]
      refine ⟨0x2B, [0x30, 0x30 + e.natAbs], rfl, by simp, ?_, Or.inl ⟨rfl, ?_⟩⟩
      · intro x hx
        simp only [List.mem_cons, List.mem_singleton, List.mem_nil_iff, or_false] at hx
        rw [isDigit_iff]
        rcases hx with hx | hx <;> omega
      · have h : expOfDigits [0x30, 0x30 + e.natAbs] = e.natAbs := by simp [expOfDigits]
        rw [h]
        omega
  · rw [if_neg h10]
    obtain ⟨hne, hdig, hval, _, _⟩ := decDigits_spec e.natAbs
    have hexp : expOfDigits (decDigits e.natAbs) = e.natAbs :=
      (expOfDigits_eq _ (by rw [hval]; omega)).trans hval
    by_cases hneg : e < 0
    · rw [if_pos hneg]
      exact ⟨0x2D, decDigits e.natAbs, rfl, hne, hdig, Or.inr ⟨rfl, by rw [hexp]; omega⟩⟩
    · rw [if_neg hneg]
      exact ⟨0x2B, decDigits e.natAbs, rfl, hne, hdig, Or.inl ⟨rfl, by rw [hexp]; omega⟩⟩

/-- What `fmtF` writes for digits is a number text of the same value. -/
theorem fmtF_form (d : Nat) (tl : Bytes) (dp : Int) (hd1 : 0x31 ≤ d) (hd2 : d ≤ 0x39)
    (htl : ∀ x ∈ tl, isDigit x = true) :
    NumForm (fmtF (d :: tl) dp)
      (roundDec (natOfDigits (d :: tl)) (dp - ((d :: tl).length : Int))) := by
  have hds : ∀ x ∈ d :: tl, isDigit x = true := by
    intro x hx
    rcases List.mem_cons.mp hx with hx | hx
    · rw [hx, isDigit_iff]
      omega
    · exact htl x hx
  unfold fmtF
  by_cases hpos : 0 < dp
  · simp only [hpos, if_true]
    obtain ⟨p, hp⟩ : ∃ p : Nat, dp.toNat = p + 1 := ⟨dp.toNat - 1, by omega⟩
    refine ⟨List.take dp.toNat (d :: tl) ++ List.replicate (dp.toNat - (d :: tl).length) 0x30,
      List.drop dp.toNat (d :: tl), [], 0, ?_, ?_, ?_, Or.inl ⟨rfl, rfl⟩, ?_⟩
    · unfold fracText
      split_ifs <;> simp
    · right
      refine ⟨d, List.take p tl ++ List.replicate (dp.toNat - (d :: tl).length) 0x30, ?_, hd1,
        hd2, ?_⟩
      · rw [hp]
        rfl
      · intro x hx
        rcases List.mem_append.mp hx with hx | hx
        · exact htl x (List.mem_of_mem_take hx)
        · rw [(List.mem_replicate.mp hx).2]
          rfl
    · intro x hx
      exact hds x (List.mem_of_mem_drop hx)
    · by_cases hle : dp.toNat ≤ (d :: tl).length
      · have h0 : dp.toNat - (d :: tl).length = 0 := by omega
        rw [h0, List.replicate_zero, List.append_nil, List.take_append_drop]
        congr 1
        rw [List.length_drop]
        omega
      · have h1 : List.take dp.toNat (d :: tl) = d :: tl := List.take_of_length_le (by omega)
        have h2 : List.drop dp.toNat (d :: tl) = [] := List.drop_of_length_le (by omega)
        rw [h1, h2, List.append_nil, natOfDigits_append_zeros, roundDec_shift]
        congr 1
        simp only [List.length_nil]
        omega
  · simp only [hpos, if_false]
    refine ⟨[0x30], List.replicate (-dp).toNat 0x30 ++ (d :: tl), [], 0, ?_, Or.inl rfl, ?_,
      Or.inl ⟨rfl, rfl⟩, ?_⟩
    · unfold fracText
      split_ifs with h
      · simp at h
      · simp
    · intro x hx
      rcases List.mem_append.mp hx with hx | hx
      · rw [(List.mem_replicate.mp hx).2]
        rfl
      · exact hds x hx
    · have h1 : [0x30] ++ (List.replicate (-dp).toNat 0x30 ++ (d :: tl)) =
          List.replicate ((-dp).toNat + 1) 0x30 ++ (d :: tl) := by
        rw [List.replicate_succ]
        rfl
      rw [h1, natOfDigits_zeros_append]
      congr 1
      rw [List.length_append, List.length_replicate]
      omega

/-- What `fmtE` writes for digits is a number text of the same value. -/
theorem fmtE_form (d : Nat) (tl : Bytes) (dp : Int) (hd1 : 0x31 ≤ d) (hd2 : d ≤ 0x39)
    (htl : ∀ x ∈ tl, isDigit x = true) (h1 : -9000 < dp) (h2 : dp < 9000) :
    NumForm (fmtE (d :: tl) dp)
      (roundDec (natOfDigits (d :: tl)) (dp - ((d :: tl).length : Int))) := by
  have hex := fmtExp_form (dp - 1) (by omega) (by omega)
  refine ⟨[d], tl, 0x65 :: fmtExp (dp - 1), dp - 1, ?_, ?_, htl, hex, ?_⟩
  · unfold fmtE fracText
    cases tl with
    | nil => rfl
    | cons x xs => simp
  · right
    exact ⟨d, [], rfl, hd1, hd2, by simp⟩
  · congr 1
    simp only [List.singleton_append, List.length_cons]
    omega

/-- What the encoder writes for a finite `float64` is a sign and a number text that reads as
the absolute value. -/
theorem formatFloat_form (b : Nat) (h : f64Finite b = true) :
    ∃ body, formatFloat b = (if f64Neg b then [0x2D] else []) ++ body ∧
      NumForm body (some (f64Abs b)) := by
  unfold f64Finite at h
  simp only [Bool.and_eq_true, decide_eq_true_eq] at h
  have hfin : f64Abs b < 2047 * 2 ^ 52 := by
    unfold f64Abs
    have h1 : b % 2 ^ 63 / 2 ^ 52 ≠ 2047 := by omega
    have h2 : b % 2 ^ 63 < 2 ^ 63 := Nat.mod_lt _ (by norm_num)
    omega
  unfold formatFloat
  simp only
  by_cases hz : f64Abs b = 0
  · rw [if_pos hz]
    refine ⟨[0x30], rfl, [0x30], [], [], 0, rfl, Or.inl rfl, by simp, Or.inl ⟨rfl, rfl⟩, ?_⟩
    rw [hz]
    exact roundDec_zero _
  · rw [if_neg hz]
    obtain ⟨⟨d, tl, hdt, hd1, hd2, htl⟩, hval, hlo, hhi⟩ :=
      shortestDigits_spec (f64Abs b) (Nat.pos_of_ne_zero hz) hfin
    by_cases hE : f64Abs b < f64Micro ∨ f64Sextillion ≤ f64Abs b
    · rw [if_pos hE]
      refine ⟨_, rfl, ?_⟩
      rw [← hval, hdt]
      exact fmtE_form d tl _ hd1 hd2 htl (by omega) (by omega)
    · rw [if_neg hE]
      refine ⟨_, rfl, ?_⟩
      rw [← hval, hdt]
      exact fmtF_form d tl _ hd1 hd2 htl

/-- A run that passes the test, before a rest that does not start with such a byte, is what
`takeWhile` takes. -/
theorem takeWhile_run (p : Nat → Bool) (A B : Bytes) (hA : ∀ x ∈ A, p x = true)
    (hB : ∀ x, B.head? = some x → p x = false) : (A ++ B).takeWhile p = A := by
  induction A with
  | nil =>
    cases B with
    | nil => rfl
    | cons b B => simp [List.takeWhile, hB b rfl]
  | cons a A ih =>
    simp only [List.cons_append, List.takeWhile, hA a (by simp)]
    exact congrArg _ (ih (fun x hx => hA x (List.mem_cons_of_mem _ hx)))

/-- A run that passes the test, before a rest that does not start with such a byte, is what
`dropWhile` drops. -/
theorem dropWhile_run (p : Nat → Bool) (A B : Bytes) (hA : ∀ x ∈ A, p x = true)
    (hB : ∀ x, B.head? = some x → p x = false) : (A ++ B).dropWhile p = B := by
  induction A with
  | nil =>
    cases B with
    | nil => rfl
    | cons b B => simp [List.dropWhile, hB b rfl]
  | cons a A ih =>
    simp only [List.cons_append, List.dropWhile, hA a (by simp)]
    exact ih (fun x hx => hA x (List.mem_cons_of_mem _ hx))

/-- The bytes of an integer part are digits. -/
theorem intPart_digits {ip : Bytes} (h : IntPart ip) :
    (∀ x ∈ ip, isDigit x = true) ∧ ∃ d tl, ip = d :: tl ∧ 0x30 ≤ d ∧ d ≤ 0x39 := by
  rcases h with h | ⟨d, tl, h, h1, h2, h3⟩
  · rw [h]
    exact ⟨by simp [isDigit], 0x30, [], rfl, by norm_num, by norm_num⟩
  · rw [h]
    refine ⟨?_, d, tl, rfl, by omega, h2⟩
    intro x hx
    rcases List.mem_cons.mp hx with hx | hx
    · rw [hx, isDigit_iff]
      omega
    · exact h3 x hx

/-- An exponent text does not start with a digit or a point. -/
theorem expText_head {ex : Bytes} {E : Int} (h : ExpText ex E) :
    ∀ x, ex.head? = some x → x = 0x65 := by
  intro x hx
  rcases h with ⟨h, _⟩ | ⟨sb, eds, h, _⟩
  · rw [h] at hx
    simp at hx
  · rw [h] at hx
    simpa using hx.symm

/-- What `ParseFloat` makes of the exponent of a number text. -/
theorem expText_value {ex : Bytes} {E : Int} (h : ExpText ex E) :
    (if (ex.drop 1).head? = some 0x2D then
      -(expOfDigits (if (ex.drop 1).head? = some 0x2D ∨ (ex.drop 1).head? = some 0x2B
        then (ex.drop 1).drop 1 else ex.drop 1) : Int)
    else (expOfDigits (if (ex.drop 1).head? = some 0x2D ∨ (ex.drop 1).head? = some 0x2B
        then (ex.drop 1).drop 1 else ex.drop 1) : Int)) = E := by
  rcases h with ⟨h, hE⟩ | ⟨sb, eds, h, _, _, ⟨hs, hE⟩ | ⟨hs, hE⟩⟩
  · rw [h, hE]
    simp [expOfDigits]
  · rw [h, hE, hs]
    simp
  · rw [h, hE, hs]
    simp

/-- A number text with a sign reads as its value with the sign. -/
theorem parseFloat_form (neg : Bool) (body : Bytes) (v : Option Nat) (h : NumForm body v) :
    parseFloat ((if neg then [0x2D] else []) ++ body) =
      v.map (fun a => if neg then 2 ^ 63 + a else a) := by
  obtain ⟨ip, fp, ex, E, ht, hip, hfp, hex, hv⟩ := h
  obtain ⟨hipd, d, tl, hdt, hd1, hd2⟩ := intPart_digits hip
  have hhead : ((if neg then [0x2D] else []) ++ body).head? = some 0x2D ↔ neg = true := by
    cases neg
    · rw [ht, hdt]
      simp
      omega
    · simp
  have hbody : (if ((if neg then [0x2D] else []) ++ body).head? = some 0x2D
      then ((if neg then [0x2D] else []) ++ body).drop 1
      else (if neg then [0x2D] else []) ++ body) = ip ++ (fracText fp ++ ex) := by
    cases neg
    · rw [if_neg (by rw [hhead]; simp)]
      simpa using ht
    · rw [if_pos (by rw [hhead])]
      simpa using ht
  have hR : ∀ x, (fracText fp ++ ex).head? = some x → isDigit x = false := by
    intro x hx
    unfold fracText at hx
    split_ifs at hx with hf
    · have := expText_head hex x (by simpa using hx)
      rw [this]
      rfl
    · simp only [List.cons_append, List.head?_cons, Option.some.injEq] at hx
      rw [← hx]
      rfl
  have hexd : ∀ x, ex.head? = some x → isDigit x = false := by
    intro x hx
    rw [expText_head hex x hx]
    rfl
  have htw := takeWhile_run isDigit ip _ hipd hR
  have hdw := dropWhile_run isDigit ip _ hipd hR
  have hh := propext hhead
  simp only [hh] at hbody
  unfold parseFloat
  simp only [hh, hbody, htw, hdw]
  by_cases hf : fp = []
  · have hfr : fracText fp = [] := by simp [fracText, hf]
    have hne : ¬ ((fracText fp ++ ex).head? = some 0x2E) := by
      rw [hfr, List.nil_append]
      intro hx
      have := expText_head hex _ hx
      omega
    simp only [hne, if_false, expText_value hex]
    rw [hfr, List.nil_append, expText_value hex, ← hv, hf]
  · have hfr : fracText fp = 0x2E :: fp := by simp [fracText, hf]
    have hpt : (fracText fp ++ ex).head? = some 0x2E := by rw [hfr]; rfl
    have hd : (fracText fp ++ ex).drop 1 = fp ++ ex := by rw [hfr]; rfl
    simp only [hpt, if_true, hd, takeWhile_run isDigit fp ex hfp hexd,
      dropWhile_run isDigit fp ex hfp hexd, expText_value hex]
    rw [← hv]

/-- A finite `float64` is read back from what the encoder writes for it. -/
theorem parseFloat_formatFloat (b : Nat) (h : f64Finite b = true) :
    parseFloat (formatFloat b) = some b := by
  obtain ⟨body, h1, h2⟩ := formatFloat_form b h
  rw [h1, parseFloat_form _ _ _ h2]
  unfold f64Finite at h
  simp only [Bool.and_eq_true, decide_eq_true_eq] at h
  unfold f64Neg f64Abs
  simp only [Option.map_some', Option.some.injEq, decide_eq_true_eq]
  split_ifs <;> omega

/-- One byte of a literal: the state changes, the collector gathers the byte. -/
theorem seg_lit {st st1 : StepFn} {e er : Bool} {ps : List ParseState}
    {app : Collector → Nat → Collector} {c : Nat} {v : ScanCode} (k : Collector)
    (hp : LitPhase ps app)
    (h : Scanner.doStep ⟨st, e, ps, er⟩ c = (⟨st1, e, ps, er⟩, v))
    (hv : v = .scanBeginLiteral ∨ v = .scanContinue) :
    Seg ⟨st, e, ps, er⟩ k [c] ⟨st1, e, ps, er⟩ (app k c) := by
  have := seg_one (k := k) h (by rcases hv with hv | hv <;> rw [hv] <;> decide)
  rw [hp k c v hv] at this
  exact this

/-- Digits keep the scanner in the state it is in after a digit. -/
theorem seg_digits (st : StepFn) (hst : st = .one ∨ st = .dot0 ∨ st = .exp0) (e er : Bool)
    (ps : List ParseState) (app : Collector → Nat → Collector) (hp : LitPhase ps app) :
    ∀ (ds : Bytes) (k : Collector), (∀ x ∈ ds, isDigit x = true) →
      Seg ⟨st, e, ps, er⟩ k ds ⟨st, e, ps, er⟩ (ds.foldl app k) := by
  intro ds
  induction ds with
  | nil =>
    intro k _
    exact seg_nil _ _
  | cons d ds ih =>
    intro k hd
    have hdig := hd d (by simp)
    have hstep : Scanner.doStep ⟨st, e, ps, er⟩ d = (⟨st, e, ps, er⟩, .scanContinue) := by
      rcases hst with h | h | h <;> rw [h] <;>
        simp [Scanner.doStep, state1, stateDot0, stateE0, hdig]
    exact seg_append (seg_lit k hp hstep (Or.inr rfl))
      (ih (app k d) (fun x hx => hd x (List.mem_cons_of_mem _ hx)))

/-- The first byte of a number, a digit, from the start of a value or after the sign. -/
theorem first_digit (st : StepFn) (hst : startsValue st ∨ st = .neg) (e er : Bool)
    (ps : List ParseState) (d : Nat) (hd1 : 0x30 ≤ d) (hd2 : d ≤ 0x39) :
    ∃ v, (v = .scanBeginLiteral ∨ v = .scanContinue) ∧
      Scanner.doStep ⟨st, e, ps, er⟩ d =
        (⟨if d = 0x30 then .zero else .one, e, ps, er⟩, v) := by
  have hsp : isSpace d = false := by
    simp only [isSpace, Bool.or_eq_false_iff, decide_eq_false_iff_not]
    omega
  by_cases h0 : d = 0x30
  · rcases hst with (h | h) | h <;> rw [h, h0]
    · exact ⟨_, Or.inl rfl, by simp [Scanner.doStep, stateBeginValue, isSpace]⟩
    · exact ⟨_, Or.inl rfl, by
        simp [Scanner.doStep, stateBeginValueOrEmpty, stateBeginValue, isSpace]⟩
    · exact ⟨_, Or.inr rfl, by simp [Scanner.doStep, stateNeg]⟩
  · have h1 : 0x31 ≤ d ∧ d ≤ 0x39 := by omega
    have n1 : d ≠ 0x7B := by omega
    have n2 : d ≠ 0x5B := by omega
    have n3 : d ≠ 0x22 := by omega
    have n4 : d ≠ 0x2D := by omega
    have n5 : d ≠ 0x74 := by omega
    have n6 : d ≠ 0x66 := by omega
    have n7 : d ≠ 0x6E := by omega
    have n8 : d ≠ 0x5D := by omega
    rcases hst with (h | h) | h <;> rw [h]
    · exact ⟨_, Or.inl rfl, by
        simp [Scanner.doStep, stateBeginValue, hsp, h0, n1, n2, n3, n4, n5, n6, n7, h1]⟩
    · exact ⟨_, Or.inl rfl, by
        simp [Scanner.doStep, stateBeginValueOrEmpty, stateBeginValue, hsp, h0, n1, n2, n3, n4,
          n5, n6, n7, n8, h1]⟩
    · exact ⟨_, Or.inr rfl, by simp [Scanner.doStep, stateNeg, h0, h1]⟩

/-- The integer part of a number, from the start of a value or after the sign. -/
theorem seg_intPart (st : StepFn) (hst : startsValue st ∨ st = .neg) (e er : Bool)
    (ps : List ParseState) (app : Collector → Nat → Collector) (hp : LitPhase ps app)
    (ip : Bytes) (hip : IntPart ip) (k : Collector) :
    ∃ n, (n = .zero ∨ n = .one) ∧
      Seg ⟨st, e, ps, er⟩ k ip ⟨n, e, ps, er⟩ (ip.foldl app k) := by
  rcases hip with h | ⟨d, tl, h, h1, h2, h3⟩
  · obtain ⟨v, hv, hstep⟩ := first_digit st hst e er ps 0x30 (by norm_num) (by norm_num)
    rw [h]
    exact ⟨.zero, Or.inl rfl, seg_lit k hp hstep hv⟩
  · obtain ⟨v, hv, hstep⟩ := first_digit st hst e er ps d (by omega) h2
    rw [if_neg (by omega)] at hstep
    rw [h]
    exact ⟨.one, Or.inr rfl, seg_append (X := [d]) (seg_lit k hp hstep hv)
      (seg_digits .one (Or.inl rfl) e er ps app hp tl _ h3)⟩

/-- The sign and the integer part of a number, from the start of a value. -/
theorem seg_signed (st : StepFn) (hst : startsValue st) (e er : Bool)
    (ps : List ParseState) (app : Collector → Nat → Collector) (hp : LitPhase ps app)
    (neg : Bool) (ip : Bytes) (hip : IntPart ip) (k : Collector) :
    ∃ n, (n = .zero ∨ n = .one) ∧
      Seg ⟨st, e, ps, er⟩ k ((if neg then [0x2D] else []) ++ ip) ⟨n, e, ps, er⟩
        (((if neg then [0x2D] else []) ++ ip).foldl app k) := by
  cases neg
  · simpa using seg_intPart st (Or.inl hst) e er ps app hp ip hip k
  · have hstep : Scanner.doStep ⟨st, e, ps, er⟩ 0x2D = (⟨.neg, e, ps, er⟩, .scanBeginLiteral) := by
      rcases hst with h | h <;> rw [h] <;>
        simp [Scanner.doStep, stateBeginValueOrEmpty, stateBeginValue, isSpace]
    obtain ⟨n, hn, hseg⟩ := seg_intPart .neg (Or.inr rfl) e er ps app hp ip hip (app k 0x2D)
    exact ⟨n, hn, seg_append (X := [0x2D]) (seg_lit k hp hstep (Or.inl rfl)) hseg⟩

/-- The fraction of a number, after the integer part. -/
theorem seg_frac (n : StepFn) (hn : n = .zero ∨ n = .one) (e er : Bool)
    (ps : List ParseState) (app : Collector → Nat → Collector) (hp : LitPhase ps app)
    (fp : Bytes) (hfp : ∀ x ∈ fp, isDigit x = true) (k : Collector) :
    ∃ n1, (n1 = .zero ∨ n1 = .one ∨ n1 = .dot0) ∧
      Seg ⟨n, e, ps, er⟩ k (fracText fp) ⟨n1, e, ps, er⟩ ((fracText fp).foldl app k) := by
  cases fp with
  | nil =>
    refine ⟨n, ?_, seg_nil _ _⟩
    rcases hn with h | h
    · exact Or.inl h
    · exact Or.inr (Or.inl h)
  | cons f ftl =>
    have hf := hfp f (by simp)
    have h1 : Scanner.doStep ⟨n, e, ps, er⟩ 0x2E = (⟨.dot, e, ps, er⟩, .scanContinue) := by
      rcases hn with h | h <;> rw [h] <;> simp [Scanner.doStep, state1, state0, isDigit]
    have h2 : Scanner.doStep ⟨.dot, e, ps, er⟩ f = (⟨.dot0, e, ps, er⟩, .scanContinue) := by
      simp [Scanner.doStep, stateDot, hf]
    have hft : fracText (f :: ftl) = [0x2E] ++ ([f] ++ ftl) := by simp [fracText]
    rw [hft]
    exact ⟨.dot0, Or.inr (Or.inr rfl), seg_append (seg_lit k hp h1 (Or.inr rfl))
      (seg_append (seg_lit _ hp h2 (Or.inr rfl))
        (seg_digits .dot0 (Or.inr (Or.inl rfl)) e er ps app hp ftl _
          (fun x hx => hfp x (List.mem_cons_of_mem _ hx))))⟩

/-- The exponent of a number, after the integer part or the fraction. -/
theorem seg_exp (n : StepFn) (hn : n = .zero ∨ n = .one ∨ n = .dot0) (e er : Bool)
    (ps : List ParseState) (app : Collector → Nat → Collector) (hp : LitPhase ps app)
    (ex : Bytes) (E : Int) (hex : ExpText ex E) (k : Collector) :
    ∃ n1, numEnd n1 = true ∧
      Seg ⟨n, e, ps, er⟩ k ex ⟨n1, e, ps, er⟩ (ex.foldl app k) := by
  rcases hex with ⟨h, _⟩ | ⟨sb, eds, h, hne, hdig, hsb⟩
  · rw [h]
    refine ⟨n, ?_, seg_nil _ _⟩
    rcases hn with h | h | h <;> rw [h] <;> rfl
  · cases eds with
    | nil => exact absurd rfl hne
    | cons g gtl =>
      have hg := hdig g (by simp)
      have h1 : Scanner.doStep ⟨n, e, ps, er⟩ 0x65 = (⟨.expE, e, ps, er⟩, .scanContinue) := by
        rcases hn with h | h | h <;> rw [h] <;>
          simp [Scanner.doStep, state1, state0, stateDot0, isDigit]
      have h2 : Scanner.doStep ⟨.expE, e, ps, er⟩ sb = (⟨.expSign, e, ps, er⟩, .scanContinue) := by
        rcases hsb with ⟨h, _⟩ | ⟨h, _⟩ <;> rw [h] <;> simp [Scanner.doStep, stateE]
      have h3 : Scanner.doStep ⟨.expSign, e, ps, er⟩ g = (⟨.exp0, e, ps, er⟩, .scanContinue) := by
        simp [Scanner.doStep, stateESign, hg]
      have hft : ex = [0x65] ++ ([sb] ++ ([g] ++ gtl)) := by simp [h]
      rw [hft]
      exact ⟨.exp0, rfl, seg_append (seg_lit k hp h1 (Or.inr rfl))
        (seg_append (seg_lit _ hp h2 (Or.inr rfl))
          (seg_append (seg_lit _ hp h3 (Or.inr rfl))
            (seg_digits .exp0 (Or.inr (Or.inr rfl)) e er ps app hp gtl _
              (fun x hx => hdig x (List.mem_cons_of_mem _ hx)))))⟩

/-- The scanner reads a number text as one literal and ends in a state in which a number can
end. -/
theorem seg_numForm (st : StepFn) (hst : startsValue st) (e er : Bool)
    (ps : List ParseState) (app : Collector → Nat → Collector) (hp : LitPhase ps app)
    (neg : Bool) (body : Bytes) (v : Option Nat) (h : NumForm body v) (k : Collector) :
    ∃ n, numEnd n = true ∧
      Seg ⟨st, e, ps, er⟩ k ((if neg then [0x2D] else []) ++ body) ⟨n, e, ps, er⟩
        (((if neg then [0x2D] else []) ++ body).foldl app k) := by
  obtain ⟨ip, fp, ex, E, ht, hip, hfp, hex, _⟩ := h
  obtain ⟨n1, hn1, hs1⟩ := seg_signed st hst e er ps app hp neg ip hip k
  obtain ⟨n2, hn2, hs2⟩ := seg_frac n1 hn1 e er ps app hp fp hfp
    (((if neg then [0x2D] else []) ++ ip).foldl app k)
  obtain ⟨n3, hn3, hs3⟩ := seg_exp n2 hn2 e er ps app hp ex E hex
    ((fracText fp).foldl app (((if neg then [0x2D] else []) ++ ip).foldl app k))
  refine ⟨n3, hn3, ?_⟩
  have := seg_append hs1 (seg_append hs2 hs3)
  rw [ht, ← List.append_assoc]
  simpa [List.foldl_append] using this

/-- The bytes of a number text are bytes of a number literal, the first a digit. -/
theorem numForm_bytes {body : Bytes} {v : Option Nat} (h : NumForm body v) :
    (∀ x ∈ body, isNumberByte x = true) ∧ ∃ d tl, body = d :: tl ∧ 0x30 ≤ d ∧ d ≤ 0x39 := by
  obtain ⟨ip, fp, ex, E, ht, hip, hfp, hex, _⟩ := h
  obtain ⟨hipd, d, tl, hdt, hd1, hd2⟩ := intPart_digits hip
  have hnb : ∀ x, isDigit x = true → isNumberByte x = true := by
    intro x hx
    simp [isNumberByte, hx]
  refine ⟨?_, d, tl ++ (fracText fp ++ ex), by rw [ht, hdt]; rfl, hd1, hd2⟩
  intro x hx
  rw [ht] at hx
  rcases List.mem_append.mp hx with hx | hx
  · exact hnb x (hipd x hx)
  · rcases List.mem_append.mp hx with hx | hx
    · unfold fracText at hx
      split_ifs at hx
      · simp at hx
      · rcases List.mem_cons.mp hx with hx | hx
        · rw [hx]
          rfl
        · exact hnb x (hfp x hx)
    · rcases hex with ⟨h, _⟩ | ⟨sb, eds, h, _, hdig, hsb⟩
      · rw [h] at hx
        simp at hx
      · rw [h] at hx
        rcases List.mem_cons.mp hx with hx | hx
        · rw [hx]
          rfl
        · rcases List.mem_cons.mp hx with hx | hx
          · rcases hsb with ⟨h, _⟩ | ⟨h, _⟩ <;> rw [hx, h] <;> rfl
          · exact hnb x (hdig x hx)

/-- No string is below itself. -/
theorem bytesLT_irrefl : ∀ a : Bytes, bytesLT a a = false
  | [] => rfl
  | a :: as => by
    simp [bytesLT, bytesLT_irrefl as]

/-- The order of strings is transitive. -/
theorem bytesLT_trans : ∀ a b c : Bytes, bytesLT a b = true → bytesLT b c = true →
    bytesLT a c = true
  | _, [], _, h, _ => by
    cases ‹Bytes› <;> simp [bytesLT] at h
  | _, _ :: _, [], _, h => by
    simp [bytesLT] at h
  | [], _ :: _, _ :: _, _, _ => rfl
  | a :: as, b :: bs, c :: cs, h1, h2 => by
    simp only [bytesLT, Bool.or_eq_true, Bool.and_eq_true, decide_eq_true_eq] at h1 h2 ⊢
    rcases h1 with h1 | ⟨h1, h1'⟩
    · rcases h2 with h2 | ⟨h2, _⟩
      · exact Or.inl (by omega)
      · exact Or.inl (by omega)
    · rcases h2 with h2 | ⟨h2, h2'⟩
      · exact Or.inl (by omega)
      · exact Or.inr ⟨by omega, bytesLT_trans as bs cs h1' h2'⟩

/-- A string below another is not above it. -/
theorem bytesLT_asymm (a b : Bytes) (h : bytesLT a b = true) : bytesLT b a = false := by
  cases hb : bytesLT b a with
  | false => rfl
  | true =>
    have := bytesLT_trans a b a h hb
    rw [bytesLT_irrefl] at this
    exact absurd this (by simp)

/-- Every key of entries whose keys increase is above a key below the first. -/
theorem keysIncrease_above (k : Bytes) : ∀ (fs : List (Bytes × Value)),
    keysIncrease fs = true → (∀ f, fs.head? = some f → bytesLT k f.1 = true) →
    ∀ f ∈ fs, bytesLT k f.1 = true
  | [], _, _ => by simp
  | [g], _, h => by
    intro f hf
    simp only [List.mem_singleton] at hf
    rw [hf]
    exact h g rfl
  | g :: g1 :: fs, hk, h => by
    intro f hf
    simp only [keysIncrease, Bool.and_eq_true] at hk
    rcases List.mem_cons.mp hf with hf | hf
    · rw [hf]
      exact h g rfl
    · refine keysIncrease_above k (g1 :: fs) hk.2 ?_ f hf
      intro f1 hf1
      simp only [List.head?_cons, Option.some.injEq] at hf1
      rw [← hf1]
      exact bytesLT_trans _ _ _ (h g rfl) hk.1

/-- The entries after the first of entries whose keys increase. -/
theorem keysIncrease_tail (g : Bytes × Value) (fs : List (Bytes × Value))
    (h : keysIncrease (g :: fs) = true) :
    keysIncrease fs = true ∧ ∀ f ∈ fs, bytesLT g.1 f.1 = true := by
  cases fs with
  | nil => exact ⟨rfl, by simp⟩
  | cons g1 fs =>
    simp only [keysIncrease, Bool.and_eq_true] at h
    refine ⟨h.2, keysIncrease_above g.1 (g1 :: fs) h.2 ?_⟩
    intro f hf
    simp only [List.head?_cons, Option.some.injEq] at hf
    rw [← hf]
    exact h.1

/-- An entry with a key above all keys goes to the end. -/
theorem insertField_last (k : Bytes) (x : Value) : ∀ (m : List (Bytes × Value)),
    (∀ f ∈ m, bytesLT f.1 k = true) → insertField k x m = m ++ [(k, x)]
  | [], _ => rfl
  | f :: m, h => by
    have h1 := h f (by simp)
    have h2 : k ≠ f.1 := by
      intro he
      rw [he, bytesLT_irrefl] at h1
      exact absurd h1 (by simp)
    have h3 := bytesLT_asymm _ _ h1
    simp only [insertField, h2, if_false, h3, Bool.false_eq_true, List.cons_append]
    rw [insertField_last k x m (fun g hg => h g (List.mem_cons_of_mem _ hg))]

/-- The keys of the encoded entries are the keys of the entries. -/
theorem encodeFields_keys : ∀ (fs : List (Bytes × Value)) (es : List (Bytes × Bytes)),
    encodeFields fs = some es → es.map Prod.fst = fs.map Prod.fst
  | [], es, h => by
    simp only [encodeFields, Option.some.injEq] at h
    rw [← h]
    rfl
  | (k, x) :: fs, es, h => by
    simp only [encodeFields] at h
    cases h1 : encodeValue x with
    | none => simp [h1] at h
    | some e =>
      cases h2 : encodeFields fs with
      | none => simp [h1, h2] at h
      | some es1 =>
        simp only [h1, h2, Option.some.injEq] at h
        rw [← h]
        simp [encodeFields_keys fs es1 h2]

/-- Sorting entries whose keys increase changes nothing. -/
theorem sortByKey_sorted : ∀ (es : List (Bytes × Bytes)),
    (es.map Prod.fst).Pairwise (fun a b => bytesLT a b = true) → sortByKey es = es := by
  intro es h
  unfold sortByKey
  apply List.Sorted.insertionSort_eq
  unfold List.Sorted
  rw [List.pairwise_map] at h
  exact h.imp (fun hab => bytesLT_asymm _ _ hab)

/-- Keys that increase are pairwise in order. -/
theorem keysIncrease_pairwise : ∀ (fs : List (Bytes × Value)), keysIncrease fs = true →
    (fs.map Prod.fst).Pairwise (fun a b => bytesLT a b = true)
  | [], _ => List.Pairwise.nil
  | g :: fs, h => by
    obtain ⟨h1, h2⟩ := keysIncrease_tail g fs h
    rw [List.map_cons, List.pairwise_cons]
    refine ⟨?_, keysIncrease_pairwise fs h1⟩
    intro b hb
    obtain ⟨f, hf, hfb⟩ := List.mem_map.mp hb
    rw [← hfb]
    exact h2 f hf

/-- One byte inside a value of the top-level object: the collector appends it. -/
theorem seg_val (sp : List ParseState) {st : StepFn} {c : Nat} {s1 : Scanner} {v : ScanCode}
    (k : Collector)
    (h : Scanner.doStep ⟨st, false, sp ++ [ParseState.parseObjectValue], false⟩ c = (s1, v))
    (hv : v ≠ .scanError)
    (hc : sp = [] → v ≠ .scanSkipSpace ∧ v ≠ .scanObjectValue ∧ v ≠ .scanEndObject) :
    Seg ⟨st, false, sp ++ [ParseState.parseObjectValue], false⟩ k [c] s1 (appVal k c) := by
  have := seg_one (k := k) h hv
  simp only at this
  rw [collect_val k sp v c hc] at this
  exact this

/-- After an element of an array a comma starts the next. -/
theorem end_comma_array (ps : List ParseState) {t : Scanner}
    (h : ValueEnd (ParseState.parseArrayValue :: ps) t) :
    t.doStep 0x2C = (⟨.beginValue, false, ParseState.parseArrayValue :: ps, false⟩,
      .scanArrayValue) := by
  obtain ⟨n, hn, rfl⟩ := h
  rcases hn with rfl | hn
  · rfl
  · cases n <;> first | exact absurd hn (by decide) | rfl

/-- After an element of an array inside a value a bracket closes the array. -/
theorem end_close_array (sp : List ParseState) {t : Scanner}
    (h : ValueEnd (ParseState.parseArrayValue :: (sp ++ [ParseState.parseObjectValue])) t) :
    t.doStep 0x5D = (⟨.endValue, false, sp ++ [ParseState.parseObjectValue], false⟩,
      .scanEndArray) := by
  obtain ⟨n, hn, rfl⟩ := h
  rcases hn with rfl | hn
  · simp [Scanner.doStep, stateEndValue, isSpace, Scanner.popParseState]
  · cases n <;> first
      | exact absurd hn (by decide)
      | simp [Scanner.doStep, state0, state1, stateDot0, stateE0, isDigit, stateEndValue,
          isSpace, Scanner.popParseState]

/-- After a value of an object a comma starts the next key. -/
theorem end_comma_object (ps : List ParseState) {t : Scanner}
    (h : ValueEnd (ParseState.parseObjectValue :: ps) t) :
    t.doStep 0x2C = (⟨.beginString, false, ParseState.parseObjectKey :: ps, false⟩,
      .scanObjectValue) := by
  obtain ⟨n, hn, rfl⟩ := h
  rcases hn with rfl | hn
  · rfl
  · cases n <;> first | exact absurd hn (by decide) | rfl

/-- After a value of an object inside a value a brace closes the object. -/
theorem end_close_object (sp : List ParseState) {t : Scanner}
    (h : ValueEnd (ParseState.parseObjectValue :: (sp ++ [ParseState.parseObjectValue])) t) :
    t.doStep 0x7D = (⟨.endValue, false, sp ++ [ParseState.parseObjectValue], false⟩,
      .scanEndObject) := by
  obtain ⟨n, hn, rfl⟩ := h
  rcases hn with rfl | hn
  · simp [Scanner.doStep, stateEndValue, isSpace, Scanner.popParseState]
  · cases n <;> first
      | exact absurd hn (by decide)
      | simp [Scanner.doStep, state0, state1, stateDot0, stateE0, isDigit, stateEndValue,
          isSpace, Scanner.popParseState]

/-- A bracket at the start of a value opens an array, within the depth limit. -/
theorem open_array {st : StepFn} (hst : startsValue st) (ps : List ParseState)
    (hd : ps.length + 1 ≤ maxNestingDepth) :
    Scanner.doStep ⟨st, false, ps, false⟩ 0x5B =
      (⟨.beginValueOrEmpty, false, ParseState.parseArrayValue :: ps, false⟩,
        .scanBeginArray) := by
  rcases hst with rfl | rfl <;>
    simp [Scanner.doStep, stateBeginValueOrEmpty, stateBeginValue, isSpace,
      Scanner.pushParseState, hd]

/-- A brace at the start of a value opens an object, within the depth limit. -/
theorem open_object {st : StepFn} (hst : startsValue st) (ps : List ParseState)
    (hd : ps.length + 1 ≤ maxNestingDepth) :
    Scanner.doStep ⟨st, false, ps, false⟩ 0x7B =
      (⟨.beginStringOrEmpty, false, ParseState.parseObjectKey :: ps, false⟩,
        .scanBeginObject) := by
  rcases hst with rfl | rfl <;>
    simp [Scanner.doStep, stateBeginValueOrEmpty, stateBeginValue, isSpace,
      Scanner.pushParseState, hd]

/-- A bracket right after the opening bracket closes the empty array. -/
theorem close_empty_array (sp : List ParseState) :
    Scanner.doStep ⟨.beginValueOrEmpty, false,
        ParseState.parseArrayValue :: (sp ++ [ParseState.parseObjectValue]), false⟩ 0x5D =
      (⟨.endValue, false, sp ++ [ParseState.parseObjectValue], false⟩, .scanEndArray) := by
  simp [Scanner.doStep, stateBeginValueOrEmpty, stateEndValue, isSpace, Scanner.popParseState]

/-- A brace right after the opening brace closes the empty object. -/
theorem close_empty_object (sp : List ParseState) :
    Scanner.doStep ⟨.beginStringOrEmpty, false,
        ParseState.parseObjectKey :: (sp ++ [ParseState.parseObjectValue]), false⟩ 0x7D =
      (⟨.endValue, false, sp ++ [ParseState.parseObjectValue], false⟩, .scanEndObject) := by
  simp [Scanner.doStep, stateBeginStringOrEmpty, stateEndValue, isSpace,
    Scanner.popParseState]

/-- The colon after a key. -/
theorem colon_step (ps : List ParseState) :
    Scanner.doStep ⟨.endValue, false, ParseState.parseObjectKey :: ps, false⟩ 0x3A =
      (⟨.beginValue, false, ParseState.parseObjectValue :: ps, false⟩, .scanObjectKey) := by
  rfl

/-- The texts of a list with more than one element. -/
theorem joinComma_cons (e : Bytes) (es : List Bytes) (h : es ≠ []) :
    joinComma (e :: es) = e ++ 0x2C :: joinComma es := by
  cases es with
  | nil => exact absurd rfl h
  | cons _ _ => rfl

/-- The scanner reads a name of four bytes as one literal. -/
theorem seg_name4 (sp : List ParseState) (a b c d : Nat) (s1 s2 s3 : StepFn)
    (h1 : ∀ st, startsValue st → ∀ ps,
      Scanner.doStep ⟨st, false, ps, false⟩ a = (⟨s1, false, ps, false⟩, .scanBeginLiteral))
    (h2 : ∀ ps, Scanner.doStep ⟨s1, false, ps, false⟩ b = (⟨s2, false, ps, false⟩, .scanContinue))
    (h3 : ∀ ps, Scanner.doStep ⟨s2, false, ps, false⟩ c = (⟨s3, false, ps, false⟩, .scanContinue))
    (h4 : ∀ ps, Scanner.doStep ⟨s3, false, ps, false⟩ d =
      (⟨.endValue, false, ps, false⟩, .scanContinue)) :
    ValSeg sp [a, b, c, d] := by
  intro st k hst
  have hp := litPhase_val sp
  exact ⟨_, ⟨.endValue, Or.inl rfl, rfl⟩,
    seg_append (X := [a]) (seg_lit k hp (h1 st hst _) (Or.inl rfl))
      (seg_append (X := [b]) (seg_lit _ hp (h2 _) (Or.inr rfl))
        (seg_append (X := [c]) (seg_lit _ hp (h3 _) (Or.inr rfl))
          (seg_lit _ hp (h4 _) (Or.inr rfl))))⟩

/-- The scanner reads `null` as one value. -/
theorem valSeg_null (sp : List ParseState) : ValSeg sp [0x6E, 0x75, 0x6C, 0x6C] :=
  seg_name4 sp _ _ _ _ .litN .litNu .litNul
    (fun st hst ps => by
      rcases hst with rfl | rfl <;>
        simp [Scanner.doStep, stateBeginValueOrEmpty, stateBeginValue, isSpace])
    (fun _ => rfl) (fun _ => rfl) (fun _ => rfl)

/-- The scanner reads `true` as one value. -/
theorem valSeg_true (sp : List ParseState) : ValSeg sp [0x74, 0x72, 0x75, 0x65] :=
  seg_name4 sp _ _ _ _ .litT .litTr .litTru
    (fun st hst ps => by
      rcases hst with rfl | rfl <;>
        simp [Scanner.doStep, stateBeginValueOrEmpty, stateBeginValue, isSpace])
    (fun _ => rfl) (fun _ => rfl) (fun _ => rfl)

/-- The scanner reads `false` as one value. -/
theorem valSeg_false (sp : List ParseState) : ValSeg sp [0x66, 0x61, 0x6C, 0x73, 0x65] := by
  intro st k hst
  have hp := litPhase_val sp
  have h1 : Scanner.doStep ⟨st, false, sp ++ [ParseState.parseObjectValue], false⟩ 0x66 =
      (⟨.litF, false, sp ++ [ParseState.parseObjectValue], false⟩, .scanBeginLiteral) := by
    rcases hst with rfl | rfl <;>
      simp [Scanner.doStep, stateBeginValueOrEmpty, stateBeginValue, isSpace]
  have h2 : Scanner.doStep ⟨.litF, false, sp ++ [ParseState.parseObjectValue], false⟩ 0x61 =
      (⟨.litFa, false, sp ++ [ParseState.parseObjectValue], false⟩, .scanContinue) := rfl
  have h3 : Scanner.doStep ⟨.litFa, false, sp ++ [ParseState.parseObjectValue], false⟩ 0x6C =
      (⟨.litFal, false, sp ++ [ParseState.parseObjectValue], false⟩, .scanContinue) := rfl
  have h4 : Scanner.doStep ⟨.litFal, false, sp ++ [ParseState.parseObjectValue], false⟩ 0x73 =
      (⟨.litFals, false, sp ++ [ParseState.parseObjectValue], false⟩, .scanContinue) := rfl
  have h5 : Scanner.doStep ⟨.litFals, false, sp ++ [ParseState.parseObjectValue], false⟩ 0x65 =
      (⟨.endValue, false, sp ++ [ParseState.parseObjectValue], false⟩, .scanContinue) := rfl
  exact ⟨_, ⟨.endValue, Or.inl rfl, rfl⟩,
    seg_append (X := [0x66]) (seg_lit k hp h1 (Or.inl rfl))
      (seg_append (X := [0x61]) (seg_lit _ hp h2 (Or.inr rfl))
        (seg_append (X := [0x6C]) (seg_lit _ hp h3 (Or.inr rfl))
          (seg_append (X := [0x73]) (seg_lit _ hp h4 (Or.inr rfl))
            (seg_lit _ hp h5 (Or.inr rfl)))))⟩

/-- The scanner reads what the encoder writes for a finite number as one value. -/
theorem valSeg_number (sp : List ParseState) (b : Nat) (h : f64Finite b = true) :
    ValSeg sp (formatFloat b) := by
  intro st k hst
  obtain ⟨body, h1, h2⟩ := formatFloat_form b h
  obtain ⟨n, hn, hseg⟩ := seg_numForm st hst false false _ appVal (litPhase_val sp)
    (f64Neg b) body _ h2 k
  rw [h1]
  exact ⟨_, ⟨n, Or.inr hn, rfl⟩, hseg⟩

/-- The scanner reads what the encoder writes for a valid string as one value. -/
theorem valSeg_string (sp : List ParseState) (s : Bytes) (h : validUTF8 s = true) :
    ValSeg sp (quoteBytes s) := by
  intro st k hst
  obtain ⟨str, rfl⟩ := validUTF8_text h
  rw [quoteBytes_bytesOf]
  refine ⟨_, ⟨.endValue, Or.inl rfl, rfl⟩,
    seg_quote _ _ _ _ _ k str (litPhase_val sp) ?_⟩
  rcases hst with rfl | rfl <;>
    simp [Scanner.doStep, stateBeginValueOrEmpty, stateBeginValue, isSpace]

/-- The quote that opens a key. -/
theorem key_open {st : StepFn} (hst : st = .beginString ∨ st = .beginStringOrEmpty)
    (ps : List ParseState) :
    Scanner.doStep ⟨st, false, ps, false⟩ 0x22 =
      (⟨.inString, false, ps, false⟩, .scanBeginLiteral) := by
  rcases hst with rfl | rfl <;>
    simp [Scanner.doStep, stateBeginStringOrEmpty, stateBeginString, isSpace]

/-- The texts of the elements of a list that is not empty. -/
theorem encodeElems_ne : ∀ (xs : List Value) (es : List Bytes),
    encodeElems xs = some es → xs ≠ [] → es ≠ []
  | [], _, _, h => absurd rfl h
  | x :: xs, es, h, _ => by
    simp only [encodeElems] at h
    cases h1 : encodeValue x with
    | none => simp [h1] at h
    | some e =>
      cases h2 : encodeElems xs with
      | none => simp [h1, h2] at h
      | some es1 =>
        simp only [h1, h2, Option.some.injEq] at h
        rw [← h]
        simp

/-- The texts of the entries of a list that is not empty. -/
theorem encodeFields_ne : ∀ (fs : List (Bytes × Value)) (es : List (Bytes × Bytes)),
    encodeFields fs = some es → fs ≠ [] → es ≠ []
  | [], _, _, h => absurd rfl h
  | (k, x) :: fs, es, h, _ => by
    simp only [encodeFields] at h
    cases h1 : encodeValue x with
    | none => simp [h1] at h
    | some e =>
      cases h2 : encodeFields fs with
      | none => simp [h1, h2] at h
      | some es1 =>
        simp only [h1, h2, Option.some.injEq] at h
        rw [← h]
        simp

mutual
/-- The scanner reads an encoded value as one value, and the collector keeps its text. -/
theorem valSeg_value : ∀ (x : Value) (V : Bytes), x.WF = true → encodeValue x = some V →
    ∀ sp : List ParseState, sp.length + x.depth + 1 ≤ maxNestingDepth → ValSeg sp V
  | .null, V, _, hV, sp, _ => by
    simp only [encodeValue, Option.some.injEq] at hV
    rw [← hV]
    exact valSeg_null sp
  | .bool true, V, _, hV, sp, _ => by
    simp only [encodeValue, Option.some.injEq] at hV
    rw [← hV]
    exact valSeg_true sp
  | .bool false, V, _, hV, sp, _ => by
    simp only [encodeValue, Option.some.injEq] at hV
    rw [← hV]
    exact valSeg_false sp
  | .number b, V, hw, hV, sp, _ => by
    simp only [Value.WF] at hw
    simp only [encodeValue, hw, if_true, Option.some.injEq] at hV
    rw [← hV]
    exact valSeg_number sp b hw
  | .string s, V, hw, hV, sp, _ => by
    simp only [Value.WF] at hw
    simp only [encodeValue, Option.some.injEq] at hV
    rw [← hV]
    exact valSeg_string sp s hw
  | .array xs, V, hw, hV, sp, hd => by
    simp only [Value.WF] at hw
    simp only [Value.depth] at hd
    have hrec := valSeg_elems xs
    cases hes : encodeElems xs with
    | none => simp [encodeValue, hes] at hV
    | some es =>
      simp only [encodeValue, hes, Option.some.injEq] at hV
      rw [← hV]
      intro st k hst
      have hopen := open_array hst (sp ++ [ParseState.parseObjectValue])
        (by rw [List.length_append, List.length_singleton]; omega)
      have h1 := seg_val sp k hopen (by decide) (fun _ => by decide)
      refine ⟨_, ⟨.endValue, Or.inl rfl, rfl⟩, ?_⟩
      cases xs with
      | nil =>
        simp only [encodeElems, Option.some.injEq] at hes
        rw [← hes]
        have h2 := seg_val (ParseState.parseArrayValue :: sp) (appVal k 0x5B)
          (close_empty_array sp) (by decide) (by simp)
        exact seg_append h1 h2
      | cons x xs =>
        have h2 := hrec es hw hes (by simp) sp (by omega) .beginValueOrEmpty (appVal k 0x5B)
          (Or.inr rfl)
        exact seg_append h1 h2
  | .object fs, V, hw, hV, sp, hd => by
    simp only [Value.WF, Bool.and_eq_true] at hw
    simp only [Value.depth] at hd
    have hrec := valSeg_fields fs
    cases hes : encodeFields fs with
    | none => simp [encodeValue, hes] at hV
    | some es =>
      have hsort : sortByKey es = es := by
        apply sortByKey_sorted
        rw [encodeFields_keys fs es hes]
        exact keysIncrease_pairwise fs hw.1
      simp only [encodeValue, hes, hsort, Option.some.injEq] at hV
      rw [← hV]
      intro st k hst
      have hopen := open_object hst (sp ++ [ParseState.parseObjectValue])
        (by rw [List.length_append, List.length_singleton]; omega)
      have h1 := seg_val sp k hopen (by decide) (fun _ => by decide)
      refine ⟨_, ⟨.endValue, Or.inl rfl, rfl⟩, ?_⟩
      cases fs with
      | nil =>
        simp only [encodeFields, Option.some.injEq] at hes
        rw [← hes]
        have h2 := seg_val (ParseState.parseObjectKey :: sp) (appVal k 0x7B)
          (close_empty_object sp) (by decide) (by simp)
        exact seg_append h1 h2
      | cons f fs =>
        have h2 := hrec es hw.2 hes (by simp) sp (by omega) .beginStringOrEmpty (appVal k 0x7B)
          (Or.inr rfl)
        exact seg_append h1 h2
/-- The scanner reads the elements of an array up to the closing bracket. -/
theorem valSeg_elems : ∀ (xs : List Value) (es : List Bytes), Value.WFList xs = true →
    encodeElems xs = some es → xs ≠ [] →
    ∀ sp : List ParseState, sp.length + Value.depthList xs + 2 ≤ maxNestingDepth →
    ∀ (st : StepFn) (k : Collector), startsValue st →
      Seg ⟨st, false, ParseState.parseArrayValue :: (sp ++ [ParseState.parseObjectValue]), false⟩
        k (joinComma es ++ [0x5D])
        ⟨.endValue, false, sp ++ [ParseState.parseObjectValue], false⟩
        ((joinComma es ++ [0x5D]).foldl appVal k)
  | [], _, _, _, hne, _, _, _, _, _ => absurd rfl hne
  | x :: xs, es, hw, hes, _, sp, hd, st, k, hst => by
    simp only [Value.WFList, Bool.and_eq_true] at hw
    simp only [Value.depthList] at hd
    have hrec := valSeg_elems xs
    cases he : encodeValue x with
    | none => simp [encodeElems, he] at hes
    | some e =>
      cases hes1 : encodeElems xs with
      | none => simp [encodeElems, he, hes1] at hes
      | some es1 =>
        simp only [encodeElems, he, hes1, Option.some.injEq] at hes
        rw [← hes]
        obtain ⟨t, ht, hseg⟩ := valSeg_value x e hw.1 he (ParseState.parseArrayValue :: sp)
          (by rw [List.length_cons]; omega) st k hst
        cases xs with
        | nil =>
          simp only [encodeElems, Option.some.injEq] at hes1
          rw [← hes1]
          have hclose := end_close_array sp ht
          obtain ⟨n, hn, rfl⟩ := ht
          have h2 := seg_val (ParseState.parseArrayValue :: sp) (e.foldl appVal k) hclose
            (by decide) (by simp)
          have := seg_append hseg h2
          simpa [joinComma, List.foldl_append] using this
        | cons y ys =>
          have hne1 := encodeElems_ne _ _ hes1 (by simp)
          rw [joinComma_cons e es1 hne1]
          have hcomma := end_comma_array _ ht
          obtain ⟨n, hn, rfl⟩ := ht
          have h2 := seg_val (ParseState.parseArrayValue :: sp) (e.foldl appVal k) hcomma
            (by decide) (by simp)
          have h3 := hrec es1 hw.2 hes1 (by simp) sp (by omega) .beginValue
            (appVal (e.foldl appVal k) 0x2C) (Or.inl rfl)
          have := seg_append hseg (seg_append h2 h3)
          simpa [List.foldl_append] using this
/-- The scanner reads the entries of an object up to the closing brace. -/
theorem valSeg_fields : ∀ (fs : List (Bytes × Value)) (es : List (Bytes × Bytes)),
    Value.WFFields fs = true → encodeFields fs = some es → fs ≠ [] →
    ∀ sp : List ParseState, sp.length + Value.depthFields fs + 2 ≤ maxNestingDepth →
    ∀ (st : StepFn) (k : Collector), st = .beginString ∨ st = .beginStringOrEmpty →
      Seg ⟨st, false, ParseState.parseObjectKey :: (sp ++ [ParseState.parseObjectValue]), false⟩
        k (joinComma (es.map (fun e : Bytes × Bytes => quoteBytes e.1 ++ 0x3A :: e.2)) ++ [0x7D])
        ⟨.endValue, false, sp ++ [ParseState.parseObjectValue], false⟩
        ((joinComma (es.map (fun e : Bytes × Bytes => quoteBytes e.1 ++ 0x3A :: e.2)) ++ [0x7D]).foldl appVal k)
  | [], _, _, _, hne, _, _, _, _, _ => absurd rfl hne
  | (key, x) :: fs, es, hw, hes, _, sp, hd, st, k, hst => by
    simp only [Value.WFFields, Bool.and_eq_true] at hw
    simp only [Value.depthFields] at hd
    have hrec := valSeg_fields fs
    cases he : encodeValue x with
    | none => simp [encodeFields, he] at hes
    | some e =>
      cases hes1 : encodeFields fs with
      | none => simp [encodeFields, he, hes1] at hes
      | some es1 =>
        simp only [encodeFields, he, hes1, Option.some.injEq] at hes
        rw [← hes]
        obtain ⟨str, hstr⟩ := validUTF8_text hw.1.1
        have hq : quoteBytes key = quote str := by rw [hstr, quoteBytes_bytesOf]
        have hkey := seg_quote st false false
          (ParseState.parseObjectKey :: (sp ++ [ParseState.parseObjectValue])) appVal k str
          (litPhase_val (ParseState.parseObjectKey :: sp)) (key_open hst _)
        have hcol := seg_val (ParseState.parseObjectKey :: sp) ((quote str).foldl appVal k)
          (colon_step (sp ++ [ParseState.parseObjectValue])) (by decide) (by simp)
        obtain ⟨t, ht, hseg⟩ := valSeg_value x e hw.1.2 he (ParseState.parseObjectValue :: sp)
          (by rw [List.length_cons]; omega) .beginValue
          (appVal ((quote str).foldl appVal k) 0x3A) (Or.inl rfl)
        cases fs with
        | nil =>
          simp only [encodeFields, Option.some.injEq] at hes1
          rw [← hes1]
          have hclose := end_close_object sp ht
          obtain ⟨n, hn, rfl⟩ := ht
          have h2 := seg_val (ParseState.parseObjectValue :: sp)
            (e.foldl appVal (appVal ((quote str).foldl appVal k) 0x3A)) hclose
            (by decide) (by simp)
          have := seg_append hkey (seg_append hcol (seg_append hseg h2))
          simpa [joinComma, List.foldl_append, hq] using this
        | cons y ys =>
          have hne1 := encodeFields_ne _ _ hes1 (by simp)
          have hne2 : es1.map (fun e : Bytes × Bytes => quoteBytes e.1 ++ 0x3A :: e.2) ≠ [] := by
            simpa using hne1
          rw [List.map_cons, joinComma_cons _ _ hne2]
          have hcomma := end_comma_object _ ht
          obtain ⟨n, hn, rfl⟩ := ht
          have h2 := seg_val (ParseState.parseObjectValue :: sp)
            (e.foldl appVal (appVal ((quote str).foldl appVal k) 0x3A)) hcomma
            (by decide) (by simp)
          have h3 := hrec es1 hw.2 hes1 (by simp) sp (by omega) .beginString
            (appVal (e.foldl appVal (appVal ((quote str).foldl appVal k) 0x3A)) 0x2C)
            (Or.inl rfl)
          have := seg_append hkey (seg_append hcol (seg_append hseg (seg_append h2 h3)))
          simpa [List.foldl_append, hq] using this
end

/-- The decoder at a byte that is no space. -/
theorem parseValue_cons (fuel c : Nat) (rest : Bytes) (hc : isSpace c = false) :
    parseValue (fuel + 1) (c :: rest) =
      if c = 0x7B then
        (parseFields fuel [] rest).map (fun r => (Value.object r.1, r.2))
      else if c = 0x5B then
        (parseElems fuel rest).map (fun r => (Value.array r.1, r.2))
      else if c = 0x22 then
        match spanString rest with
        | none => none
        | some (body, rest1) =>
          match unquote (0x22 :: (body ++ [0x22])) with
          | none => none
          | some str => some (Value.string (bytesOf str), false, rest1)
      else if c = 0x74 then some (Value.bool true, false, rest.drop 3)
      else if c = 0x66 then some (Value.bool false, false, rest.drop 4)
      else if c = 0x6E then some (Value.null, false, rest.drop 3)
      else
        match parseFloat ((c :: rest).takeWhile isNumberByte) with
        | none => some (Value.null, true, (c :: rest).dropWhile isNumberByte)
        | some bits => some (Value.number bits, false, (c :: rest).dropWhile isNumberByte) := by
  have h : List.dropWhile isSpace (c :: rest) = c :: rest := by
    simp only [List.dropWhile, hc]
  rw [parseValue]
  simp only [h]

/-- The decoder of arrays at a byte that is no space. -/
theorem parseElems_cons (fuel c : Nat) (rest : Bytes) (hc : isSpace c = false) :
    parseElems (fuel + 1) (c :: rest) =
      if c = 0x5D then some ([], false, rest)
      else
        match parseValue fuel (c :: rest) with
        | none => none
        | some (x, bad, rest1) =>
          match rest1.dropWhile isSpace with
          | [] => none
          | d :: rest2 =>
            if d = 0x5D then some ([x], bad, rest2)
            else (parseElems fuel rest2).map (fun r => (x :: r.1, bad || r.2.1, r.2.2)) := by
  have h : List.dropWhile isSpace (c :: rest) = c :: rest := by
    simp only [List.dropWhile, hc]
  rw [parseElems]
  simp only [h]

/-- The decoder of objects at a byte that is no space. -/
theorem parseFields_cons (fuel c : Nat) (m : List (Bytes × Value)) (rest : Bytes)
    (hc : isSpace c = false) :
    parseFields (fuel + 1) m (c :: rest) =
      if c = 0x7D then some (m, false, rest)
      else
        match spanString rest with
        | none => none
        | some (body, rest1) =>
          match unquote (0x22 :: (body ++ [0x22])) with
          | none => none
          | some key =>
            match parseValue fuel ((rest1.dropWhile isSpace).drop 1) with
            | none => none
            | some (x, bad, rest2) =>
              match rest2.dropWhile isSpace with
              | [] => none
              | d :: rest3 =>
                if d = 0x7D then some (insertField (bytesOf key) x m, bad, rest3)
                else
                  (parseFields fuel (insertField (bytesOf key) x m) rest3).map
                    (fun r => (r.1, bad || r.2.1, r.2.2)) := by
  have h : List.dropWhile isSpace (c :: rest) = c :: rest := by
    simp only [List.dropWhile, hc]
  rw [parseFields]
  simp only [h]

/-- No bytes are passed over. -/
theorem spanOK_nil : SpanOK [] := by
  intro T _
  rw [List.nil_append]
  cases spanString T <;> simp

/-- Bytes passed over, one run after the other. -/
theorem spanOK_append {X Y : Bytes} (hX : SpanOK X) (hY : SpanOK Y) : SpanOK (X ++ Y) := by
  intro T hT
  rw [List.append_assoc, hX (Y ++ T) (by simp [hT]), hY T hT]
  cases spanString T <;> simp

/-- A byte that is no quote and no backslash is passed over. -/
theorem spanOK_plain {c : Nat} (h1 : c ≠ 0x22) (h2 : c ≠ 0x5C) : SpanOK [c] := by
  intro T hT
  cases T with
  | nil => exact absurd rfl hT
  | cons d rest => simp [spanString, h1, h2]

/-- A backslash and the byte after it are passed over. -/
theorem spanOK_esc (x : Nat) : SpanOK [0x5C, x] := by
  intro T _
  simp [spanString]

/-- A digit of the `hex` table is no quote and no backslash. -/
theorem hexDigit_plain (n : Nat) : hexDigit n ≠ 0x22 ∧ hexDigit n ≠ 0x5C := by
  unfold hexDigit
  split_ifs <;> omega

/-- What the string encoder writes for a character is passed over. -/
theorem spanOK_quoteChar (c : Char) : SpanOK (quoteChar c) := by
  have hu : ∀ a b d e : Nat, a ≠ 0x22 → a ≠ 0x5C → b ≠ 0x22 → b ≠ 0x5C → d ≠ 0x22 → d ≠ 0x5C →
      e ≠ 0x22 → e ≠ 0x5C → SpanOK [0x5C, 0x75, a, b, d, e] := by
    intro a b d e a1 a2 b1 b2 d1 d2 e1 e2
    exact spanOK_append (X := [0x5C, 0x75]) (spanOK_esc _)
      (spanOK_append (X := [a]) (spanOK_plain a1 a2)
        (spanOK_append (X := [b]) (spanOK_plain b1 b2)
          (spanOK_append (X := [d]) (spanOK_plain d1 d2) (spanOK_plain e1 e2))))
  unfold quoteChar
  simp only
  split_ifs with h1 h2 h3 h4 h5 h6
  · exact spanOK_esc _
  · exact spanOK_esc _
  · exact spanOK_esc _
  · exact spanOK_esc _
  · exact hu _ _ _ _ (by norm_num) (by norm_num) (by norm_num) (by norm_num)
      (hexDigit_plain _).1 (hexDigit_plain _).2 (hexDigit_plain _).1 (hexDigit_plain _).2
  · exact hu _ _ _ _ (by norm_num) (by norm_num) (by norm_num) (by norm_num)
      (by norm_num) (by norm_num) (hexDigit_plain _).1 (hexDigit_plain _).2
  · unfold utf8EncodeChar
    simp only
    split_ifs with ha hb hc
    · exact spanOK_plain (by omega) (by omega)
    · exact spanOK_append (X := [_]) (spanOK_plain (by omega) (by omega))
        (spanOK_plain (by omega) (by omega))
    · exact spanOK_append (X := [_]) (spanOK_plain (by omega) (by omega))
        (spanOK_append (X := [_]) (spanOK_plain (by omega) (by omega))
          (spanOK_plain (by omega) (by omega)))
    · exact spanOK_append (X := [_]) (spanOK_plain (by omega) (by omega))
        (spanOK_append (X := [_]) (spanOK_plain (by omega) (by omega))
          (spanOK_append (X := [_]) (spanOK_plain (by omega) (by omega))
            (spanOK_plain (by omega) (by omega))))

/-- The inside of a string literal written by the string encoder is passed over. -/
theorem spanOK_body (cs : List Char) : SpanOK (cs.flatMap quoteChar) := by
  induction cs with
  | nil => exact spanOK_nil
  | cons c cs ih =>
    rw [List.flatMap_cons]
    exact spanOK_append (spanOK_quoteChar c) ih

/-- The decoder finds the end of a string literal written by the string encoder. -/
theorem spanString_quote (str : String) (rest : Bytes) :
    spanString (str.data.flatMap quoteChar ++ 0x22 :: rest) =
      some (str.data.flatMap quoteChar, rest) := by
  rw [spanOK_body str.data (0x22 :: rest) (by simp)]
  cases rest <;> simp [spanString]

/-- The first byte of an encoded value: no space and no closing bracket, and not the `n` of
`null` unless the value is `nil`. -/
theorem encode_head (x : Value) (V : Bytes) (h : encodeValue x = some V) :
    ∃ c tl, V = c :: tl ∧ isSpace c = false ∧ c ≠ 0x5D ∧ c ≠ 0x7D ∧
      (x ≠ Value.null → c ≠ 0x6E) := by
  cases x with
  | null =>
    simp only [encodeValue, Option.some.injEq] at h
    exact ⟨_, _, h.symm, by decide, by decide, by decide, fun hx => absurd rfl hx⟩
  | bool b =>
    cases b <;> simp only [encodeValue, Option.some.injEq] at h <;>
      exact ⟨_, _, h.symm, by decide, by decide, by decide, fun _ => by decide⟩
  | number b =>
    by_cases hf : f64Finite b = true
    · simp only [encodeValue, hf, if_true, Option.some.injEq] at h
      obtain ⟨body, h1, h2⟩ := formatFloat_form b hf
      obtain ⟨_, d, tl, hd, hd1, hd2⟩ := numForm_bytes h2
      rw [← h, h1, hd]
      cases f64Neg b
      · refine ⟨d, tl, rfl, ?_, by omega, by omega, fun _ => by omega⟩
        simp only [isSpace, Bool.or_eq_false_iff, decide_eq_false_iff_not]
        omega
      · exact ⟨0x2D, d :: tl, rfl, by decide, by decide, by decide, fun _ => by decide⟩
    · simp [encodeValue, hf] at h
  | string s =>
    simp only [encodeValue, Option.some.injEq] at h
    exact ⟨_, _, h.symm, by decide, by decide, by decide, fun _ => by decide⟩
  | array xs =>
    cases hes : encodeElems xs with
    | none => simp [encodeValue, hes] at h
    | some es =>
      simp only [encodeValue, hes, Option.some.injEq] at h
      exact ⟨_, _, h.symm, by decide, by decide, by decide, fun _ => by decide⟩
  | object fs =>
    cases hes : encodeFields fs with
    | none => simp [encodeValue, hes] at h
    | some es =>
      simp only [encodeValue, hes, Option.some.injEq] at h
      exact ⟨_, _, h.symm, by decide, by decide, by decide, fun _ => by decide⟩

/-- What can follow a value does not start with a space or a byte of a number. -/
theorem delim_head {rest : Bytes} (h : Delim rest) :
    rest.dropWhile isSpace = rest ∧ ∀ c, rest.head? = some c → isNumberByte c = false := by
  cases rest with
  | nil => exact ⟨rfl, by simp⟩
  | cons c rest =>
    have hc := h c rfl
    constructor
    · rcases hc with rfl | rfl | rfl <;> rfl
    · intro d hd
      simp only [List.head?_cons, Option.some.injEq] at hd
      rw [← hd]
      rcases hc with rfl | rfl | rfl <;> rfl

/-- The decoder reads what the encoder writes for a valid string. -/
theorem parse_string (s : Bytes) (hs : validUTF8 s = true) (fuel : Nat) (rest : Bytes) :
    parseValue (fuel + 1) (quoteBytes s ++ rest) = some (Value.string s, false, rest) := by
  obtain ⟨str, rfl⟩ := validUTF8_text hs
  rw [quoteBytes_bytesOf]
  have hq : quote str ++ rest = 0x22 :: (str.data.flatMap quoteChar ++ 0x22 :: rest) := by
    simp [quote]
  rw [hq, parseValue_cons _ _ _ (by decide)]
  simp only [show (0x22 : Nat) ≠ 0x7B by decide, show (0x22 : Nat) ≠ 0x5B by decide, if_false,
    if_true, spanString_quote]
  have := unquote_quote str
  unfold quote at this
  simp only [this]

/-- The decoder reads what the encoder writes for a finite number. -/
theorem parse_number (b : Nat) (hb : f64Finite b = true) (fuel : Nat) (rest : Bytes)
    (hrest : Delim rest) :
    parseValue (fuel + 1) (formatFloat b ++ rest) = some (Value.number b, false, rest) := by
  obtain ⟨body, h1, h2⟩ := formatFloat_form b hb
  obtain ⟨hnb, d, tl, hd, hd1, hd2⟩ := numForm_bytes h2
  have hall : ∀ x ∈ formatFloat b, isNumberByte x = true := by
    intro x hx
    rw [h1] at hx
    rcases List.mem_append.mp hx with hx | hx
    · split_ifs at hx
      · simp only [List.mem_singleton] at hx
        rw [hx]
        rfl
      · simp at hx
    · exact hnb x hx
  obtain ⟨c, tl1, hc, hc1, hc2⟩ : ∃ c tl1, formatFloat b = c :: tl1 ∧ isSpace c = false ∧
      (c = 0x2D ∨ (0x30 ≤ c ∧ c ≤ 0x39)) := by
    rw [h1, hd]
    cases f64Neg b
    · refine ⟨d, tl, rfl, ?_, Or.inr ⟨hd1, hd2⟩⟩
      simp only [isSpace, Bool.or_eq_false_iff, decide_eq_false_iff_not]
      omega
    · exact ⟨0x2D, d :: tl, rfl, by decide, Or.inl rfl⟩
  have htw := takeWhile_run isNumberByte (formatFloat b) rest hall (delim_head hrest).2
  have hdw := dropWhile_run isNumberByte (formatFloat b) rest hall (delim_head hrest).2
  rw [hc] at htw hdw ⊢
  rw [List.cons_append] at htw hdw ⊢
  rw [parseValue_cons _ _ _ hc1]
  rw [if_neg (by omega), if_neg (by omega), if_neg (by omega), if_neg (by omega),
    if_neg (by omega), if_neg (by omega), htw, hdw, ← hc, parseFloat_formatFloat b hb]

/-- The length of the texts of a list with more than one element. -/
theorem joinComma_length (e : Bytes) (es : List Bytes) (h : es ≠ []) :
    (joinComma (e :: es)).length = e.length + 1 + (joinComma es).length := by
  rw [joinComma_cons e es h, List.length_append, List.length_cons]
  omega

mutual
/-- The decoder reads an encoded value back, with nothing out of range, and stops after
it. -/
theorem parse_value : ∀ (x : Value) (V : Bytes), x.WF = true → encodeValue x = some V →
    ∀ (fuel : Nat) (rest : Bytes), V.length < fuel → Delim rest →
      parseValue fuel (V ++ rest) = some (x, false, rest)
  | .null, V, _, hV, fuel, rest, hf, _ => by
    simp only [encodeValue, Option.some.injEq] at hV
    obtain ⟨f, rfl⟩ : ∃ f, fuel = f + 1 := ⟨fuel - 1, by omega⟩
    rw [← hV, List.cons_append, parseValue_cons _ _ _ (by decide)]
    rfl
  | .bool true, V, _, hV, fuel, rest, hf, _ => by
    simp only [encodeValue, Option.some.injEq] at hV
    obtain ⟨f, rfl⟩ : ∃ f, fuel = f + 1 := ⟨fuel - 1, by omega⟩
    rw [← hV, List.cons_append, parseValue_cons _ _ _ (by decide)]
    rfl
  | .bool false, V, _, hV, fuel, rest, hf, _ => by
    simp only [encodeValue, Option.some.injEq] at hV
    obtain ⟨f, rfl⟩ : ∃ f, fuel = f + 1 := ⟨fuel - 1, by omega⟩
    rw [← hV, List.cons_append, parseValue_cons _ _ _ (by decide)]
    rfl
  | .number b, V, hw, hV, fuel, rest, hf, hrest => by
    simp only [Value.WF] at hw
    simp only [encodeValue, hw, if_true, Option.some.injEq] at hV
    obtain ⟨f, rfl⟩ : ∃ f, fuel = f + 1 := ⟨fuel - 1, by omega⟩
    rw [← hV]
    exact parse_number b hw f rest hrest
  | .string s, V, hw, hV, fuel, rest, hf, _ => by
    simp only [Value.WF] at hw
    simp only [encodeValue, Option.some.injEq] at hV
    obtain ⟨f, rfl⟩ : ∃ f, fuel = f + 1 := ⟨fuel - 1, by omega⟩
    rw [← hV]
    exact parse_string s hw f rest
  | .array xs, V, hw, hV, fuel, rest, hf, _ => by
    simp only [Value.WF] at hw
    have hrec := parse_elems xs
    cases hes : encodeElems xs with
    | none => simp [encodeValue, hes] at hV
    | some es =>
      simp only [encodeValue, hes, Option.some.injEq] at hV
      rw [← hV] at hf ⊢
      simp only [List.length_cons, List.length_append, List.length_nil] at hf
      obtain ⟨f, rfl⟩ : ∃ f, fuel = f + 1 := ⟨fuel - 1, by omega⟩
      rw [List.cons_append, parseValue_cons _ _ _ (by decide), if_neg (by decide),
        if_pos rfl, List.append_assoc, List.singleton_append]
      cases xs with
      | nil =>
        simp only [encodeElems, Option.some.injEq] at hes
        rw [← hes]
        obtain ⟨g, rfl⟩ : ∃ g, f = g + 1 := ⟨f - 1, by omega⟩
        simp only [joinComma, List.nil_append]
        rw [parseElems_cons _ _ _ (by decide), if_pos rfl]
        rfl
      | cons y ys =>
        rw [hrec es hw hes (by simp) f rest (by omega)]
        rfl
  | .object fs, V, hw, hV, fuel, rest, hf, _ => by
    simp only [Value.WF, Bool.and_eq_true] at hw
    have hrec := parse_fields fs
    cases hes : encodeFields fs with
    | none => simp [encodeValue, hes] at hV
    | some es =>
      have hsort : sortByKey es = es := by
        apply sortByKey_sorted
        rw [encodeFields_keys fs es hes]
        exact keysIncrease_pairwise fs hw.1
      simp only [encodeValue, hes, hsort, Option.some.injEq] at hV
      rw [← hV] at hf ⊢
      simp only [List.length_cons, List.length_append, List.length_nil] at hf
      obtain ⟨f, rfl⟩ : ∃ f, fuel = f + 1 := ⟨fuel - 1, by omega⟩
      rw [List.cons_append, parseValue_cons _ _ _ (by decide), if_pos rfl, List.append_assoc,
        List.singleton_append]
      cases fs with
      | nil =>
        simp only [encodeFields, Option.some.injEq] at hes
        rw [← hes]
        obtain ⟨g, rfl⟩ : ∃ g, f = g + 1 := ⟨f - 1, by omega⟩
        simp only [List.map_nil, joinComma, List.nil_append]
        rw [parseFields_cons _ _ _ _ (by decide), if_pos rfl]
        rfl
      | cons y ys =>
        rw [hrec es hw.2 hes (by simp) hw.1 [] (by simp) f rest (by omega)]
        rfl
/-- The decoder reads the elements of an encoded array back. -/
theorem parse_elems : ∀ (xs : List Value) (es : List Bytes), Value.WFList xs = true →
    encodeElems xs = some es → xs ≠ [] →
    ∀ (fuel : Nat) (rest : Bytes), (joinComma es).length + 1 < fuel →
      parseElems fuel (joinComma es ++ 0x5D :: rest) = some (xs, false, rest)
  | [], _, _, _, hne, _, _, _ => absurd rfl hne
  | x :: xs, es, hw, hes, _, fuel, rest, hf => by
    simp only [Value.WFList, Bool.and_eq_true] at hw
    have hrec := parse_elems xs
    cases he : encodeValue x with
    | none => simp [encodeElems, he] at hes
    | some e =>
      cases hes1 : encodeElems xs with
      | none => simp [encodeElems, he, hes1] at hes
      | some es1 =>
        simp only [encodeElems, he, hes1, Option.some.injEq] at hes
        rw [← hes] at hf ⊢
        obtain ⟨c, tl, hc, hc1, hc2, _, _⟩ := encode_head x e he
        obtain ⟨f, rfl⟩ : ∃ f, fuel = f + 1 := ⟨fuel - 1, by omega⟩
        cases xs with
        | nil =>
          simp only [encodeElems, Option.some.injEq] at hes1
          rw [← hes1] at hf ⊢
          simp only [joinComma] at hf ⊢
          have hv := parse_value x e hw.1 he f (0x5D :: rest) (by omega)
            (fun d hd => by simp at hd; omega)
          rw [hc] at hv ⊢
          rw [List.cons_append] at hv ⊢
          rw [parseElems_cons _ _ _ hc1, if_neg hc2, hv]
          rfl
        | cons y ys =>
          have hne1 := encodeElems_ne _ _ hes1 (by simp)
          rw [joinComma_length e es1 hne1] at hf
          rw [joinComma_cons e es1 hne1]
          have hv := parse_value x e hw.1 he f (0x2C :: (joinComma es1 ++ 0x5D :: rest))
            (by omega) (fun d hd => by simp at hd; omega)
          have hr := hrec es1 hw.2 hes1 (by simp) f rest (by
            have : 1 ≤ e.length := by rw [hc]; simp
            omega)
          rw [List.append_assoc, List.cons_append]
          rw [hc] at hv ⊢
          rw [List.cons_append] at hv ⊢
          rw [parseElems_cons _ _ _ hc1, if_neg hc2, hv]
          simp only [List.dropWhile, show isSpace 0x2C = false by decide]
          rw [if_neg (by decide), hr]
          rfl
/-- The decoder reads the entries of an encoded object back, after the entries `m` with
lesser keys. -/
theorem parse_fields : ∀ (fs : List (Bytes × Value)) (es : List (Bytes × Bytes)),
    Value.WFFields fs = true → encodeFields fs = some es → fs ≠ [] →
    keysIncrease fs = true →
    ∀ m : List (Bytes × Value), (∀ f ∈ m, ∀ g ∈ fs, bytesLT f.1 g.1 = true) →
    ∀ (fuel : Nat) (rest : Bytes),
      (joinComma (es.map (fun e : Bytes × Bytes => quoteBytes e.1 ++ 0x3A :: e.2))).length + 1
        < fuel →
      parseFields fuel m
          (joinComma (es.map (fun e : Bytes × Bytes => quoteBytes e.1 ++ 0x3A :: e.2)) ++
            0x7D :: rest) =
        some (m ++ fs, false, rest)
  | [], _, _, _, hne, _, _, _, _, _, _ => absurd rfl hne
  | (key, x) :: fs, es, hw, hes, _, hk, m, hm, fuel, rest, hf => by
    simp only [Value.WFFields, Bool.and_eq_true] at hw
    have hrec := parse_fields fs
    obtain ⟨hk1, hk2⟩ := keysIncrease_tail (key, x) fs hk
    cases he : encodeValue x with
    | none => simp [encodeFields, he] at hes
    | some e =>
      cases hes1 : encodeFields fs with
      | none => simp [encodeFields, he, hes1] at hes
      | some es1 =>
        simp only [encodeFields, he, hes1, Option.some.injEq] at hes
        rw [← hes] at hf ⊢
        obtain ⟨c, tl, hc, hc1, _, _, _⟩ := encode_head x e he
        obtain ⟨str, hstr⟩ := validUTF8_text hw.1.1
        have hq : quoteBytes key = 0x22 :: (str.data.flatMap quoteChar ++ [0x22]) := by
          rw [hstr, quoteBytes_bytesOf]
          rfl
        have huq : unquote (0x22 :: (str.data.flatMap quoteChar ++ [0x22])) = some str :=
          unquote_quote str
        have hins : insertField key x m = m ++ [(key, x)] :=
          insertField_last key x m (fun f hf => hm f hf (key, x) (by simp))
        have hlen : 1 ≤ e.length := by rw [hc]; simp
        obtain ⟨f, rfl⟩ : ∃ f, fuel = f + 1 := ⟨fuel - 1, by omega⟩
        rw [List.map_cons] at hf ⊢
        cases fs with
        | nil =>
          simp only [encodeFields, Option.some.injEq] at hes1
          rw [← hes1] at hf ⊢
          simp only [List.map_nil, joinComma, List.length_append, List.length_cons] at hf ⊢
          have hv := parse_value x e hw.1.2 he f (0x7D :: rest) (by omega)
            (fun d hd => by simp at hd; omega)
          rw [hq]
          simp only [List.cons_append, List.append_assoc, List.nil_append]
          rw [parseFields_cons _ _ _ _ (by decide), if_neg (by decide), spanString_quote]
          simp only [huq, List.dropWhile, show isSpace 0x3A = false by decide, List.drop_succ_cons,
            List.drop_zero, hv, show isSpace 0x7D = false by decide, if_true, ← hstr, hins]
        | cons y ys =>
          have hne1 := encodeFields_ne _ _ hes1 (by simp)
          have hne2 : es1.map (fun e : Bytes × Bytes => quoteBytes e.1 ++ 0x3A :: e.2) ≠ [] := by
            simpa using hne1
          rw [joinComma_length _ _ hne2] at hf
          rw [joinComma_cons _ _ hne2]
          simp only [List.length_append, List.length_cons] at hf
          have hv := parse_value x e hw.1.2 he f
            (0x2C :: (joinComma (es1.map (fun e : Bytes × Bytes => quoteBytes e.1 ++ 0x3A :: e.2))
              ++ 0x7D :: rest))
            (by omega) (fun d hd => by simp at hd; omega)
          have hr := hrec es1 hw.2 hes1 (by simp) hk1 (m ++ [(key, x)])
            (by
              intro f1 hf1 g hg
              rcases List.mem_append.mp hf1 with hf1 | hf1
              · exact hm f1 hf1 g (List.mem_cons_of_mem _ hg)
              · simp only [List.mem_singleton] at hf1
                rw [hf1]
                exact hk2 g hg)
            f rest (by omega)
          rw [hq]
          simp only [List.cons_append, List.append_assoc, List.nil_append]
          rw [parseFields_cons _ _ _ _ (by decide), if_neg (by decide), spanString_quote]
          simp only [huq, List.dropWhile, show isSpace 0x3A = false by decide, List.drop_succ_cons,
            List.drop_zero, hv, show isSpace 0x2C = false by decide,
            show (0x2C : Nat) ≠ 0x7D by decide, if_false, ← hstr, hins, hr]
          simp
end

/-- Decoding the text of an encoded value gives the value, with nothing out of range. -/
theorem decodeValue_encodeValue (x : Value) (V : Bytes) (hw : x.WF = true)
    (hV : encodeValue x = some V) : decodeValue V = some (x, false) := by
  unfold decodeValue
  have := parse_value x V hw hV (2 * V.length + 2) [] (by omega) (fun c hc => by simp at hc)
  rw [List.append_nil] at this
  rw [this]
  rfl

mutual
/-- A well-formed value can be encoded. -/
theorem encode_total : ∀ x : Value, x.WF = true → ∃ V, encodeValue x = some V
  | .null, _ => ⟨_, rfl⟩
  | .bool true, _ => ⟨_, rfl⟩
  | .bool false, _ => ⟨_, rfl⟩
  | .number b, hw => by
    simp only [Value.WF] at hw
    simp only [encodeValue, hw, if_true]
    exact ⟨_, rfl⟩
  | .string _, _ => ⟨_, rfl⟩
  | .array xs, hw => by
    simp only [Value.WF] at hw
    obtain ⟨es, hes⟩ := encode_total_elems xs hw
    simp only [encodeValue, hes]
    exact ⟨_, rfl⟩
  | .object fs, hw => by
    simp only [Value.WF, Bool.and_eq_true] at hw
    obtain ⟨es, hes⟩ := encode_total_fields fs hw.2
    simp only [encodeValue, hes]
    exact ⟨_, rfl⟩
/-- The elements of a well-formed array can be encoded. -/
theorem encode_total_elems : ∀ xs : List Value, Value.WFList xs = true →
    ∃ es, encodeElems xs = some es
  | [], _ => ⟨_, rfl⟩
  | x :: xs, hw => by
    simp only [Value.WFList, Bool.and_eq_true] at hw
    obtain ⟨e, he⟩ := encode_total x hw.1
    obtain ⟨es, hes⟩ := encode_total_elems xs hw.2
    simp only [encodeElems, he, hes]
    exact ⟨_, rfl⟩
/-- The entries of a well-formed map can be encoded. -/
theorem encode_total_fields : ∀ fs : List (Bytes × Value), Value.WFFields fs = true →
    ∃ es, encodeFields fs = some es
  | [], _ => ⟨_, rfl⟩
  | (k, x) :: fs, hw => by
    simp only [Value.WFFields, Bool.and_eq_true] at hw
    obtain ⟨e, he⟩ := encode_total x hw.1.2
    obtain ⟨es, hes⟩ := encode_total_fields fs hw.2
    simp only [encodeFields, he, hes]
    exact ⟨_, rfl⟩
end

/-- The text of an encoded value is read as one value of the top-level object. -/
theorem valOK_encode (x : Value) (V : Bytes) (hw : x.WF = true) (hV : encodeValue x = some V)
    (hd : x.depth < maxNestingDepth) : ValOK V := by
  intro k
  obtain ⟨t, ⟨n, hn, ht⟩, hseg⟩ := valSeg_value x V hw hV [] (by simp; omega) .beginValue k
    (Or.inl rfl)
  exact ⟨t, ⟨n, hn, ht⟩, hseg⟩

/-- The text written for the method is read as one value. -/
theorem methodField_valOK (method : Bytes) (h : validUTF8 method = true) :
    ∀ f ∈ methodField method, ValOK f.2 := by
  intro f hf
  unfold methodField at hf
  split_ifs at hf
  · simp at hf
  · simp only [List.mem_singleton] at hf
    subst hf
    obtain ⟨str, rfl⟩ := validUTF8_text h
    rw [quoteBytes_bytesOf]
    exact valOK_quote str

/-- The text written for the error is read as one value. -/
theorem errorField_valOK (err : Option Value) (h : ErrOK err) :
    ∀ f ∈ errorField err, ValOK f.2 := by
  intro f hf
  cases err with
  | none => simp [errorField] at hf
  | some x =>
    obtain ⟨_, hw, hd⟩ := h
    cases hV : encodeValue x with
    | none => simp [errorField, hV] at hf
    | some V =>
      simp only [errorField, hV, List.mem_singleton] at hf
      subst hf
      exact valOK_encode x V hw hV hd

/-- The bytes of an encoded message. -/
theorem marshalMessage_eq (v : JsonrpcMessage) (hE : ErrOK v.Error) (hID : RawOK v.ID)
    (hP : RawOK v.Params) (hR : RawOK v.Result) :
    marshalMessage v = .ok (0x7B :: (quote "jsonrpc" ++ 0x3A :: (quoteBytes v.Version ++
      (encodeRest (restFields v) ++ [0x7D])))) := by
  have hm : (if v.Method.isEmpty then []
      else 0x2C :: (quote "method" ++ 0x3A :: quoteBytes v.Method))
      = encodeRest (methodField v.Method) := by
    unfold methodField
    split_ifs <;> simp [encodeRest]
  cases hx : v.Error with
  | none =>
    simp only [marshalMessage, hx, marshalRaw_eq hID, marshalRaw_eq hP, marshalRaw_eq hR, hm,
      restFields, encodeRest_append, errorField]
    simp [encodeRest]
  | some x =>
    rw [hx] at hE
    obtain ⟨V, hV⟩ := encode_total x hE.2.1
    simp only [marshalMessage, hx, hV, marshalRaw_eq hID, marshalRaw_eq hP, marshalRaw_eq hR, hm,
      restFields, encodeRest_append, errorField, Option.map_some']
    simp [encodeRest]

/-- The decoder stores the member `jsonrpc`. -/
theorem storeMember_jsonrpc (msg : JsonrpcMessage) (bad : Bool) (ver : String) :
    storeMember (msg, bad) (quote "jsonrpc", quote ver) =
      ({ msg with Version := bytesOf ver }, bad) := by
  have hf : fieldOf "jsonrpc" = some .jsonrpc := by decide
  simp only [storeMember, unquote_quote, hf, quote_head, if_true]

/-- The decoder stores the member `method`. -/
theorem storeMember_method (msg : JsonrpcMessage) (bad : Bool) (m : String) :
    storeMember (msg, bad) (quote "method", quote m) =
      ({ msg with Method := bytesOf m }, bad) := by
  have hf : fieldOf "method" = some .method := by decide
  simp only [storeMember, unquote_quote, hf, quote_head, if_true]

/-- The decoder stores the member `error` that holds an encoded value other than `nil`. -/
theorem storeMember_error (msg : JsonrpcMessage) (bad : Bool) (x : Value) (V : Bytes)
    (hx : x ≠ Value.null) (hw : x.WF = true) (hV : encodeValue x = some V) :
    storeMember (msg, bad) (quote "error", V) = ({ msg with Error := some x }, bad) := by
  have hf : fieldOf "error" = some .error := by decide
  obtain ⟨c, tl, hc, _, _, _, hn⟩ := encode_head x V hV
  have hh : ¬ (V.head? = some 0x6E) := by
    rw [hc]
    simpa using hn hx
  simp only [storeMember, unquote_quote, hf, hh, if_false,
    decodeValue_encodeValue x V hw hV, Bool.or_false]

/-- The decoder stores the members of an encoded message. -/
theorem foldl_storeMember (v : JsonrpcMessage) (ver : String) (hver : v.Version = bytesOf ver)
    (hM : validUTF8 v.Method = true) (hE : ErrOK v.Error) :
    (((quote "jsonrpc", quote ver) ::
        (restFields v).map (fun f => (quote f.1, f.2))).foldl storeMember
      (JsonrpcMessage.zero, false)) = (compacted v, false) := by
  obtain ⟨m, hm⟩ := validUTF8_text hM
  have hmf : ∀ acc : JsonrpcMessage × Bool,
      ((methodField v.Method).map (fun f => (quote f.1, f.2))).foldl storeMember acc =
        (if v.Method.isEmpty then acc else ({ acc.1 with Method := v.Method }, acc.2)) := by
    intro acc
    unfold methodField
    split_ifs with h
    · rfl
    · rw [hm, quoteBytes_bytesOf]
      simp only [List.map_cons, List.map_nil, List.foldl_cons, List.foldl_nil]
      exact storeMember_method acc.1 acc.2 m
  have hef : ∀ acc : JsonrpcMessage × Bool,
      ((errorField v.Error).map (fun f => (quote f.1, f.2))).foldl storeMember acc =
        ({ acc.1 with Error := if v.Error = none then acc.1.Error else v.Error }, acc.2) := by
    intro acc
    cases hx : v.Error with
    | none => rfl
    | some x =>
      rw [hx] at hE
      obtain ⟨V, hV⟩ := encode_total x hE.2.1
      simp only [errorField, hV, List.map_cons, List.map_nil, List.foldl_cons, List.foldl_nil]
      exact storeMember_error acc.1 acc.2 x V hE.1 hE.2.1 hV
  have hrf : ∀ (name : String) (raw : Bytes) (acc : JsonrpcMessage × Bool)
      (set : JsonrpcMessage → Bytes → JsonrpcMessage),
      (∀ (msg : JsonrpcMessage) (bad : Bool) (c : Bytes),
        storeMember (msg, bad) (quote name, c) = (set msg c, bad)) →
      ((rawField name raw).map (fun f => (quote f.1, f.2))).foldl storeMember acc =
        (match compact raw with
          | some c => (set acc.1 c, acc.2)
          | none => acc) := by
    intro name raw acc set hset
    unfold rawField
    cases compact raw with
    | none => rfl
    | some c => exact hset acc.1 acc.2 c
  have hempty : v.Method.isEmpty = true → v.Method = [] := by
    intro h
    cases hmm : v.Method with
    | nil => rfl
    | cons a b => rw [hmm] at h; exact absurd h (by simp)
  simp only [restFields, List.foldl_cons, List.map_append, List.foldl_append,
    storeMember_jsonrpc, hmf, hef,
    hrf "id" v.ID _ (fun msg c => { msg with ID := c }) storeMember_id,
    hrf "params" v.Params _ (fun msg c => { msg with Params := c }) storeMember_params,
    hrf "result" v.Result _ (fun msg c => { msg with Result := c }) storeMember_result]
  by_cases h4 : v.Method.isEmpty = true
  · have h5 := hempty h4
    cases h1 : compact v.ID <;> cases h2 : compact v.Params <;> cases h3 : compact v.Result <;>
      cases h6 : v.Error <;>
      simp [h1, h2, h3, h4, h5, h6, hver, compacted, JsonrpcMessage.zero]
  · cases h1 : compact v.ID <;> cases h2 : compact v.Params <;> cases h3 : compact v.Result <;>
      cases h6 : v.Error <;>
      simp [h1, h2, h3, h4, h6, hver, compacted, JsonrpcMessage.zero]

/-- A text in compact form is its own compact form. -/
theorem compact_getD_tight {raw : Bytes} (h : RawOK raw) (ht : tight raw = true) :
    (compact raw).getD [] = raw := by
  rcases h with rfl | ⟨h1, _⟩
  · rfl
  · rw [← compact_isSome] at h1
    cases hc : compact raw with
    | some out =>
      rw [compact_tight hc ht]
      rfl
    | none => simp [hc] at h1

/-! ## Properties -/

/-- C1: `GetTestJson` depends only on the connection mode.  In Pull (RPC) mode
it returns the bytes `\x7b"jsonrpc":"2.0","id":1,"method":"hmy_blockNumber"\x7d`,
which are the encoding of the envelope with version "2.0", id 1, method
"hmy_blockNumber" and no params, result or error, and which decode to that
envelope; in Push (WS) mode and in every other mode it returns nil. -/
theorem GetTestJson_by_mode :
    (∀ h : hmyManager, GetTestJson h =
      if h.p = SubscriberType.RPC then
        some (bytesOf "\x7b\"jsonrpc\":\"2.0\",\"id\":1,\"method\":\"hmy_blockNumber\"\x7d")
      else none) ∧
    marshalMessage
        { Version := bytesOf "2.0", ID := bytesOf "1", Method := bytesOf "hmy_blockNumber",
          Params := [], Error := none, Result := [] } =
      .ok (bytesOf "\x7b\"jsonrpc\":\"2.0\",\"id\":1,\"method\":\"hmy_blockNumber\"\x7d") ∧
    unmarshalMessage
        (bytesOf "\x7b\"jsonrpc\":\"2.0\",\"id\":1,\"method\":\"hmy_blockNumber\"\x7d") =
      .ok { Version := bytesOf "2.0", ID := bytesOf "1", Method := bytesOf "hmy_blockNumber",
            Params := [], Error := none, Result := [] } := by
  have hm : marshalMessage testRequest =
      .ok (bytesOf "\x7b\"jsonrpc\":\"2.0\",\"id\":1,\"method\":\"hmy_blockNumber\"\x7d") := by
    decide
  refine ⟨?_, hm, by decide⟩
  intro h
  unfold GetTestJson
  rw [hm]

/-- C2: for a Pull-mode (RPC) manager, whatever its cursor, and input that
decodes as an envelope whose result decodes as the string `s`,
`ParseTestResponse` reports success and the manager afterwards is the manager
before with the cursor `fq.FromBlock` replaced by `s`: scope, mode, endpoint
label and subscription id are unchanged.  In particular the response with
result "0x10" leaves the cursor of any Pull-mode manager at "0x10", the block
number 16. -/
theorem ParseTestResponse_sets_cursor :
    (∀ (h : hmyManager) (data : Bytes) (msg : JsonrpcMessage) (s : String),
      h.p = SubscriberType.RPC →
      unmarshalMessage data = .ok msg →
      unmarshalString msg.Result = .ok s →
      ParseTestResponse h data =
        (none, { fq := { Addresses := h.fq.Addresses, Topics := h.fq.Topics, FromBlock := s },
                 p := h.p, endpointName := h.endpointName, jobid := h.jobid })) ∧
    (∀ h : hmyManager, h.p = SubscriberType.RPC →
      (ParseTestResponse h
          (bytesOf "\x7b\"jsonrpc\":\"2.0\",\"id\":1,\"result\":\"0x10\"\x7d")).1 = none ∧
      (ParseTestResponse h
          (bytesOf "\x7b\"jsonrpc\":\"2.0\",\"id\":1,\"result\":\"0x10\"\x7d")).2.fq.FromBlock
        = "0x10") ∧
    blockNumber "0x10" = some 16 := by
  have general : ∀ (h : hmyManager) (data : Bytes) (msg : JsonrpcMessage) (s : String),
      h.p = SubscriberType.RPC →
      unmarshalMessage data = .ok msg →
      unmarshalString msg.Result = .ok s →
      ParseTestResponse h data =
        (none, { fq := { Addresses := h.fq.Addresses, Topics := h.fq.Topics, FromBlock := s },
                 p := h.p, endpointName := h.endpointName, jobid := h.jobid }) := by
    intro h data msg s hp hmsg hres
    simp [ParseTestResponse, hp, hmsg, hres]
  refine ⟨general, ?_, by decide⟩
  intro h hp
  have hmsg : unmarshalMessage
      (bytesOf "\x7b\"jsonrpc\":\"2.0\",\"id\":1,\"result\":\"0x10\"\x7d") =
      .ok { Version := bytesOf "2.0", ID := bytesOf "1", Method := [], Params := [], Error := none,
            Result := bytesOf "\"0x10\"" } := by decide
  have hres : unmarshalString (bytesOf "\"0x10\"") = .ok "0x10" := by decide
  rw [general h _ _ "0x10" hp hmsg hres]
  exact ⟨rfl, rfl⟩

/-- Witness of C2: the health check answered with result "0x10" on the
Pull-mode manager whose cursor is unset. -/
theorem ParseTestResponse_sets_cursor_witness :
    ParseTestResponse rpcManager headResponse =
      (none, { rpcManager with fq := { rpcManager.fq with FromBlock := "0x10" } }) :=
  ParseTestResponse_sets_cursor.1 rpcManager headResponse
    { Version := bytesOf "2.0", ID := bytesOf "1", Method := [], Params := [], Error := none,
      Result := bytesOf "\"0x10\"" }
    "0x10" rfl (by decide) (by decide)

/-- C3: for a Pull-mode manager, whenever `ParseTestResponse` signals an error
the manager after the call, the cursor included, is the manager before the
call.  Input that does not decode as an envelope produces that decoding error,
and so does an envelope whose result does not decode as a string; an absent
result is such a case. -/
theorem ParseTestResponse_error_keeps_state :
    (∀ (h : hmyManager) (data : Bytes) (err : JsonError),
      h.p = SubscriberType.RPC →
      (ParseTestResponse h data).1 = some err →
      (ParseTestResponse h data).2 = h) ∧
    (∀ (h : hmyManager) (data : Bytes) (err : JsonError),
      h.p = SubscriberType.RPC →
      unmarshalMessage data = .error err →
      ParseTestResponse h data = (some err, h)) ∧
    (∀ (h : hmyManager) (data : Bytes) (msg : JsonrpcMessage) (err : JsonError),
      h.p = SubscriberType.RPC →
      unmarshalMessage data = .ok msg →
      unmarshalString msg.Result = .error err →
      ParseTestResponse h data = (some err, h)) ∧
    unmarshalString [] = .error JsonError.SyntaxError := by
  refine ⟨?_, ?_, ?_, by decide⟩
  · intro h data err hp herr
    unfold ParseTestResponse at herr ⊢
    rw [if_pos hp] at herr ⊢
    cases hmsg : unmarshalMessage data with
    | error e => simp
    | ok msg =>
      cases hres : unmarshalString msg.Result with
      | error e => simp [hres]
      | ok res => simp [hmsg, hres] at herr
  · intro h data err hp hmsg
    simp [ParseTestResponse, hp, hmsg]
  · intro h data msg err hp hmsg hres
    simp [ParseTestResponse, hp, hmsg, hres]

/-- Witness of C3: a response cut off in the middle is a syntax error and
leaves the Pull-mode manager as it was. -/
theorem ParseTestResponse_error_keeps_state_witness :
    ParseTestResponse rpcManager truncatedResponse = (some JsonError.SyntaxError, rpcManager) ∧
    (ParseTestResponse rpcManager truncatedResponse).2 = rpcManager :=
  ⟨ParseTestResponse_error_keeps_state.2.1 rpcManager truncatedResponse JsonError.SyntaxError
      rfl (by decide),
   ParseTestResponse_error_keeps_state.1 rpcManager truncatedResponse JsonError.SyntaxError
      rfl (by decide)⟩

/-- C4: for a Push-mode (WS) manager and any bytes, decodable or not,
`ParseTestResponse` returns a nil error and leaves the whole manager, the
cursor included, unchanged. -/
theorem ParseTestResponse_ws_noop (h : hmyManager) (data : Bytes)
    (hp : h.p = SubscriberType.WS) :
    ParseTestResponse h data = (none, h) := by
  simp [ParseTestResponse, hp]

/-- Witness of C4: a Push-mode manager fed a response cut off in the middle. -/
theorem ParseTestResponse_ws_noop_witness :
    ParseTestResponse wsManager truncatedResponse = (none, wsManager) :=
  ParseTestResponse_ws_noop wsManager truncatedResponse rfl

/-- C5: for a manager in any mode and bytes that do not decode as an envelope,
`ParseResponse` returns no events and `ok = false`, and the manager after the
call is the manager before it, so cursor and filter scope are unchanged. -/
theorem ParseResponse_decode_failure (h : hmyManager) (data : Bytes) (err : JsonError)
    (hdata : unmarshalMessage data = .error err) :
    ParseResponse h data = ([], false, h) ∧
    (ParseResponse h data).2.2.fq.FromBlock = h.fq.FromBlock ∧
    (ParseResponse h data).2.2.fq.Addresses = h.fq.Addresses ∧
    (ParseResponse h data).2.2.fq.Topics = h.fq.Topics := by
  have hr : ParseResponse h data = ([], false, h) := by
    simp [ParseResponse, hdata]
  rw [hr]
  exact ⟨rfl, rfl, rfl, rfl⟩

/-- Witness of C5: a response cut off in the middle, fed to a Pull-mode
manager. -/
theorem ParseResponse_decode_failure_witness :
    ParseResponse rpcManager truncatedResponse = ([], false, rpcManager) :=
  (ParseResponse_decode_failure rpcManager truncatedResponse JsonError.SyntaxError
    (by decide)).1

/-- C6: for a manager whose mode is neither Push (WS) nor Pull (RPC) and any
input bytes, well-formed or not, `ParseResponse` returns no events and
`ok = false` and leaves the manager unchanged. -/
theorem ParseResponse_unknown_mode (h : hmyManager) (data : Bytes)
    (hws : h.p ≠ SubscriberType.WS) (hrpc : h.p ≠ SubscriberType.RPC) :
    ParseResponse h data = ([], false, h) := by
  unfold ParseResponse
  cases hmsg : unmarshalMessage data with
  | error e => rfl
  | ok msg =>
    cases hp : h.p with
    | WS => exact absurd hp hws
    | RPC => exact absurd hp hrpc
    | other tag => rfl

/-- Witness of C6: a manager of another mode fed a well-formed response. -/
theorem ParseResponse_unknown_mode_witness :
    ParseResponse otherManager headResponse = ([], false, otherManager) :=
  ParseResponse_unknown_mode otherManager headResponse (by decide) (by decide)

/-- C7, the code at the failing inputs: `GetTriggerJson` returns nil for a
Push-mode and for a Pull-mode manager, where its comment and the spec promise a
"hmy_subscribe" and a "hmy_getLogs" request. -/
theorem GetTriggerJson_returns_nil :
    GetTriggerJson wsManager = none ∧ GetTriggerJson rpcManager = none :=
  ⟨rfl, rfl⟩

/-- C8, the code at the failing inputs: for a Pull-mode manager `ParseResponse`
returns `ok = true` and no event at all, both for the batch with two live
entries (blocks 5 and 7) and for the batch whose block-7 entry is removed,
where the spec promises two events and one event. -/
theorem ParseResponse_rpc_yields_no_events :
    (ParseResponse rpcLatestManager batchLive).1 = [] ∧
    (ParseResponse rpcLatestManager batchLive).2.1 = true ∧
    (ParseResponse rpcLatestManager batchMixed).1 = [] ∧
    (ParseResponse rpcLatestManager batchMixed).2.1 = true := by
  decide!

/-- C9, the code at the failing inputs: after `ParseResponse` on the batch with
live blocks 5 and 7, and on the batch with block 7 removed, the cursor of a
Pull-mode manager is still `latest` (and still unset when it was unset), where
the spec promises "0x8" and "0x6". -/
theorem ParseResponse_rpc_keeps_cursor :
    (ParseResponse rpcLatestManager batchLive).2.2.fq.FromBlock = "latest" ∧
    (ParseResponse rpcLatestManager batchMixed).2.2.fq.FromBlock = "latest" ∧
    (ParseResponse rpcManager batchLive).2.2.fq.FromBlock = "" ∧
    (ParseResponse rpcManager batchMixed).2.2.fq.FromBlock = "" := by
  decide!

/-- C10 as stated fails: on a Pull-mode manager a health-check response with
result "0x10" makes the cursor concrete (16), and a second accepted response
moves it down to "0x5" (5), or back to the sentinel `latest`. -/
theorem cursor_not_monotone :
    cursorTrace rpcManager [.parseTestResponse headResponse,
      .parseTestResponse lowerHeadResponse] = ["0x10", "0x5"] ∧
    ¬ CursorMonotone (rpcManager.fq.FromBlock ::
      cursorTrace rpcManager [.parseTestResponse headResponse,
        .parseTestResponse lowerHeadResponse]) ∧
    cursorTrace rpcManager [.parseTestResponse headResponse,
      .parseTestResponse latestHeadResponse] = ["0x10", "latest"] ∧
    ¬ CursorMonotone (rpcManager.fq.FromBlock ::
      cursorTrace rpcManager [.parseTestResponse headResponse,
        .parseTestResponse latestHeadResponse]) := by
  unfold CursorMonotone
  decide

/-- C10 amended: for every manager and every sequence of manager operations
(`GetTriggerJson`, `GetTestJson`, `ParseTestResponse`, `ParseResponse`) on
arbitrary inputs such that the result strings of the health-check responses
which `ParseTestResponse` accepts in Pull mode, taken in order after the
initial cursor, respect one another (after a concrete block number every later
one is a concrete block number that is not smaller): once the cursor is a
concrete block number every later cursor value is a concrete block number
greater than or equal to it, and the cursor never again becomes `latest` or
unset. -/
theorem cursor_monotone_between_health_checks (h : hmyManager) (ops : List Op)
    (hres : CursorMonotone (h.fq.FromBlock :: acceptedResults h.p ops)) :
    CursorMonotone (h.fq.FromBlock :: cursorTrace h ops) := by
  induction ops generalizing h with
  | nil => simp [cursorTrace, CursorMonotone]
  | cons op ops ih =>
    have hp := run_p h op
    have hsame : (op.run h).fq.FromBlock = h.fq.FromBlock →
        acceptedResults h.p (op :: ops) = acceptedResults h.p ops →
        CursorMonotone (h.fq.FromBlock :: cursorTrace h (op :: ops)) := by
      intro hc ha
      rw [ha, ← hp, ← hc] at hres
      have := ih (op.run h) hres
      rw [hc] at this
      simp only [cursorTrace, hc]
      exact CursorMonotone_cons _ _ _ (advances_refl _) this
    cases op with
    | getTriggerJson => exact hsame rfl rfl
    | getTestJson => exact hsame rfl rfl
    | parseResponse data =>
      exact hsame (by simp only [Op.run, ParseResponse_state]) rfl
    | parseTestResponse data =>
      by_cases hrpc : h.p = SubscriberType.RPC
      · cases hmsg : unmarshalMessage data with
        | error e =>
          exact hsame (by simp [Op.run, ParseTestResponse, hrpc, hmsg])
            (by simp [acceptedResults, hrpc, hmsg])
        | ok msg =>
          cases hs : unmarshalString msg.Result with
          | error e =>
            exact hsame (by simp [Op.run, ParseTestResponse, hrpc, hmsg, hs])
              (by simp [acceptedResults, hrpc, hmsg, hs])
          | ok s =>
            have hc : ((Op.parseTestResponse data).run h).fq.FromBlock = s := by
              simp [Op.run, ParseTestResponse, hrpc, hmsg, hs]
            have ha : acceptedResults h.p (Op.parseTestResponse data :: ops) =
                s :: acceptedResults h.p ops := by
              simp [acceptedResults, hrpc, hmsg, hs]
            rw [ha] at hres
            have hres2 : CursorMonotone (s :: acceptedResults h.p ops) :=
              (List.pairwise_cons.mp hres).2
            have hcs : advances h.fq.FromBlock s = true :=
              (List.pairwise_cons.mp hres).1 s (List.mem_cons_self _ _)
            rw [← hp, ← hc] at hres2
            have := ih _ hres2
            simp only [cursorTrace]
            rw [hc] at this ⊢
            exact CursorMonotone_cons _ _ _ hcs this
      · exact hsame (by simp [Op.run, ParseTestResponse, hrpc])
          (by simp [acceptedResults, hrpc])

/-- Witness of C10 amended: a Pull-mode manager with unset cursor runs a health
check answered "0x10", a trigger request, a batch of logs and a second health
check answered "0x11"; the accepted results "0x10", "0x11" respect one another
and so do the cursor values. -/
theorem cursor_monotone_between_health_checks_witness :
    CursorMonotone (rpcManager.fq.FromBlock ::
      acceptedResults rpcManager.p [.getTestJson, .parseTestResponse headResponse,
        .getTriggerJson, .parseResponse headResponse,
        .parseTestResponse higherHeadResponse]) ∧
    CursorMonotone (rpcManager.fq.FromBlock ::
      cursorTrace rpcManager [.getTestJson, .parseTestResponse headResponse, .getTriggerJson,
        .parseResponse headResponse, .parseTestResponse higherHeadResponse]) :=
  ⟨by unfold CursorMonotone; decide,
    cursor_monotone_between_health_checks rpcManager
      [.getTestJson, .parseTestResponse headResponse, .getTriggerJson,
        .parseResponse headResponse, .parseTestResponse higherHeadResponse]
      (by unfold CursorMonotone; decide)⟩

/-- C11: for every manager and every finite sequence of inputs fed to
`ParseResponse`, each parsed successfully (`ok = true`), the cursor values
before the first call and after each call are non-decreasing as block numbers,
and no sentinel (`latest` or unset) appears after a concrete value. -/
theorem ParseResponse_sequence_monotone (h : hmyManager) (inputs : List Bytes)
    (hok : allParsed h inputs = true) :
    CursorMonotone (h.fq.FromBlock :: cursorTrace h (inputs.map Op.parseResponse)) := by
  induction inputs generalizing h with
  | nil => simp [cursorTrace, CursorMonotone]
  | cons data rest ih =>
    simp only [allParsed, Bool.and_eq_true] at hok
    have hstep : advances h.fq.FromBlock ((Op.parseResponse data).run h).fq.FromBlock = true := by
      simp only [Op.run, ParseResponse_state]
      exact advances_refl _
    exact CursorMonotone_cons _ _ _ hstep (ih ((Op.parseResponse data).run h) hok.2)

/-- Witness of C11: a Pull-mode manager whose cursor is `latest` parses the
batch with two live entries and then the batch with a removed entry. -/
theorem ParseResponse_sequence_monotone_witness :
    CursorMonotone (rpcLatestManager.fq.FromBlock ::
      cursorTrace rpcLatestManager ([batchLive, batchMixed].map Op.parseResponse)) :=
  ParseResponse_sequence_monotone rpcLatestManager [batchLive, batchMixed] (by decide!)

/-- C12 as stated fails: the Pull-mode manager with unset cursor accepts the
health-check response whose result is the text "16", and its cursor is then
"16", which is neither `latest`, nor unset, nor a 0x-prefixed hex number. -/
theorem cursor_wellFormed_not_invariant :
    wellFormedCursor rpcManager.fq.FromBlock = true ∧
    ParseTestResponse rpcManager decimalHeadResponse =
      (none, { rpcManager with fq := { rpcManager.fq with FromBlock := "16" } }) ∧
    wellFormedCursor
      ((Op.parseTestResponse decimalHeadResponse).run rpcManager).fq.FromBlock = false := by
  decide

/-- C12 amended: starting from a manager whose cursor is `latest`, unset or a
0x-prefixed hex block number, after any manager operation on any input the
cursor is again `latest`, unset or a 0x-prefixed hex block number, provided
that, when the operation is a `ParseTestResponse` in Pull mode on an envelope
it accepts, the result string of that envelope is itself `latest`, empty or a
0x-prefixed hex block number. -/
theorem cursor_wellFormed_preserved (h : hmyManager) (op : Op)
    (hwf : wellFormedCursor h.fq.FromBlock = true)
    (hres : ∀ (data : Bytes) (msg : JsonrpcMessage) (s : String),
      op = Op.parseTestResponse data → h.p = SubscriberType.RPC →
      unmarshalMessage data = .ok msg → unmarshalString msg.Result = .ok s →
      wellFormedCursor s = true) :
    wellFormedCursor (op.run h).fq.FromBlock = true := by
  cases op with
  | getTriggerJson => exact hwf
  | getTestJson => exact hwf
  | parseResponse data =>
    simp only [Op.run, ParseResponse_state]
    exact hwf
  | parseTestResponse data =>
    simp only [Op.run, ParseTestResponse]
    by_cases hp : h.p = SubscriberType.RPC
    · rw [if_pos hp]
      cases hmsg : unmarshalMessage data with
      | error e => exact hwf
      | ok msg =>
        cases hs : unmarshalString msg.Result with
        | error e => simpa [hs] using hwf
        | ok s => simpa [hs] using hres data msg s rfl hp hmsg hs
    · rw [if_neg hp]
      exact hwf

/-- Witness of C12 amended: the Pull-mode manager with unset cursor and the
health-check response with result "0x10". -/
theorem cursor_wellFormed_preserved_witness :
    wellFormedCursor ((Op.parseTestResponse headResponse).run rpcManager).fq.FromBlock = true :=
  cursor_wellFormed_preserved rpcManager (Op.parseTestResponse headResponse) (by decide)
    (by
      intro data msg s hop _ hmsg hs
      injection hop with hdata
      subst hdata
      have hm : unmarshalMessage headResponse =
          .ok { Version := bytesOf "2.0", ID := bytesOf "1", Method := [], Params := [], Error := none,
                Result := bytesOf "\"0x10\"" } := by decide
      rw [hm] at hmsg
      injection hmsg with hmsg
      subst hmsg
      have hr : unmarshalString (bytesOf "\"0x10\"") = .ok "0x10" := by decide
      rw [hr] at hs
      injection hs with hs
      subst hs
      decide)

/-- C14: `MatchesJobID(expected, actual)` is true exactly when
`actual = expected`, or `ExpectsMock` is set and `actual = "mock"`.  With
`ExpectsMock` false it is string equality, and "mock" is not accepted for a
different expected id. -/
theorem MatchesJobID_iff :
    (∀ (ExpectsMock : Bool) (expected actual : String),
      MatchesJobID ExpectsMock expected actual = true ↔
        (actual = expected ∨ (ExpectsMock = true ∧ actual = "mock"))) ∧
    (∀ expected actual : String,
      MatchesJobID false expected actual = true ↔ actual = expected) ∧
    (∀ expected : String, expected ≠ "mock" → MatchesJobID false expected "mock" = false) := by
  refine ⟨?_, ?_, ?_⟩
  · intro m expected actual
    unfold MatchesJobID
    by_cases h1 : actual = expected
    · simp [h1]
    · cases m <;> by_cases h2 : actual = "mock" <;> simp [h1, h2]
  · intro expected actual
    unfold MatchesJobID
    by_cases h1 : actual = expected <;> simp [h1]
  · intro expected hne
    unfold MatchesJobID
    have : ¬ "mock" = expected := fun h => hne h.symm
    simp [this]

/-- Witness of C14: in a mock context "mock" matches the id "job-1"; outside
one it does not. -/
theorem MatchesJobID_iff_witness :
    MatchesJobID true "job-1" "mock" = true ∧ MatchesJobID false "job-1" "mock" = false :=
  ⟨(MatchesJobID_iff.1 true "job-1" "mock").mpr (Or.inr ⟨rfl, rfl⟩),
   MatchesJobID_iff.2.2 "job-1" (by decide)⟩

/-- C15: for a manager in Push (WS) or Pull (RPC) mode and input that decodes
as an envelope, whatever its params or result contain, `ParseResponse` returns
`ok = true` with no events and leaves the manager, the cursor included,
unchanged. -/
theorem ParseResponse_decoded_is_noop (h : hmyManager) (data : Bytes) (msg : JsonrpcMessage)
    (hp : h.p = SubscriberType.WS ∨ h.p = SubscriberType.RPC)
    (hmsg : unmarshalMessage data = .ok msg) :
    ParseResponse h data = ([], true, h) := by
  unfold ParseResponse
  rw [hmsg]
  rcases hp with hp | hp <;> simp [hp]

/-- Witness of C15: the Pull-mode manager with cursor `latest` and the response
whose result is `"0x10"`. -/
theorem ParseResponse_decoded_is_noop_witness :
    ParseResponse rpcLatestManager headResponse = ([], true, rpcLatestManager) :=
  ParseResponse_decoded_is_noop rpcLatestManager headResponse
    { Version := bytesOf "2.0", ID := bytesOf "1", Method := [], Params := [], Error := none,
      Result := bytesOf "\"0x10\"" }
    (Or.inr rfl) (by decide)

/-- C16: for a list `data` all of whose elements are non-empty strings,
`ConvertStringArrayToKV(data)` is the map whose keys are exactly the elements
`data[2i]` with `2i+1 < len(data)`, and which maps such a key `k` to
`data[2j+1]` for the largest `j` with `data[2j] = k` and `2j+1 < len(data)`:
later pairs overwrite earlier ones, and the unpaired last element of a list of
odd length is dropped. -/
theorem ConvertStringArrayToKV_pairs (data : List String) (hne : ∀ s ∈ data, s ≠ "") :
    (∀ k, k ∈ ConvertStringArrayToKV data ↔
      ∃ i, 2 * i + 1 < data.length ∧ data[2 * i]? = some k) ∧
    (∀ k j, 2 * j + 1 < data.length → data[2 * j]? = some k →
      (∀ j', j < j' → 2 * j' + 1 < data.length → data[2 * j']? ≠ some k) →
      (ConvertStringArrayToKV data).lookup k = data[2 * j + 1]?) := by
  have h : ConvertStringArrayToKV data = insertPairs ∅ data :=
    convertLoop_eq_insertPairs data ∅ "" 0 hne rfl
  rw [h]
  constructor
  · intro k
    rw [mem_insertPairs]
    simp
  · intro k j hj hk hlast
    exact lookup_insertPairs_of_last data ∅ k j hj hk hlast

/-- Witness of C16: in `["a", "1", "b", "2", "a", "3", "c"]` the key "a" comes
twice and ends with the later value "3", and the unpaired "c" is no key. -/
theorem ConvertStringArrayToKV_pairs_witness :
    (ConvertStringArrayToKV ["a", "1", "b", "2", "a", "3", "c"]).lookup "a" = some "3" ∧
    ("c" ∈ ConvertStringArrayToKV ["a", "1", "b", "2", "a", "3", "c"] ↔
      ∃ i, 2 * i + 1 < 7 ∧ ["a", "1", "b", "2", "a", "3", "c"][2 * i]? = some "c") :=
  ⟨(ConvertStringArrayToKV_pairs ["a", "1", "b", "2", "a", "3", "c"] (by decide)).2 "a" 2
      (by decide) (by decide) (by intro j' h1 h2; simp at h2; omega),
   (ConvertStringArrayToKV_pairs ["a", "1", "b", "2", "a", "3", "c"] (by decide)).1 "c"⟩

/-- C17: for every list `data`, empty strings allowed, every entry `(k, v)` of
`ConvertStringArrayToKV(data)` is such that `k` is a non-empty element at some
even index `i`, `v` is a non-empty element at some odd index `j > i`, and every
element at an odd index strictly between `i` and `j` is empty.  Hence the empty
string is neither a key nor a value, and the map has at most
`floor(len(data)/2)` entries. -/
theorem ConvertStringArrayToKV_entries (data : List String) :
    (∀ k v, (ConvertStringArrayToKV data).lookup k = some v →
      ∃ i j, i % 2 = 0 ∧ j % 2 = 1 ∧ i < j ∧ data[i]? = some k ∧ data[j]? = some v ∧
        k ≠ "" ∧ v ≠ "" ∧ ∀ m, i < m → m < j → m % 2 = 1 → data[m]? = some "") ∧
    "" ∉ ConvertStringArrayToKV data ∧
    (∀ k, (ConvertStringArrayToKV data).lookup k ≠ some "") ∧
    (ConvertStringArrayToKV data).entries.length ≤ data.length / 2 := by
  have hentries : ∀ k v, (ConvertStringArrayToKV data).lookup k = some v →
      EntryFrom data k v :=
    convertLoop_entries data data ∅ "" 0 rfl (fun k v h => by simp at h) (Or.inl rfl)
  refine ⟨hentries, ?_, ?_, ?_⟩
  · intro hmem
    rw [← AList.lookup_isSome, Option.isSome_iff_exists] at hmem
    obtain ⟨v, hv⟩ := hmem
    obtain ⟨i, j, _, _, _, _, _, hk, _⟩ := hentries "" v hv
    exact hk rfl
  · intro k hk
    obtain ⟨i, j, _, _, _, _, _, _, hv, _⟩ := hentries k "" hk
    exact hv rfl
  · have h := convertLoop_length data ∅ "" 0
    simpa [ConvertStringArrayToKV] using h

/-- Witness of C17: in `["k", "", "", "v"]` the key at index 0 waits over the
empty elements for the value at index 3. -/
theorem ConvertStringArrayToKV_entries_witness :
    ∃ i j, i % 2 = 0 ∧ j % 2 = 1 ∧ i < j ∧ ["k", "", "", "v"][i]? = some "k" ∧
      ["k", "", "", "v"][j]? = some "v" ∧ "k" ≠ "" ∧ "v" ≠ "" ∧
      ∀ m, i < m → m < j → m % 2 = 1 → ["k", "", "", "v"][m]? = some "" :=
  (ConvertStringArrayToKV_entries ["k", "", "", "v"]).1 "k" "v" (by decide)

/-- C18 as stated fails: with `m1` the nil map and `m2` the map with the one
entry "a" ↦ "1", `MergeMaps` does not return the union but panics on the
assignment `m1[k] = v`. -/
theorem MergeMaps_nil_panics :
    MergeMaps (none : GoMap String) (some (AList.singleton "a" "1")) =
      .error Panic.assignmentToEntryInNilMap := by
  rfl

/-- C18 amended: for all maps `m1` and `m2` with `m1` not nil, `MergeMaps(m1,
m2)` returns the right-biased union: its key set is `keys(m1) ∪ keys(m2)`, each
key of `m2` maps to the value of `m2`, and each key only in `m1` keeps the
value of `m1`; merging it with `m2` once more gives a map with the same
entries.  Merging an empty or nil `m2` returns `m1` unchanged, whatever `m1`
is. -/
theorem MergeMaps_right_biased {V : Type} :
    (∀ (a1 : Entries V) (m2 : GoMap V),
      ∃ r : Entries V, MergeMaps (some a1) m2 = .ok (some r) ∧
        (∀ k, k ∈ r ↔ k ∈ a1 ∨ (m2.get k).isSome = true) ∧
        (∀ k v, m2.get k = some v → r.lookup k = some v) ∧
        (∀ k, m2.get k = none → r.lookup k = a1.lookup k) ∧
        ∃ r2 : Entries V, MergeMaps (some r) m2 = .ok (some r2) ∧
          ∀ k, r2.lookup k = r.lookup k) ∧
    (∀ m1 : GoMap V, MergeMaps m1 none = .ok m1 ∧ MergeMaps m1 (some ∅) = .ok m1) := by
  constructor
  · intro a1 m2
    cases m2 with
    | none =>
      refine ⟨a1, rfl, ?_, ?_, ?_, a1, rfl, fun _ => rfl⟩
      · intro k
        simp [GoMap.get]
      · intro k v h
        simp [GoMap.get] at h
      · intro k _
        rfl
    | some a2 =>
      have hmem : ∀ k, (GoMap.get (some a2) k).isSome = true ↔ k ∈ a2.entries.keys := by
        intro k
        simp only [GoMap.get]
        rw [AList.lookup_isSome]
        exact AList.mem_keys
      have hget : ∀ k v, GoMap.get (some a2) k = some v → a2.entries.dlookup k = some v :=
        fun k v h => h
      have hnone : ∀ k, GoMap.get (some a2) k = none → k ∉ a2.entries.keys := by
        intro k h
        simp only [GoMap.get] at h
        rw [AList.lookup_eq_none] at h
        exact fun hk => h (AList.mem_keys.mpr hk)
      have hmerge : ∀ a : Entries V, MergeMaps (some a) (some a2) =
          .ok (some (a2.entries.foldl (fun m e => m.insert e.1 e.2) a)) :=
        fun a => mergeLoop_some a2.entries a
      refine ⟨a2.entries.foldl (fun m e => m.insert e.1 e.2) a1, hmerge a1, ?_, ?_, ?_, ?_⟩
      · intro k
        rw [mem_foldl_insert, hmem]
      · intro k v h
        exact lookup_foldl_insert_of_mem _ _ k v a2.nodupKeys (hget k v h)
      · intro k h
        exact lookup_foldl_insert_of_not_mem _ _ k (hnone k h)
      · refine ⟨a2.entries.foldl (fun m e => m.insert e.1 e.2)
          (a2.entries.foldl (fun m e => m.insert e.1 e.2) a1), hmerge _, ?_⟩
        intro k
        cases hk : GoMap.get (some a2) k with
        | none => exact lookup_foldl_insert_of_not_mem _ _ k (hnone k hk)
        | some v =>
          rw [lookup_foldl_insert_of_mem _ _ k v a2.nodupKeys (hget k v hk),
            lookup_foldl_insert_of_mem _ _ k v a2.nodupKeys (hget k v hk)]
  · intro m1
    exact ⟨rfl, rfl⟩

/-- Witness of C18 amended: merging `\x7b"a": "2", "c": "3"\x7d` into
`\x7b"a": "1", "b": "1"\x7d` gives "a" ↦ "2", "b" ↦ "1", "c" ↦ "3". -/
theorem MergeMaps_right_biased_witness :
    ∃ r : Entries String,
      MergeMaps (some ((AList.singleton "a" "1").insert "b" "1"))
        (some ((AList.singleton "a" "2").insert "c" "3")) = .ok (some r) ∧
      r.lookup "a" = some "2" ∧ r.lookup "b" = some "1" ∧ r.lookup "c" = some "3" := by
  obtain ⟨r, hr, _, h2, h3, _⟩ := MergeMaps_right_biased.1
    ((AList.singleton "a" "1").insert "b" "1") (some ((AList.singleton "a" "2").insert "c" "3"))
  refine ⟨r, hr, h2 "a" "2" (by decide), ?_, h2 "c" "3" (by decide)⟩
  rw [h3 "b" (by decide)]
  decide

end Hmy
